import Mathlib

/-!
# git-hours: the session estimator and the commit analysis

A shallow embedding of `pkg/analyzer/analyzer.go`.

Modelling conventions.

* A `time.Time` is represented by its instant, an integer count of nanoseconds
  counted from the zero time (so `IsZero` is `t = 0`).  `Before`, `After` and
  `Sub` only look at the instant, never at the location.
* A `time.Duration` is an integer count of nanoseconds.
* The estimator comes twice.  In `estimateHours` and everything built on it,
  `Sub` is the exact difference, `float64` values are exact rationals and Go
  `int` values are integers; the results stated on these functions compare
  runs that perform the same operations, or use the hour count of an author
  as a given number.  The section *The estimator in the arithmetic of the
  program* repeats the estimator as the program computes it
  (`estimateHoursGo`): `Sub` saturates at the ends of the range of `Duration`
  (`Time.SubGo`), every floating point operation rounds to binary64 (`f64`),
  and `int(x)` outside the 64 bit range, which Go leaves to the platform, is
  a parameter of the model (`intOfFloat`).  Every result in which rounding,
  saturation or the range of `int` can change the outcome is stated on these
  functions; `estimateHoursGo_eq_exact` gives conditions under which the two
  estimators agree.
* `sort.Slice` is insertion sort with the caller's `less`; on instants every
  correct sort returns the same slice (`sortDates_unique`).
* A Go `map[string]T` is an association list with pairwise distinct keys, in
  order of first insertion; `range` visits it in that order (Go leaves the
  order open, and `buildResult_perm` shows that the result does not depend
  on it).
* The go-git repository is a parameter: a record of the answers of
  `PlainOpen`, `Reference`, `Head`, `Log` and of the commit iterator.
-/

namespace GitHours

/-! ## Time -/

/-- Instant of a `time.Time`, in nanoseconds since the zero time. -/
abbrev Time := ℤ

/-- Value of a `time.Duration`, in nanoseconds. -/
abbrev Duration := ℤ

/-- Go `t.Before(u)`. -/
def Time.Before (t u : Time) : Bool := decide (t < u)

/-- Go `t.After(u)`. -/
def Time.After (t u : Time) : Bool := decide (u < t)

/-- Go `t.IsZero()`. -/
def Time.IsZero (t : Time) : Bool := decide (t = 0)

/-- Go `t.Sub(u)` in exact arithmetic: the difference of the instants (see
`Time.SubGo` for the saturation at the range of `Duration`). -/
def Time.Sub (t u : Time) : Duration := t - u

/-- Go `d.Minutes()` in exact arithmetic: one minute is `60 * 10^9` nanoseconds
(see `Duration.MinutesGo` for the value in binary64). -/
def Duration.Minutes (d : Duration) : ℚ := (d : ℚ) / 60000000000

/-- Go `math.Round`: the nearest integer, halves away from zero. -/
def mathRound (x : ℚ) : ℤ := if 0 ≤ x then ⌊x + 1 / 2⌋ else ⌈x - 1 / 2⌉

/-! ## Configuration -/

/-- The `Config` struct. -/
structure Config where
  MaxCommitDiffInMinutes : ℤ
  FirstCommitAdditionInMinutes : ℤ
  Since : Time
  Until : Time
  MergeRequest : Bool
  GitPath : String
  Branch : String
  EmailAliases : String → Option String

/-! ## The session estimator -/

/-- The call `sort.Slice(dates, func(i, j) bool { return dates[i].Before(dates[j]) })`:
an element goes in front of the first element that is not before it. -/
def sortDates (dates : List Time) : List Time :=
  dates.insertionSort (fun a b => ¬ Time.Before b a = true)

/-- The `for i := 0; i < len(dates)-1; i++` loop of `estimateHours`, started at
the pair `(d0, d1)` with the running `totalMinutes`. -/
def sessionLoop (config : Config) : List Time → ℚ → ℚ
  | d0 :: d1 :: rest, totalMinutes =>
    let diffMinutes := Duration.Minutes (Time.Sub d1 d0)
    if diffMinutes < (config.MaxCommitDiffInMinutes : ℚ) then
      sessionLoop config (d1 :: rest) (totalMinutes + diffMinutes)
    else
      sessionLoop config (d1 :: rest) (totalMinutes + (config.FirstCommitAdditionInMinutes : ℚ))
  | _, totalMinutes => totalMinutes

/-- The minute total `totalMinutes` of `estimateHours` before it is rounded. -/
def totalMinutes (dates : List Time) (config : Config) : ℚ :=
  sessionLoop config (sortDates dates) 0

/-- The function `estimateHours`. -/
def estimateHours (dates : List Time) (config : Config) : ℤ :=
  if dates.length < 2 then 0
  else mathRound (totalMinutes dates config / 60)

/-- Instant that lies `m` whole minutes after the zero time. -/
def minute (m : ℤ) : Time := m * 60000000000

/-- Configuration with the two thresholds set and everything else at the
defaults of `main` (no date window, merges included, no aliases). -/
def thresholds (maxGap firstAdd : ℤ) : Config :=
  { MaxCommitDiffInMinutes := maxGap
    FirstCommitAdditionInMinutes := firstAdd
    Since := 0
    Until := 0
    MergeRequest := true
    GitPath := "."
    Branch := ""
    EmailAliases := fun _ => none }

/-! ## The estimator in the words of the specification -/

/-- Minutes credited for the consecutive pair `(a, b)`: the gap itself when it
is below `maxGap`, the fixed credit `firstAdd` otherwise. -/
def specCredit (maxGap firstAdd : ℤ) (a b : Time) : ℚ :=
  if ((b - a : ℤ) : ℚ) / 60000000000 < (maxGap : ℚ) then ((b - a : ℤ) : ℚ) / 60000000000
  else (firstAdd : ℚ)

/-- Nearest integer to `x`; a fractional part of exactly one half goes away
from zero. -/
def roundHalfAway (x : ℚ) : ℤ :=
  if Int.fract x < 1 / 2 then ⌊x⌋
  else if 1 / 2 < Int.fract x then ⌊x⌋ + 1
  else if 0 ≤ x then ⌊x⌋ + 1 else ⌊x⌋

/-- Reference estimate: sort ascending, add the credit of every consecutive
pair, divide by 60 and round. -/
def specEstimateHours (maxGap firstAdd : ℤ) (ts : List Time) : ℤ :=
  let sorted := ts.mergeSort (fun a b => decide (a ≤ b))
  roundHalfAway ((List.zipWith (specCredit maxGap firstAdd) sorted sorted.tail).sum / 60)

/-- The credit of one consecutive pair as computed inside the loop. -/
def pairCredit (config : Config) (d0 d1 : Time) : ℚ :=
  if Duration.Minutes (Time.Sub d1 d0) < (config.MaxCommitDiffInMinutes : ℚ) then
    Duration.Minutes (Time.Sub d1 d0)
  else (config.FirstCommitAdditionInMinutes : ℚ)

/-- The timestamps of scenario A: 09:00, 09:30, 11:00 and 15:00 of one day. -/
def scenarioA : List Time := [minute 540, minute 570, minute 660, minute 900]

/-! ## Commits, the ledger and the result -/

/-- The `object.Signature` of a commit author. -/
structure Signature where
  Name : String
  Email : String
  When : Time

/-- The fields of `object.Commit` that the analysis reads. -/
structure Commit where
  Author : Signature
  Message : String

/-- The `AuthorWork` struct. -/
structure AuthorWork where
  Name : String
  Hours : ℤ
  Commits : ℤ
deriving DecidableEq

/-- Go `m[k]` with the comma-ok form: the value stored under `k`, if any. -/
def mapGet {β : Type} : List (String × β) → String → Option β
  | [], _ => none
  | (k', v) :: rest, k => if k' = k then some v else mapGet rest k

/-- Go `m[k] = v`: overwrite the entry of `k`, or add one. -/
def mapSet {β : Type} : List (String × β) → String → β → List (String × β)
  | [], k, v => [(k, v)]
  | (k', v') :: rest, k, v => if k' = k then (k, v) :: rest else (k', v') :: mapSet rest k v

/-- The `Result` map. -/
abbrev Result := List (String × AuthorWork)

/-- The two variables the `ForEach` callback updates. -/
structure Ledger where
  authorCommits : List (String × List Time)
  totalCommits : ℤ

/-- Go `strings.HasPrefix(s, "Merge ")`. -/
def hasMergePrefix (s : String) : Bool := "Merge ".data.isPrefixOf s.data

/-- The body of the `commitIter.ForEach` callback, as a step on the ledger. -/
def forEachCommit (config : Config) (st : Ledger) (c : Commit) : Ledger :=
  if (!config.MergeRequest && hasMergePrefix c.Message) = true then st
  else if (!Time.IsZero config.Since && Time.Before c.Author.When config.Since) = true then st
  else if (!Time.IsZero config.Until && Time.After c.Author.When config.Until) = true then st
  else
    let email :=
      match config.EmailAliases c.Author.Email with
      | some aliasEmail => aliasEmail
      | none => c.Author.Email
    { authorCommits :=
        mapSet st.authorCommits email
          ((mapGet st.authorCommits email).getD [] ++ [c.Author.When])
      totalCommits := st.totalCommits + 1 }

/-- The function `getAuthorName`. -/
def getAuthorName (email : String) : String := email

/-- One round of `for email, dates := range authorCommits`, on the pair
`(result, totalHours)`. -/
def hoursStep (config : Config) (acc : Result × ℤ) (entry : String × List Time) : Result × ℤ :=
  let hours := estimateHours entry.2 config
  let name := getAuthorName entry.1
  (mapSet acc.1 entry.1 { Name := name, Hours := hours, Commits := (entry.2.length : ℤ) },
    acc.2 + hours)

/-- The part of `AnalyzeRepository` after the commit walk: the per-author
entries and then the `"total"` entry. -/
def buildResult (config : Config) (st : Ledger) : Result :=
  let acc := st.authorCommits.foldl (hoursStep config) ([], 0)
  mapSet acc.1 "total" { Name := "", Hours := acc.2, Commits := st.totalCommits }

/-- What a `object.CommitIter` does under `ForEach`: it hands `commits` to the
callback in traversal order and then ends, with the error `err` if there is one. -/
structure CommitIter where
  commits : List Commit
  err : Option String

/-- The answers of an opened `git.Repository`; a reference is kept as its hash. -/
structure Repository where
  Reference : String → Except String String
  Head : Except String String
  Log : String → Except String CommitIter

/-- The answer of `git.PlainOpen` for every path. -/
structure Git where
  PlainOpen : String → Except String Repository

/-- Go `plumbing.NewBranchReferenceName`. -/
def NewBranchReferenceName (branch : String) : String := "refs/heads/" ++ branch

/-- The function `AnalyzeRepository`; the pair is Go's `(Result, error)`, with
`none` for `nil`. -/
def AnalyzeRepository (git : Git) (config : Config) : Option Result × Option String :=
  match git.PlainOpen config.GitPath with
  | .error err => (none, some ("failed to open repository: " ++ err))
  | .ok repo =>
    match (if config.Branch ≠ "" then repo.Reference (NewBranchReferenceName config.Branch)
      else repo.Head) with
    | .error err => (none, some ("failed to get reference: " ++ err))
    | .ok ref =>
      match repo.Log ref with
      | .error err => (none, some ("failed to get commit history: " ++ err))
      | .ok commitIter =>
        let st := commitIter.commits.foldl (forEachCommit config)
          { authorCommits := [], totalCommits := 0 }
        match commitIter.err with
        | some err => (none, some ("failed to process commits: " ++ err))
        | none => (some (buildResult config st), none)

/-- A repository whose head resolves and whose log yields `commits` without error. -/
def gitOf (commits : List Commit) : Git :=
  { PlainOpen := fun _ =>
      .ok { Reference := fun _ => .ok "h"
            Head := .ok "h"
            Log := fun _ => .ok { commits := commits, err := none } } }

/-- A commit by `email`, with message `msg`, authored `m` minutes after the zero time. -/
def mkCommit (email : String) (msg : String) (m : ℤ) : Commit :=
  { Author := { Name := email, Email := email, When := minute m }, Message := msg }

/-! ## The filter and the buckets in the words of the specification -/

/-- The commit passes the merge exclusion and both date bounds. -/
def survives (config : Config) (c : Commit) : Bool :=
  !(!config.MergeRequest && hasMergePrefix c.Message) &&
    (!(!Time.IsZero config.Since && Time.Before c.Author.When config.Since) &&
      !(!Time.IsZero config.Until && Time.After c.Author.When config.Until))

/-- The author email after one lookup in the alias table. -/
def canonicalEmail (config : Config) (c : Commit) : String :=
  (config.EmailAliases c.Author.Email).getD c.Author.Email

/-- The accepted commits of a stream, in traversal order. -/
def accepted (config : Config) (commits : List Commit) : List Commit :=
  commits.filter (survives config)

/-- The authored timestamps of the accepted commits whose canonical email is `k`. -/
def bucket (config : Config) (commits : List Commit) (k : String) : List Time :=
  ((accepted config commits).filter (fun c => canonicalEmail config c = k)).map
    (fun c => c.Author.When)

/-- The canonical emails that have at least one accepted commit. -/
def authors (config : Config) (commits : List Commit) : Finset String :=
  ((accepted config commits).map (canonicalEmail config)).toFinset

/-! ## Notions used to state the results about a run -/

/-- The iterator that `AnalyzeRepository` walks: present when the repository
opens, the reference resolves and the log is obtained. -/
def commitLog (git : Git) (config : Config) : Option CommitIter :=
  match git.PlainOpen config.GitPath with
  | .error _ => none
  | .ok repo =>
    match (if config.Branch ≠ "" then repo.Reference (NewBranchReferenceName config.Branch)
      else repo.Head) with
    | .error _ => none
    | .ok ref =>
      match repo.Log ref with
      | .error _ => none
      | .ok commitIter => some commitIter

/-- The ledger after the callback has seen `commits`. -/
def ledgerOf (config : Config) (commits : List Commit) : Ledger :=
  commits.foldl (forEachCommit config) { authorCommits := [], totalCommits := 0 }

/-- The same repository with every commit stream passed through `f`. -/
def Git.mapCommits (f : List Commit → List Commit) (git : Git) : Git :=
  { PlainOpen := fun path =>
      match git.PlainOpen path with
      | .error e => .error e
      | .ok repo =>
        .ok { Reference := repo.Reference
              Head := repo.Head
              Log := fun h =>
                match repo.Log h with
                | .error e => .error e
                | .ok it => .ok { commits := f it.commits, err := it.err } } }

/-- The keys of a map, in order of insertion. -/
def mapKeys {β : Type} (m : List (String × β)) : List String := m.map Prod.fst

/-- The sum of the `Commits` fields of the entries other than `"total"`. -/
def authorCommitsSum (res : Result) : ℤ :=
  ((res.filter (fun e => decide (e.1 ≠ "total"))).map (fun e => e.2.Commits)).sum

/-- The entry that the `range authorCommits` loop writes for one bucket. -/
def workOf (config : Config) (entry : String × List Time) : String × AuthorWork :=
  (entry.1,
    { Name := getAuthorName entry.1
      Hours := estimateHours entry.2 config
      Commits := (entry.2.length : ℤ) })

/-- The `"total"` entry written after the loop. -/
def totalOf (config : Config) (st : Ledger) : AuthorWork :=
  { Name := ""
    Hours := (st.authorCommits.map (fun e => estimateHours e.2 config)).sum
    Commits := st.totalCommits }

/-- Two commits, the first by an author whose email is the word `total`. -/
def streamWithTotalAuthor : List Commit :=
  [mkCommit "total" "init" 0, mkCommit "a@x.com" "fix" 10]

/-- Two authors who each commit at minute 0 and at minute 60. -/
def streamTwoAuthors : List Commit :=
  [mkCommit "a@x.com" "one" 0, mkCommit "b@x.com" "two" 0,
    mkCommit "a@x.com" "three" 60, mkCommit "b@x.com" "four" 60]

/-- Three commits of one author; the middle one is a merge commit. -/
def streamWithMerge : List Commit :=
  [mkCommit "a@x.com" "start" 0, mkCommit "a@x.com" "Merge branch 'x'" 60,
    mkCommit "a@x.com" "finish" 200]

/-- The defaults of `main` with merge commits left out. -/
def noMerges : Config :=
  { MaxCommitDiffInMinutes := 120
    FirstCommitAdditionInMinutes := 120
    Since := 0
    Until := 0
    MergeRequest := false
    GitPath := "."
    Branch := ""
    EmailAliases := fun _ => none }

/-! ## Notions used to state the date window and the failure stages -/

/-- The date window in the words of the specification: each bound is unset
(zero) or the time is not strictly outside it. -/
def inWindow (config : Config) (t : Time) : Prop :=
  (config.Since = 0 ∨ ¬ t < config.Since) ∧ (config.Until = 0 ∨ ¬ config.Until < t)

/-- The ledger after the callback has recorded the commit `c`: its timestamp is
appended to the bucket of its canonical email and the counter goes up by one. -/
def recordCommit (config : Config) (st : Ledger) (c : Commit) : Ledger :=
  { authorCommits :=
      mapSet st.authorCommits (canonicalEmail config c)
        ((mapGet st.authorCommits (canonicalEmail config c)).getD [] ++ [c.Author.When])
    totalCommits := st.totalCommits + 1 }

/-- The reference that `AnalyzeRepository` asks the repository for: the named
branch when `Branch` is set, the head otherwise. -/
def resolveReference (repo : Repository) (config : Config) : Except String String :=
  if config.Branch ≠ "" then repo.Reference (NewBranchReferenceName config.Branch)
  else repo.Head

/-- A date window from minute 100 to minute 200, merges included. -/
def windowed : Config :=
  { MaxCommitDiffInMinutes := 120
    FirstCommitAdditionInMinutes := 120
    Since := minute 100
    Until := minute 200
    MergeRequest := true
    GitPath := "."
    Branch := ""
    EmailAliases := fun _ => none }

/-- A repository that cannot be opened. -/
def gitUnreadable : Git :=
  { PlainOpen := fun _ => .error "repository does not exist" }

/-- A repository that opens but has neither the branch nor a head. -/
def gitNoReference : Git :=
  { PlainOpen := fun _ =>
      .ok { Reference := fun _ => .error "reference not found"
            Head := .error "reference not found"
            Log := fun _ => .ok { commits := [], err := none } } }

/-- A repository whose log cannot be obtained. -/
def gitNoLog : Git :=
  { PlainOpen := fun _ =>
      .ok { Reference := fun _ => .ok "h"
            Head := .ok "h"
            Log := fun _ => .error "object not found" } }

/-- A repository whose iterator yields one commit and then fails. -/
def gitBrokenIter : Git :=
  { PlainOpen := fun _ =>
      .ok { Reference := fun _ => .ok "h"
            Head := .ok "h"
            Log := fun _ =>
              .ok { commits := [mkCommit "a@x.com" "one" 0], err := some "object not found" } } }

/-- An alias table: `a.alt@x.com` is an alias of `a@x.com`, `b@x.com` of
`c@x.com`, and `c@x.com` of `d@x.com`. -/
def aliasTable (email : String) : Option String :=
  if email = "a.alt@x.com" then some "a@x.com"
  else if email = "b@x.com" then some "c@x.com"
  else if email = "c@x.com" then some "d@x.com"
  else none

/-- The defaults of `main` with the alias table `aliasTable`. -/
def withAliases : Config :=
  { MaxCommitDiffInMinutes := 120
    FirstCommitAdditionInMinutes := 120
    Since := 0
    Until := 0
    MergeRequest := true
    GitPath := "."
    Branch := ""
    EmailAliases := aliasTable }

/-- Commits under two emails of one person, and one commit each under two
emails that are chained in the alias table. -/
def streamWithAliases : List Commit :=
  [mkCommit "a@x.com" "one" 0, mkCommit "a.alt@x.com" "two" 100,
    mkCommit "a@x.com" "three" 200, mkCommit "b@x.com" "four" 0,
    mkCommit "c@x.com" "five" 0]

/-- One commit by an author whose email is the word `total`. -/
def streamOnlyTotalAuthor : List Commit := [mkCommit "total" "init" 0]

/-! ## Sessions in the words of the specification -/

/-- The gap from `a` to `b` in minutes. -/
def gapMinutes (a b : Time) : ℚ := ((b - a : ℤ) : ℚ) / 60000000000

/-- The number of sessions of an ascending list: maximal runs whose consecutive
gaps are below `maxGap`. -/
def sessionCount (maxGap : ℤ) : List Time → ℕ
  | [] => 0
  | [_] => 1
  | a :: b :: rest =>
    (if gapMinutes a b < (maxGap : ℚ) then 0 else 1) + sessionCount maxGap (b :: rest)

/-- The sum of the gaps that lie inside a session of an ascending list. -/
def withinSessionMinutes (maxGap : ℤ) : List Time → ℚ
  | a :: b :: rest =>
    (if gapMinutes a b < (maxGap : ℚ) then gapMinutes a b else 0) +
      withinSessionMinutes maxGap (b :: rest)
  | _ => 0

/-- A commit whose author has the display name `Alice`. -/
def commitByAlice : Commit :=
  { Author := { Name := "Alice", Email := "alice@x.com", When := minute 0 }
    Message := "init" }

/-! ## Binary64 rounding -/

/-- Nearest integer, a tie going to the even neighbour. -/
def roundHalfEven (x : ℚ) : ℤ :=
  if Int.fract x < 1 / 2 then ⌊x⌋
  else if 1 / 2 < Int.fract x then ⌊x⌋ + 1
  else if ⌊x⌋ % 2 = 0 then ⌊x⌋ else ⌊x⌋ + 1

/-- The number of halvings that bring `n` below 2, with `fuel` as a bound on
the number of steps. -/
def log2Aux : ℕ → ℕ → ℕ
  | 0, _ => 0
  | fuel + 1, n => if n < 2 then 0 else log2Aux fuel (n / 2) + 1

/-- The position of the leading bit of `n`: the `k` with `2 ^ k ≤ n < 2 ^ (k + 1)`. -/
def ilog2 (n : ℕ) : ℕ := log2Aux n n

/-- The binary exponent of a non-zero rational: the `e` with
`2 ^ e ≤ |x| < 2 ^ (e + 1)`. -/
def binade (x : ℚ) : ℤ :=
  let e0 : ℤ := (ilog2 x.num.natAbs : ℤ) - (ilog2 x.den : ℤ)
  if (2 : ℚ) ^ e0 ≤ |x| then e0 else e0 - 1

/-- Rounding to binary64: 53 significant bits, nearest, ties to even (at
magnitudes where neither overflow nor subnormals occur). -/
def f64 (x : ℚ) : ℚ :=
  if x = 0 then 0
  else (roundHalfEven (x / (2 : ℚ) ^ (binade x - 52)) : ℚ) * (2 : ℚ) ^ (binade x - 52)

/-! ## The estimator in the arithmetic of the program

The estimator once more, with the three places where the Go program leaves
exact arithmetic: `t.Sub(u)` saturates at the ends of the range of `Duration`,
every floating point operation rounds to binary64, and `int(x)` of a value
outside the 64 bit range is left to the platform. -/

/-- Go `maxDuration`: the largest `Duration`, `1<<63 - 1` nanoseconds. -/
def maxDuration : Duration := 9223372036854775807

/-- Go `minDuration`: the smallest `Duration`, `-1 << 63` nanoseconds. -/
def minDuration : Duration := -9223372036854775808

/-- Go `t.Sub(u)` as the library computes it: the difference `t - u`, and the
nearest end of the range of `Duration` when the difference does not fit. -/
def Time.SubGo (t u : Time) : Duration := max minDuration (min maxDuration (t - u))

/-- Go `d.Minutes()` in binary64: `float64(min) + float64(nsec)/(60*1e9)` for
`min := d / Minute` and `nsec := d % Minute`. -/
def Duration.MinutesGo (d : Duration) : ℚ :=
  f64 (f64 ((Int.tdiv d 60000000000 : ℤ) : ℚ) +
    f64 (f64 ((Int.tmod d 60000000000 : ℤ) : ℚ) / 60000000000))

/-- What one turn of the loop of `estimateHours` adds for the pair `(d0, d1)`,
in binary64: the gap when `diffMinutes < float64(config.MaxCommitDiffInMinutes)`,
and `float64(config.FirstCommitAdditionInMinutes)` otherwise. -/
def creditGo (config : Config) (d0 d1 : Time) : ℚ :=
  if Duration.MinutesGo (Time.SubGo d1 d0) < f64 (config.MaxCommitDiffInMinutes : ℚ) then
    Duration.MinutesGo (Time.SubGo d1 d0)
  else f64 (config.FirstCommitAdditionInMinutes : ℚ)

/-- The loop of `estimateHours` over the sorted dates in binary64, with the
running `totalMinutes` as second argument. -/
def sessionLoopGo (config : Config) : List Time → ℚ → ℚ
  | d0 :: d1 :: rest, totalMinutes =>
    let diffMinutes := Duration.MinutesGo (Time.SubGo d1 d0)
    if diffMinutes < f64 (config.MaxCommitDiffInMinutes : ℚ) then
      sessionLoopGo config (d1 :: rest) (f64 (totalMinutes + diffMinutes))
    else
      sessionLoopGo config (d1 :: rest)
        (f64 (totalMinutes + f64 (config.FirstCommitAdditionInMinutes : ℚ)))
  | _, totalMinutes => totalMinutes

/-- The value of `totalMinutes` when the loop of `estimateHours` ends, in
binary64. -/
def totalMinutesGo (dates : List Time) (config : Config) : ℚ :=
  sessionLoopGo config (sortDates dates) 0

/-- The value of `math.Round(totalMinutes / 60)`, a `float64` that holds an
integer, for a list of at least two dates. -/
def roundedHoursGo (dates : List Time) (config : Config) : ℤ :=
  mathRound (f64 (totalMinutesGo dates config / 60))

/-- Largest value of a 64 bit Go `int`. -/
def maxInt : ℤ := 9223372036854775807

/-- Smallest value of a 64 bit Go `int`. -/
def minInt : ℤ := -9223372036854775808

/-- Go `int(x)` for a `float64` that holds the integer `r`: `r` itself when it
fits in 64 bits; otherwise the language leaves the result to the
implementation, here the function `outOfRange`. -/
def intOfFloat (outOfRange : ℤ → ℤ) (r : ℤ) : ℤ :=
  if minInt ≤ r ∧ r ≤ maxInt then r else outOfRange r

/-- The conversion of an out of range `float64` on amd64: the instruction
`CVTTSD2SQ` yields the smallest `int`. -/
def amd64 (_ : ℤ) : ℤ := minInt

/-- The function `estimateHours` in the arithmetic of the program, on a
platform whose `int(x)` yields `outOfRange` outside the 64 bit range. -/
def estimateHoursGo (outOfRange : ℤ → ℤ) (dates : List Time) (config : Config) : ℤ :=
  if dates.length < 2 then 0
  else intOfFloat outOfRange (roundedHoursGo dates config)

/-- Instant that lies `s` whole seconds after the zero time. -/
def second (s : ℤ) : Time := s * 1000000000

/-- Four timestamps within half an hour: at 0 s, 1 s, 1454 s and 1800 s. -/
def halfHourStream : List Time := [second 0, second 1, second 1454, second 1800]

/-- Sixty-two timestamps, each 1000 minutes after the one before. -/
def everyThousandMinutes : List Time :=
  (List.range 62).map (fun i => minute (1000 * (i : ℤ)))

/-! ## Notions used to bound the rounding error -/

/-- The step from `a` to `b` is a whole number of seconds, not negative, that
fits a `Duration`. -/
def secondStep (a b : Time) : Prop :=
  a ≤ b ∧ (b - a) % 1000000000 = 0 ∧ b - a ≤ maxDuration

/-- The step from `a` to `b` is a whole number of minutes, not negative, that
fits a `Duration`. -/
def minuteStep (a b : Time) : Prop :=
  a ≤ b ∧ (b - a) % 60000000000 = 0 ∧ b - a ≤ maxDuration

/-- The sum of the absolute values of what the turns of the loop add in exact
arithmetic; no intermediate value of the running total exceeds it. -/
def absCredits (config : Config) : List Time → ℚ
  | d0 :: d1 :: rest => |pairCredit config d0 d1| + absCredits config (d1 :: rest)
  | _ => 0

/-- The minute total of the reference definition, before the division by 60:
sort ascending and add the credit of every consecutive pair. -/
def specTotalMinutes (maxGap firstAdd : ℤ) (ts : List Time) : ℚ :=
  let sorted := ts.mergeSort (fun a b => decide (a ≤ b))
  (List.zipWith (specCredit maxGap firstAdd) sorted sorted.tail).sum
/-! ## Basic facts about the pieces -/

theorem sessionLoop_cons_cons (config : Config) (d0 d1 : Time) (rest : List Time) (acc : ℚ) :
    sessionLoop config (d0 :: d1 :: rest) acc =
      sessionLoop config (d1 :: rest) (acc + pairCredit config d0 d1) := by
  simp only [sessionLoop, pairCredit]
  split <;> rfl

theorem sessionLoop_acc (config : Config) (l : List Time) (acc : ℚ) :
    sessionLoop config l acc = acc + sessionLoop config l 0 := by
  induction l generalizing acc with
  | nil => simp [sessionLoop]
  | cons d0 tl ih =>
    cases tl with
    | nil => simp [sessionLoop]
    | cons d1 rest =>
      rw [sessionLoop_cons_cons, sessionLoop_cons_cons, ih (acc + _), ih (0 + _)]
      ring

theorem sessionLoop_pair (config : Config) (d0 d1 : Time) (rest : List Time) :
    sessionLoop config (d0 :: d1 :: rest) 0 =
      pairCredit config d0 d1 + sessionLoop config (d1 :: rest) 0 := by
  rw [sessionLoop_cons_cons, sessionLoop_acc]
  ring

theorem sessionLoop_eq_zipWith (config : Config) (l : List Time) :
    sessionLoop config l 0 = (List.zipWith (pairCredit config) l l.tail).sum := by
  induction l with
  | nil => simp [sessionLoop]
  | cons d0 tl ih =>
    cases tl with
    | nil => simp [sessionLoop]
    | cons d1 rest =>
      rw [sessionLoop_pair, ih]
      simp

theorem sortDates_eq (dates : List Time) :
    sortDates dates = dates.insertionSort (fun a b => a ≤ b) := by
  unfold sortDates
  congr 1
  funext a b
  simp [Time.Before]

theorem sortDates_perm (dates : List Time) : (sortDates dates).Perm dates := by
  rw [sortDates_eq]
  exact List.perm_insertionSort _ _

theorem sortDates_sorted (dates : List Time) : (sortDates dates).Sorted (fun a b => a ≤ b) := by
  rw [sortDates_eq]
  exact List.sorted_insertionSort _ _

/-- Any ascending arrangement of the slice is the one `sortDates` returns. -/
theorem sortDates_unique (dates s : List Time) (hp : s.Perm dates)
    (hs : s.Sorted (fun a b => a ≤ b)) : s = sortDates dates :=
  List.eq_of_perm_of_sorted (hp.trans (sortDates_perm dates).symm) hs (sortDates_sorted dates)

theorem sortDates_length (dates : List Time) : (sortDates dates).length = dates.length :=
  (sortDates_perm dates).length_eq

theorem sortDates_congr {l₁ l₂ : List Time} (h : l₁.Perm l₂) : sortDates l₁ = sortDates l₂ :=
  sortDates_unique l₂ (sortDates l₁) ((sortDates_perm l₁).trans h) (sortDates_sorted l₁)

theorem mathRound_mono {x y : ℚ} (h : x ≤ y) : mathRound x ≤ mathRound y := by
  unfold mathRound
  split_ifs with hx hy hy
  · exact Int.floor_mono (by linarith)
  · exact absurd (le_trans hx h) hy
  · have h1 : ⌈x - 1 / 2⌉ ≤ 0 := by
      rw [Int.ceil_le]
      push_cast
      linarith
    have h2 : (0 : ℤ) ≤ ⌊y + 1 / 2⌋ := by
      rw [Int.le_floor]
      push_cast
      linarith
    exact le_trans h1 h2
  · exact Int.ceil_mono (by linarith)

theorem mathRound_nonneg {x : ℚ} (h : 0 ≤ x) : 0 ≤ mathRound x := by
  unfold mathRound
  rw [if_pos h, Int.le_floor]
  push_cast
  linarith

theorem mathRound_zero : mathRound 0 = 0 := by
  simp [mathRound]
  norm_num

theorem mathRound_eq_roundHalfAway (x : ℚ) : mathRound x = roundHalfAway x := by
  have h0 := Int.fract_nonneg x
  have h1 := Int.fract_lt_one x
  have hx : (⌊x⌋ : ℚ) + Int.fract x = x := Int.floor_add_fract x
  unfold mathRound roundHalfAway
  split_ifs with hpos hlt hgt hlt hgt
  · rw [Int.floor_eq_iff]
    constructor <;> linarith
  · rw [Int.floor_eq_iff]
    push_cast
    constructor <;> linarith
  · rw [Int.floor_eq_iff]
    push_cast
    constructor <;> linarith
  · rw [Int.ceil_eq_iff]
    constructor <;> linarith
  · rw [Int.ceil_eq_iff]
    push_cast
    constructor <;> linarith
  · rw [Int.ceil_eq_iff]
    constructor <;> linarith

theorem pairCredit_eq_specCredit (config : Config) :
    pairCredit config =
      specCredit config.MaxCommitDiffInMinutes config.FirstCommitAdditionInMinutes := by
  funext d0 d1
  rfl

theorem mergeSort_eq_sortDates (dates : List Time) :
    dates.mergeSort (fun a b => decide (a ≤ b)) = sortDates dates := by
  apply sortDates_unique
  · exact List.mergeSort_perm _ _
  · have h := @List.sorted_mergeSort Time (fun a b => decide (a ≤ b))
      (fun a b c h₁ h₂ => by simpa using le_trans (by simpa using h₁) (by simpa using h₂))
      (fun a b => by simpa using le_total a b) dates
    exact h.imp (fun hab => by simpa using hab)


/-- In exact arithmetic, `estimateHours` on at least two timestamps is the
reference estimate: sort ascending, credit each consecutive pair its gap when
the gap is below `MaxCommitDiffInMinutes` and `FirstCommitAdditionInMinutes`
otherwise, divide by 60, round to nearest with halves away from zero. -/
theorem estimateHours_eq_spec (dates : List Time) (config : Config)
    (h : 2 ≤ dates.length) :
    estimateHours dates config =
      specEstimateHours config.MaxCommitDiffInMinutes config.FirstCommitAdditionInMinutes
        dates := by
  unfold estimateHours specEstimateHours totalMinutes
  rw [if_neg (by omega), mergeSort_eq_sortDates, sessionLoop_eq_zipWith,
    pairCredit_eq_specCredit, mathRound_eq_roundHalfAway]

/-- C2: with no timestamp or a single timestamp the estimate is 0, whatever
the thresholds (zero and negative ones included). -/
theorem estimateHours_nil_singleton (config : Config) (t : Time) :
    estimateHours [] config = 0 ∧ estimateHours [t] config = 0 := by
  constructor <;> simp [estimateHours]

theorem estimateHours_congr {l₁ l₂ : List Time} (config : Config) (h : l₁.Perm l₂) :
    estimateHours l₁ config = estimateHours l₂ config := by
  unfold estimateHours totalMinutes
  rw [h.length_eq, sortDates_congr h]

/-- C3: the estimate does not depend on the order of the input: a list and any
permutation of it (equal instants included) get the same hours. -/
theorem estimateHours_perm (l₁ l₂ : List Time) (config : Config) (h : l₁.Perm l₂) :
    estimateHours l₁ config = estimateHours l₂ config :=
  estimateHours_congr config h

theorem estimateHours_perm_witness :
    List.Perm [minute 900, minute 540, minute 540] [minute 540, minute 900, minute 540] ∧
      estimateHours [minute 900, minute 540, minute 540] (thresholds 120 120) =
        estimateHours [minute 540, minute 900, minute 540] (thresholds 120 120) :=
  ⟨List.Perm.swap _ _ _, estimateHours_perm _ _ _ (List.Perm.swap _ _ _)⟩

theorem sessionLoop_append (config : Config) (s : List Time) (t : Time) (rest : List Time) :
    sessionLoop config (s ++ t :: rest) 0 =
      sessionLoop config (s ++ [t]) 0 + sessionLoop config (t :: rest) 0 := by
  induction s with
  | nil => simp [sessionLoop]
  | cons x s ih =>
    cases s with
    | nil =>
      simp only [List.nil_append, List.cons_append, List.singleton_append]
      rw [sessionLoop_pair, sessionLoop_pair]
      simp [sessionLoop]
    | cons y s =>
      simp only [List.cons_append] at ih ⊢
      rw [sessionLoop_pair, sessionLoop_pair, ih]
      ring

theorem pairCredit_self (config : Config) (t : Time)
    (h : 0 < config.MaxCommitDiffInMinutes ∨ config.FirstCommitAdditionInMinutes = 0) :
    pairCredit config t t = 0 := by
  rcases h with h | h
  · have h' : (0 : ℚ) < (config.MaxCommitDiffInMinutes : ℚ) := by exact_mod_cast h
    simp [pairCredit, Time.Sub, Duration.Minutes, h']
  · simp [pairCredit, Time.Sub, Duration.Minutes, h]

theorem sortDates_cons_of_mem (l : List Time) (t : Time) (h : t ∈ l) :
    ∃ s₁ s₂, sortDates l = s₁ ++ t :: s₂ ∧ sortDates (t :: l) = s₁ ++ t :: t :: s₂ := by
  have hmem : t ∈ sortDates l := (sortDates_perm l).mem_iff.mpr h
  obtain ⟨s₁, s₂, hs⟩ := List.append_of_mem hmem
  refine ⟨s₁, s₂, hs, ?_⟩
  symm
  apply sortDates_unique
  · have h1 : (s₁ ++ t :: t :: s₂).Perm (t :: (s₁ ++ t :: s₂)) := List.perm_middle
    refine h1.trans (List.Perm.cons t ?_)
    rw [← hs]
    exact sortDates_perm l
  · have hsorted := sortDates_sorted l
    rw [hs] at hsorted
    simp only [List.Sorted, List.pairwise_append, List.pairwise_cons, List.mem_cons] at hsorted ⊢
    obtain ⟨h1, ⟨h2, h3⟩, h4⟩ := hsorted
    refine ⟨h1, ⟨?_, h2, h3⟩, ?_⟩
    · intro a ha
      rcases ha with rfl | ha
      · exact le_refl _
      · exact h2 a ha
    · intro a ha b hb
      rcases hb with rfl | hb
      · exact h4 a ha b (Or.inl rfl)
      · exact h4 a ha b hb

theorem totalMinutes_cons_of_mem (l : List Time) (t : Time) (config : Config)
    (hmax : 0 < config.MaxCommitDiffInMinutes ∨ config.FirstCommitAdditionInMinutes = 0)
    (h : t ∈ l) :
    totalMinutes (t :: l) config = totalMinutes l config := by
  obtain ⟨s₁, s₂, h1, h2⟩ := sortDates_cons_of_mem l t h
  unfold totalMinutes
  rw [h1, h2, sessionLoop_append, sessionLoop_append config s₁ t s₂, sessionLoop_pair,
    pairCredit_self config t hmax]
  ring

theorem estimateHours_cons_of_mem (l : List Time) (t : Time) (config : Config)
    (hmax : 0 < config.MaxCommitDiffInMinutes ∨ config.FirstCommitAdditionInMinutes = 0)
    (h : t ∈ l) :
    estimateHours (t :: l) config = estimateHours l config := by
  unfold estimateHours
  rw [totalMinutes_cons_of_mem l t config hmax h]
  by_cases hlen : l.length < 2
  · have hl : l = [t] := by
      match l, h, hlen with
      | [a], h, _ =>
        simp at h
        simp [h]
      | _ :: _ :: _, _, hlen =>
        simp at hlen
        omega
    subst hl
    have ht : totalMinutes [t] config = 0 := by simp [totalMinutes, sortDates, sessionLoop]
    simp [ht, mathRound_zero]
  · have h2 : ¬ (t :: l).length < 2 := by simp only [List.length_cons]; omega
    rw [if_neg hlen, if_neg h2]

/-- C4 as stated fails: with `MaxCommitDiffInMinutes = 0` a zero gap is not
below the threshold, so a second copy of the only timestamp opens a session. -/
theorem duplicate_changes_estimate_at_zero_threshold :
    (minute 0) ∈ [minute 0] ∧
      estimateHours [minute 0, minute 0] (thresholds 0 120) = 2 ∧
      estimateHours [minute 0] (thresholds 0 120) = 0 := by
  refine ⟨by simp, ?_, ?_⟩
  · simp [estimateHours, totalMinutes, sortDates, sessionLoop, minute, thresholds,
      Time.Before, Time.Sub, Duration.Minutes, mathRound]
    norm_num
  · simp [estimateHours]

/-- C4 (amended): when `MaxCommitDiffInMinutes` is positive (a zero gap is then
same-session) or `FirstCommitAdditionInMinutes` is zero (a zero gap then adds
nothing either way), inserting at any position one more copy of a timestamp
that is already in the list leaves the estimate unchanged. -/
theorem estimateHours_insert_duplicate (l₁ l₂ : List Time) (t : Time) (config : Config)
    (hmax : 0 < config.MaxCommitDiffInMinutes ∨ config.FirstCommitAdditionInMinutes = 0)
    (h : t ∈ l₁ ++ l₂) :
    estimateHours (l₁ ++ t :: l₂) config = estimateHours (l₁ ++ l₂) config := by
  have hp : (l₁ ++ t :: l₂).Perm (t :: (l₁ ++ l₂)) := List.perm_middle
  rw [estimateHours_congr config hp]
  exact estimateHours_cons_of_mem (l₁ ++ l₂) t config hmax h



theorem estimateHours_insert_duplicate_witness :
    (0 : ℤ) < (thresholds 120 120).MaxCommitDiffInMinutes ∧
      minute 570 ∈ [minute 540] ++ [minute 570, minute 660] ∧
      estimateHours ([minute 540] ++ minute 570 :: [minute 570, minute 660]) (thresholds 120 120) =
        estimateHours ([minute 540] ++ [minute 570, minute 660]) (thresholds 120 120) :=
  ⟨by decide, by simp,
    estimateHours_insert_duplicate _ _ _ _ (Or.inl (by decide)) (by simp)⟩

theorem sessionLoop_mono (c c' : Config) (l : List Time)
    (h : ∀ d0 d1, pairCredit c d0 d1 ≤ pairCredit c' d0 d1) :
    sessionLoop c l 0 ≤ sessionLoop c' l 0 := by
  induction l with
  | nil => simp [sessionLoop]
  | cons d0 tl ih =>
    cases tl with
    | nil => simp [sessionLoop]
    | cons d1 rest =>
      rw [sessionLoop_pair, sessionLoop_pair]
      exact add_le_add (h d0 d1) ih

theorem estimateHours_mono (c c' : Config) (l : List Time)
    (h : ∀ d0 d1, pairCredit c d0 d1 ≤ pairCredit c' d0 d1) :
    estimateHours l c ≤ estimateHours l c' := by
  unfold estimateHours totalMinutes
  split
  · exact le_refl _
  · apply mathRound_mono
    have := sessionLoop_mono c c' (sortDates l) h
    linarith

/-- C7 as stated fails: with a credit of 1000 minutes, raising the threshold
from 50 to 150 turns a 100 minute gap from a credited session start into real
time and the estimate drops from 17 hours to 2. -/
theorem estimateHours_not_mono_maxCommitDiff :
    (50 : ℤ) ≤ 150 ∧
      estimateHours [minute 0, minute 100] (thresholds 50 1000) = 17 ∧
      estimateHours [minute 0, minute 100] (thresholds 150 1000) = 2 := by
  refine ⟨by decide, ?_, ?_⟩
  · simp [estimateHours, totalMinutes, sortDates, sessionLoop, minute, thresholds,
      Time.Before, Time.Sub, Duration.Minutes, mathRound]
    norm_num
  · simp [estimateHours, totalMinutes, sortDates, sessionLoop, minute, thresholds,
      Time.Before, Time.Sub, Duration.Minutes, mathRound]
    norm_num

/-- C7 (amended): for a fixed list of timestamps and a fixed
`FirstCommitAdditionInMinutes` that does not exceed the smaller threshold,
raising `MaxCommitDiffInMinutes` never lowers the estimate. -/
theorem estimateHours_mono_maxCommitDiff (dates : List Time) (c c' : Config)
    (hadd : c.FirstCommitAdditionInMinutes = c'.FirstCommitAdditionInMinutes)
    (hle : c.FirstCommitAdditionInMinutes ≤ c.MaxCommitDiffInMinutes)
    (hmax : c.MaxCommitDiffInMinutes ≤ c'.MaxCommitDiffInMinutes) :
    estimateHours dates c ≤ estimateHours dates c' := by
  apply estimateHours_mono
  intro d0 d1
  have h1 : (c.FirstCommitAdditionInMinutes : ℚ) ≤ (c.MaxCommitDiffInMinutes : ℚ) := by
    exact_mod_cast hle
  have h2 : (c.MaxCommitDiffInMinutes : ℚ) ≤ (c'.MaxCommitDiffInMinutes : ℚ) := by
    exact_mod_cast hmax
  unfold pairCredit
  rw [← hadd]
  split_ifs with ha hb hb
  · exact le_refl _
  · exact absurd (lt_of_lt_of_le ha h2) hb
  · linarith
  · exact le_refl _

theorem estimateHours_mono_maxCommitDiff_witness :
    (thresholds 50 30).FirstCommitAdditionInMinutes =
        (thresholds 150 30).FirstCommitAdditionInMinutes ∧
      (thresholds 50 30).FirstCommitAdditionInMinutes ≤
        (thresholds 50 30).MaxCommitDiffInMinutes ∧
      (thresholds 50 30).MaxCommitDiffInMinutes ≤ (thresholds 150 30).MaxCommitDiffInMinutes ∧
      estimateHours [minute 0, minute 100] (thresholds 50 30) ≤
        estimateHours [minute 0, minute 100] (thresholds 150 30) :=
  ⟨rfl, by decide, by decide, estimateHours_mono_maxCommitDiff _ _ _ rfl (by decide) (by decide)⟩

/-! ## Facts about maps -/

theorem mapGet_mapSet {β : Type} (m : List (String × β)) (k k' : String) (v : β) :
    mapGet (mapSet m k v) k' = if k = k' then some v else mapGet m k' := by
  induction m with
  | nil => simp [mapSet, mapGet]
  | cons e m ih =>
    obtain ⟨k0, v0⟩ := e
    by_cases h0 : k0 = k
    · subst h0
      by_cases h1 : k0 = k' <;> simp [mapSet, mapGet, h1]
    · by_cases h1 : k0 = k'
      · subst h1
        have h2 : ¬ k = k0 := fun h => h0 h.symm
        simp [mapSet, mapGet, h0, h2]
      · simp [mapSet, mapGet, h0, h1, ih]

theorem mapGet_eq_none_iff {β : Type} (m : List (String × β)) (k : String) :
    mapGet m k = none ↔ k ∉ mapKeys m := by
  induction m with
  | nil => simp [mapGet, mapKeys]
  | cons e m ih =>
    obtain ⟨k0, v0⟩ := e
    by_cases h0 : k0 = k
    · simp [mapGet, mapKeys, h0]
    · have h1 : ¬ k = k0 := fun h => h0 h.symm
      simpa [mapGet, mapKeys, h0, h1] using ih

theorem mapSet_of_not_mem {β : Type} (m : List (String × β)) (k : String) (v : β)
    (h : k ∉ mapKeys m) : mapSet m k v = m ++ [(k, v)] := by
  induction m with
  | nil => simp [mapSet]
  | cons e m ih =>
    obtain ⟨k0, v0⟩ := e
    simp only [mapKeys, List.map_cons, List.mem_cons, not_or] at h
    have h0 : ¬ k0 = k := fun h' => h.1 h'.symm
    simp [mapSet, h0, ih (by simpa [mapKeys] using h.2)]

theorem mapKeys_mapSet {β : Type} (m : List (String × β)) (k : String) (v : β) :
    mapKeys (mapSet m k v) = if k ∈ mapKeys m then mapKeys m else mapKeys m ++ [k] := by
  induction m with
  | nil => simp [mapSet, mapKeys]
  | cons e m ih =>
    obtain ⟨k0, v0⟩ := e
    by_cases h0 : k0 = k
    · subst h0
      simp [mapSet, mapKeys]
    · have h1 : ¬ k = k0 := fun h => h0 h.symm
      simp only [mapKeys] at ih
      simp only [mapSet, h0, mapKeys, if_false, List.map_cons, List.mem_cons, h1, false_or, ih]
      split <;> simp

theorem nodup_mapKeys_mapSet {β : Type} (m : List (String × β)) (k : String) (v : β)
    (h : (mapKeys m).Nodup) : (mapKeys (mapSet m k v)).Nodup := by
  rw [mapKeys_mapSet]
  split
  · exact h
  · rename_i hk
    exact List.Nodup.append h (List.nodup_singleton k) (by simpa using hk)

theorem mapGet_of_mem {β : Type} (m : List (String × β)) (k : String) (v : β)
    (hn : (mapKeys m).Nodup) (h : (k, v) ∈ m) : mapGet m k = some v := by
  induction m with
  | nil => simp at h
  | cons e m ih =>
    obtain ⟨k0, v0⟩ := e
    simp only [mapKeys, List.map_cons, List.nodup_cons] at hn
    rcases List.mem_cons.mp h with h | h
    · cases h
      simp [mapGet]
    · have h0 : ¬ k0 = k := by
        intro h'
        subst h'
        exact hn.1 (List.mem_map_of_mem Prod.fst h)
      simp only [mapGet, h0, if_false]
      exact ih hn.2 h

theorem sum_mapSet {β : Type} (g : β → ℤ) (m : List (String × β)) (k : String) (v : β) :
    ((mapSet m k v).map (fun e => g e.2)).sum =
      (m.map (fun e => g e.2)).sum - ((mapGet m k).map g).getD 0 + g v := by
  induction m with
  | nil => simp [mapSet, mapGet]
  | cons e m ih =>
    obtain ⟨k0, v0⟩ := e
    by_cases h0 : k0 = k
    · simp [mapSet, mapGet, h0]
      ring
    · simp [mapSet, mapGet, h0, ih]
      ring



/-! ## The commit walk -/

theorem forEachCommit_eq (config : Config) (st : Ledger) (c : Commit) :
    forEachCommit config st c =
      if survives config c = true then
        { authorCommits :=
            mapSet st.authorCommits (canonicalEmail config c)
              ((mapGet st.authorCommits (canonicalEmail config c)).getD [] ++ [c.Author.When])
          totalCommits := st.totalCommits + 1 }
      else st := by
  unfold forEachCommit survives canonicalEmail
  cases h1 : (!config.MergeRequest && hasMergePrefix c.Message)
  · cases h2 : (!Time.IsZero config.Since && Time.Before c.Author.When config.Since)
    · cases h3 : (!Time.IsZero config.Until && Time.After c.Author.When config.Until)
      · cases config.EmailAliases c.Author.Email <;> simp
      · simp
    · simp
  · simp

theorem ledgerOf_snoc (config : Config) (commits : List Commit) (c : Commit) :
    ledgerOf config (commits ++ [c]) = forEachCommit config (ledgerOf config commits) c := by
  simp [ledgerOf, List.foldl_append]

theorem accepted_snoc (config : Config) (commits : List Commit) (c : Commit) :
    accepted config (commits ++ [c]) =
      accepted config commits ++ (if survives config c = true then [c] else []) := by
  unfold accepted
  rw [List.filter_append]
  by_cases h : survives config c = true <;> simp [h]

theorem bucket_snoc (config : Config) (commits : List Commit) (c : Commit) (k : String) :
    bucket config (commits ++ [c]) k =
      bucket config commits k ++
        (if survives config c = true ∧ canonicalEmail config c = k then [c.Author.When]
          else []) := by
  unfold bucket
  rw [accepted_snoc]
  by_cases h : survives config c = true
  · by_cases hk : canonicalEmail config c = k <;> simp [h, hk]
  · simp [h]

theorem ledgerOf_totalCommits (config : Config) (commits : List Commit) :
    (ledgerOf config commits).totalCommits = ((accepted config commits).length : ℤ) := by
  induction commits using List.reverseRecOn with
  | nil => simp [ledgerOf, accepted]
  | append_singleton l c ih =>
    rw [ledgerOf_snoc, forEachCommit_eq, accepted_snoc]
    by_cases h : survives config c = true
    · simp [h, ih]
    · simp [h, ih]

theorem ledgerOf_nodup (config : Config) (commits : List Commit) :
    (mapKeys (ledgerOf config commits).authorCommits).Nodup := by
  induction commits using List.reverseRecOn with
  | nil => simp [ledgerOf, mapKeys]
  | append_singleton l c ih =>
    rw [ledgerOf_snoc, forEachCommit_eq]
    by_cases h : survives config c = true
    · simp only [h, if_true]
      exact nodup_mapKeys_mapSet _ _ _ ih
    · simpa [h] using ih

theorem ledgerOf_get (config : Config) (commits : List Commit) (k : String) :
    mapGet (ledgerOf config commits).authorCommits k =
      if bucket config commits k = [] then none else some (bucket config commits k) := by
  induction commits using List.reverseRecOn generalizing k with
  | nil => simp [ledgerOf, mapGet, bucket, accepted]
  | append_singleton l c ih =>
    rw [ledgerOf_snoc, forEachCommit_eq, bucket_snoc]
    by_cases h : survives config c = true
    · simp only [h, if_true, true_and]
      rw [mapGet_mapSet]
      by_cases hk : canonicalEmail config c = k
      · subst hk
        rw [ih]
        by_cases hb : bucket config l (canonicalEmail config c) = [] <;> simp [hb]
      · simp [hk, ih]
    · simp [h, ih]

theorem ledgerOf_sum (config : Config) (commits : List Commit) :
    ((ledgerOf config commits).authorCommits.map (fun e => (e.2.length : ℤ))).sum =
      (ledgerOf config commits).totalCommits := by
  induction commits using List.reverseRecOn with
  | nil => simp [ledgerOf]
  | append_singleton l c ih =>
    rw [ledgerOf_snoc, forEachCommit_eq]
    by_cases h : survives config c = true
    · simp only [h, if_true]
      rw [sum_mapSet (fun v : List Time => (v.length : ℤ)), ih]
      cases mapGet (ledgerOf config l).authorCommits (canonicalEmail config c) with
      | none => simp
      | some v =>
        simp
        ring
    · simpa [h] using ih

theorem mem_mapKeys_ledgerOf (config : Config) (commits : List Commit) (k : String) :
    k ∈ mapKeys (ledgerOf config commits).authorCommits ↔ k ∈ authors config commits := by
  have h1 := mapGet_eq_none_iff (ledgerOf config commits).authorCommits k
  rw [ledgerOf_get] at h1
  have h2 : bucket config commits k = [] ↔ k ∉ authors config commits := by
    unfold bucket authors
    simp only [List.map_eq_nil_iff, List.filter_eq_nil_iff, List.mem_toFinset, List.mem_map,
      decide_eq_true_eq]
    constructor
    · rintro h ⟨c, hc, rfl⟩
      exact h c hc rfl
    · intro h c hc hk
      exact h ⟨c, hc, hk⟩
  by_cases hb : bucket config commits k = []
  · simp only [hb, if_true, true_iff] at h1
    exact iff_of_false h1 (h2.mp hb)
  · simp only [hb, if_false, false_iff, not_not, reduceCtorEq] at h1
    exact iff_of_true h1 (not_not.mp (fun h => hb (h2.mpr h)))

theorem ledgerOf_entry (config : Config) (commits : List Commit) (e : String × List Time)
    (h : e ∈ (ledgerOf config commits).authorCommits) : e.2 = bucket config commits e.1 := by
  have h1 := mapGet_of_mem _ e.1 e.2 (ledgerOf_nodup config commits) h
  rw [ledgerOf_get] at h1
  by_cases hb : bucket config commits e.1 = []
  · simp [hb] at h1
  · simp only [hb, if_false, Option.some.injEq] at h1
    exact h1.symm



/-! ## The result -/

theorem foldl_hoursStep (config : Config) (L : List (String × List Time)) (r : Result) (h : ℤ)
    (hn : (mapKeys L).Nodup) (hd : ∀ k ∈ mapKeys L, k ∉ mapKeys r) :
    L.foldl (hoursStep config) (r, h) =
      (r ++ L.map (workOf config), h + (L.map (fun e => estimateHours e.2 config)).sum) := by
  induction L generalizing r h with
  | nil => simp
  | cons e L ih =>
    simp only [mapKeys, List.map_cons, List.nodup_cons, List.mem_cons, forall_eq_or_imp] at hn hd
    have hstep : hoursStep config (r, h) e =
        (r ++ [workOf config e], h + estimateHours e.2 config) := by
      simp only [hoursStep, workOf]
      rw [mapSet_of_not_mem _ _ _ hd.1]
    rw [List.foldl_cons, hstep, ih _ _ hn.2]
    · simp only [List.map_cons, List.sum_cons, List.append_assoc, List.singleton_append]
      rw [add_assoc]
    · intro k hk
      simp only [mapKeys, List.map_append, List.map_cons, List.map_nil, List.mem_append,
        List.mem_singleton, not_or, workOf]
      refine ⟨hd.2 k hk, ?_⟩
      rintro rfl
      exact hn.1 hk

theorem buildResult_eq (config : Config) (st : Ledger) (hn : (mapKeys st.authorCommits).Nodup) :
    buildResult config st =
      mapSet (st.authorCommits.map (workOf config)) "total" (totalOf config st) := by
  unfold buildResult totalOf
  rw [foldl_hoursStep config st.authorCommits [] 0 hn (by simp [mapKeys])]
  simp

theorem mapKeys_map_workOf (config : Config) (L : List (String × List Time)) :
    mapKeys (L.map (workOf config)) = mapKeys L := by
  simp [mapKeys, workOf, Function.comp_def]

theorem authorCommitsSum_buildResult (config : Config) (st : Ledger)
    (hn : (mapKeys st.authorCommits).Nodup) (ht : "total" ∉ mapKeys st.authorCommits) :
    authorCommitsSum (buildResult config st) =
      (st.authorCommits.map (fun e => (e.2.length : ℤ))).sum := by
  rw [buildResult_eq config st hn,
    mapSet_of_not_mem _ _ _ (by rw [mapKeys_map_workOf]; exact ht)]
  unfold authorCommitsSum
  have hfilter : (st.authorCommits.map (workOf config)).filter
      (fun e => decide (e.1 ≠ "total")) = st.authorCommits.map (workOf config) := by
    rw [List.filter_eq_self]
    intro e he
    obtain ⟨e0, he0, rfl⟩ := List.mem_map.mp he
    have : e0.1 ≠ "total" := by
      rintro h
      exact ht (h ▸ List.mem_map_of_mem Prod.fst he0)
    simpa [workOf] using this
  rw [List.filter_append, hfilter]
  simp [workOf, Function.comp_def]

theorem AnalyzeRepository_of_commitLog (git : Git) (config : Config) (iter : CommitIter)
    (hlog : commitLog git config = some iter) :
    AnalyzeRepository git config =
      match iter.err with
      | some err => (none, some ("failed to process commits: " ++ err))
      | none => (some (buildResult config (ledgerOf config iter.commits)), none) := by
  unfold commitLog at hlog
  unfold AnalyzeRepository
  split at hlog
  · simp at hlog
  · split at hlog
    · simp at hlog
    · split at hlog
      · simp at hlog
      · simp only [Option.some.injEq] at hlog
        subst hlog
        rfl

theorem AnalyzeRepository_ok (git : Git) (config : Config) (iter : CommitIter)
    (hlog : commitLog git config = some iter) (herr : iter.err = none) :
    AnalyzeRepository git config =
      (some (buildResult config (ledgerOf config iter.commits)), none) := by
  rw [AnalyzeRepository_of_commitLog git config iter hlog, herr]

theorem mapGet_total_buildResult (config : Config) (commits : List Commit) :
    mapGet (buildResult config (ledgerOf config commits)) "total" =
      some (totalOf config (ledgerOf config commits)) := by
  rw [buildResult_eq config _ (ledgerOf_nodup config commits), mapGet_mapSet]
  simp

theorem sum_hours_ledgerOf (config : Config) (commits : List Commit) :
    ((ledgerOf config commits).authorCommits.map (fun e => estimateHours e.2 config)).sum =
      ∑ k in authors config commits, estimateHours (bucket config commits k) config := by
  have h1 : (ledgerOf config commits).authorCommits.map (fun e => estimateHours e.2 config) =
      (mapKeys (ledgerOf config commits).authorCommits).map
        (fun k => estimateHours (bucket config commits k) config) := by
    unfold mapKeys
    rw [List.map_map]
    apply List.map_congr_left
    intro e he
    simp [ledgerOf_entry config commits e he]
  have h2 : (mapKeys (ledgerOf config commits).authorCommits).toFinset =
      authors config commits := by
    ext k
    rw [List.mem_toFinset]
    exact mem_mapKeys_ledgerOf config commits k
  rw [h1, ← h2, List.sum_toFinset _ (ledgerOf_nodup config commits)]



/-! ## The order of `range` over the ledger does not matter -/

theorem mem_of_mapGet {β : Type} (m : List (String × β)) (k : String) (v : β)
    (h : mapGet m k = some v) : (k, v) ∈ m := by
  induction m with
  | nil => simp [mapGet] at h
  | cons e m ih =>
    obtain ⟨k0, v0⟩ := e
    by_cases h0 : k0 = k
    · simp only [mapGet, h0, if_true, Option.some.injEq] at h
      simp [h0, h]
    · simp only [mapGet, h0, if_false] at h
      exact List.mem_cons_of_mem _ (ih h)

theorem mapGet_perm {β : Type} {m m' : List (String × β)} (hp : m.Perm m')
    (hn : (mapKeys m).Nodup) (k : String) : mapGet m k = mapGet m' k := by
  have hn' : (mapKeys m').Nodup := (hp.map Prod.fst).nodup_iff.mp hn
  cases hg : mapGet m k with
  | none =>
    have h1 : k ∉ mapKeys m := (mapGet_eq_none_iff m k).mp hg
    have h2 : k ∉ mapKeys m' := fun h => h1 ((hp.map Prod.fst).mem_iff.mpr h)
    exact ((mapGet_eq_none_iff m' k).mpr h2).symm
  | some v =>
    exact (mapGet_of_mem m' k v hn' (hp.mem_iff.mp (mem_of_mapGet m k v hg))).symm

/-- Go leaves the order of `range authorCommits` open; whatever order is taken,
every key of the result holds the same entry. -/
theorem buildResult_perm (config : Config) (st st' : Ledger)
    (hp : st.authorCommits.Perm st'.authorCommits) (ht : st.totalCommits = st'.totalCommits)
    (hn : (mapKeys st.authorCommits).Nodup) (k : String) :
    mapGet (buildResult config st) k = mapGet (buildResult config st') k := by
  have hn' : (mapKeys st'.authorCommits).Nodup := (hp.map Prod.fst).nodup_iff.mp hn
  have htot : totalOf config st = totalOf config st' := by
    unfold totalOf
    rw [(hp.map (fun e => estimateHours e.2 config)).sum_eq, ht]
  rw [buildResult_eq config st hn, buildResult_eq config st' hn', mapGet_mapSet, mapGet_mapSet,
    htot]
  split
  · rfl
  · exact mapGet_perm (hp.map (workOf config)) (by rw [mapKeys_map_workOf]; exact hn) k

/-! ## The total entry -/

/-- C8 as stated fails: an author whose canonical email is the word `total`
shares the key of the total entry, which overwrites the author entry; the total
counts 2 commits and the other entries sum to 1. -/
theorem total_key_collision :
    AnalyzeRepository (gitOf streamWithTotalAuthor) (thresholds 120 120) =
        (some [("total", { Name := "", Hours := 0, Commits := 2 }),
          ("a@x.com", { Name := "a@x.com", Hours := 0, Commits := 1 })], none) ∧
      authorCommitsSum [("total", { Name := "", Hours := 0, Commits := 2 }),
          ("a@x.com", { Name := "a@x.com", Hours := 0, Commits := 1 })] = 1 := by
  constructor
  · decide
  · decide

/-- C8 (amended): on every run in which the repository opens, the reference
resolves, the log is obtained and the iteration ends without error,
`AnalyzeRepository` succeeds, and the `Commits` field of the `"total"` entry is
the number of commits that survived the filter; it is also the sum of the
`Commits` fields of the other entries provided no accepted commit has the
canonical email `"total"`. -/
theorem total_commits (git : Git) (config : Config) (iter : CommitIter)
    (hlog : commitLog git config = some iter) (herr : iter.err = none) :
    ∃ res tot, AnalyzeRepository git config = (some res, none) ∧
      mapGet res "total" = some tot ∧
      tot.Commits = ((accepted config iter.commits).length : ℤ) ∧
      ((∀ c ∈ accepted config iter.commits, canonicalEmail config c ≠ "total") →
        tot.Commits = authorCommitsSum res) := by
  refine ⟨_, _, AnalyzeRepository_ok git config iter hlog herr,
    mapGet_total_buildResult config iter.commits, ?_, ?_⟩
  · simp [totalOf, ledgerOf_totalCommits]
  · intro hkey
    have ht : "total" ∉ mapKeys (ledgerOf config iter.commits).authorCommits := by
      rw [mem_mapKeys_ledgerOf]
      unfold authors
      simp only [List.mem_toFinset, List.mem_map, not_exists, not_and]
      exact fun c hc => hkey c hc
    rw [authorCommitsSum_buildResult config _ (ledgerOf_nodup config iter.commits) ht,
      ledgerOf_sum]
    rfl

theorem total_commits_witness :
    commitLog (gitOf streamTwoAuthors) (thresholds 120 120) =
        some { commits := streamTwoAuthors, err := none } ∧
      (∀ c ∈ accepted (thresholds 120 120) streamTwoAuthors,
        canonicalEmail (thresholds 120 120) c ≠ "total") ∧
      ∃ res tot, AnalyzeRepository (gitOf streamTwoAuthors) (thresholds 120 120) =
          (some res, none) ∧
        mapGet res "total" = some tot ∧ tot.Commits = 4 ∧ authorCommitsSum res = 4 :=
  ⟨rfl, by decide,
    let ⟨res, tot, h1, h2, h3, h4⟩ :=
      total_commits (gitOf streamTwoAuthors) (thresholds 120 120)
        { commits := streamTwoAuthors, err := none } rfl rfl
    have h5 : tot.Commits = 4 := h3.trans (by decide)
    ⟨res, tot, h1, h2, h5, (h4 (by decide)).symm.trans h5⟩⟩

/-- C9: on every run in which the repository opens, the reference resolves,
the log is obtained and the iteration ends without error, `AnalyzeRepository`
succeeds and the `Hours` field of the `"total"` entry is the sum, over the
canonical authors with an accepted commit, of `estimateHours` of that author's
own bucket. -/
theorem total_hours (git : Git) (config : Config) (iter : CommitIter)
    (hlog : commitLog git config = some iter) (herr : iter.err = none) :
    ∃ res tot, AnalyzeRepository git config = (some res, none) ∧
      mapGet res "total" = some tot ∧
      tot.Hours =
        ∑ k in authors config iter.commits,
          estimateHours (bucket config iter.commits k) config := by
  refine ⟨_, _, AnalyzeRepository_ok git config iter hlog herr,
    mapGet_total_buildResult config iter.commits, ?_⟩
  simp only [totalOf]
  exact sum_hours_ledgerOf config iter.commits

theorem hours_one_hour : estimateHours [minute 0, minute 60] (thresholds 120 120) = 1 := by
  simp [estimateHours, totalMinutes, sortDates, sessionLoop, minute, thresholds,
    Time.Before, Time.Sub, Duration.Minutes, mathRound]
  norm_num

theorem hours_merged : estimateHours (streamTwoAuthors.map (fun c => c.Author.When))
    (thresholds 120 120) = 1 := by
  simp [estimateHours, totalMinutes, sortDates, sessionLoop, minute, thresholds,
    Time.Before, Time.Sub, Duration.Minutes, mathRound, streamTwoAuthors, mkCommit]
  norm_num

theorem analyze_two_authors :
    AnalyzeRepository (gitOf streamTwoAuthors) (thresholds 120 120) =
      (some [("a@x.com", { Name := "a@x.com", Hours := 1, Commits := 2 }),
        ("b@x.com", { Name := "b@x.com", Hours := 1, Commits := 2 }),
        ("total", { Name := "", Hours := 2, Commits := 4 })], none) := by
  rw [AnalyzeRepository_ok (gitOf streamTwoAuthors) (thresholds 120 120)
    { commits := streamTwoAuthors, err := none } rfl rfl]
  have hl : (ledgerOf (thresholds 120 120) streamTwoAuthors).authorCommits =
      [("a@x.com", [minute 0, minute 60]), ("b@x.com", [minute 0, minute 60])] := by
    decide
  have ht : (ledgerOf (thresholds 120 120) streamTwoAuthors).totalCommits = 4 := by
    decide
  rw [buildResult_eq _ _ (ledgerOf_nodup _ _)]
  unfold totalOf
  rw [hl, ht]
  simp [workOf, mapSet, hours_one_hour, getAuthorName]

/-- In the two-author stream the total is 2 hours, the sum of one hour per
author, while the merged timestamps of both authors are worth 1 hour. -/
theorem total_hours_witness :
    commitLog (gitOf streamTwoAuthors) (thresholds 120 120) =
        some { commits := streamTwoAuthors, err := none } ∧
      (∃ res tot, AnalyzeRepository (gitOf streamTwoAuthors) (thresholds 120 120) =
          (some res, none) ∧
        mapGet res "total" = some tot ∧
        tot.Hours =
          ∑ k in authors (thresholds 120 120) streamTwoAuthors,
            estimateHours (bucket (thresholds 120 120) streamTwoAuthors k)
              (thresholds 120 120)) ∧
      (AnalyzeRepository (gitOf streamTwoAuthors) (thresholds 120 120)).1.bind
          (fun res => (mapGet res "total").map (fun w => w.Hours)) = some 2 ∧
      estimateHours (streamTwoAuthors.map (fun c => c.Author.When)) (thresholds 120 120) = 1 :=
  ⟨rfl, total_hours (gitOf streamTwoAuthors) (thresholds 120 120)
    { commits := streamTwoAuthors, err := none } rfl rfl,
    by rw [analyze_two_authors]; decide, hours_merged⟩



/-! ## Merge exclusion -/

theorem foldl_forEachCommit_filter_merge (config : Config) (h : config.MergeRequest = false)
    (commits : List Commit) (st : Ledger) :
    (commits.filter (fun c => !hasMergePrefix c.Message)).foldl (forEachCommit config) st =
      commits.foldl (forEachCommit config) st := by
  induction commits generalizing st with
  | nil => rfl
  | cons c l ih =>
    by_cases hm : hasMergePrefix c.Message = true
    · have hskip : forEachCommit config st c = st := by simp [forEachCommit, h, hm]
      simp [List.filter_cons, hm, hskip, ih]
    · simp [List.filter_cons, hm, ih]

theorem forEachCommit_message (config : Config) (h : config.MergeRequest = true)
    (st : Ledger) (c : Commit) (msg : String) :
    forEachCommit config st { Author := c.Author, Message := msg } =
      forEachCommit config st c := by
  simp [forEachCommit, h]

theorem foldl_forEachCommit_map_message (config : Config) (h : config.MergeRequest = true)
    (rewrite : String → String) (commits : List Commit) (st : Ledger) :
    (commits.map (fun c => { Author := c.Author, Message := rewrite c.Message })).foldl
        (forEachCommit config) st =
      commits.foldl (forEachCommit config) st := by
  induction commits generalizing st with
  | nil => rfl
  | cons c l ih =>
    simp only [List.map_cons, List.foldl_cons]
    rw [forEachCommit_message config h, ih]

theorem AnalyzeRepository_mapCommits (git : Git) (config : Config)
    (f : List Commit → List Commit)
    (hf : ∀ l st, (f l).foldl (forEachCommit config) st = l.foldl (forEachCommit config) st) :
    AnalyzeRepository (Git.mapCommits f git) config = AnalyzeRepository git config := by
  unfold AnalyzeRepository Git.mapCommits
  simp only
  cases git.PlainOpen config.GitPath with
  | error e => rfl
  | ok repo =>
    simp only
    cases (if config.Branch ≠ "" then repo.Reference (NewBranchReferenceName config.Branch)
      else repo.Head) with
    | error e => rfl
    | ok ref =>
      simp only
      cases repo.Log ref with
      | error e => rfl
      | ok it =>
        simp only [hf]

/-- C10: with `MergeRequest` false, `AnalyzeRepository` returns what it returns
on the same repository with every commit whose message begins with `Merge `
deleted from the stream; with `MergeRequest` true, its outcome does not depend
on the commit messages at all, so no commit is rejected because of its message. -/
theorem merge_exclusion (git : Git) (config : Config) :
    (config.MergeRequest = false →
      AnalyzeRepository git config =
        AnalyzeRepository
          (Git.mapCommits (List.filter (fun c => !hasMergePrefix c.Message)) git) config) ∧
    (config.MergeRequest = true → ∀ rewrite : String → String,
      AnalyzeRepository
          (Git.mapCommits
            (List.map (fun c => { Author := c.Author, Message := rewrite c.Message })) git)
          config =
        AnalyzeRepository git config) := by
  constructor
  · intro h
    exact (AnalyzeRepository_mapCommits git config _
      (foldl_forEachCommit_filter_merge config h)).symm
  · intro h rewrite
    exact AnalyzeRepository_mapCommits git config _
      (foldl_forEachCommit_map_message config h rewrite)

theorem hours_two_hours : estimateHours [minute 0, minute 200] noMerges = 2 := by
  simp [estimateHours, totalMinutes, sortDates, sessionLoop, minute, noMerges,
    Time.Before, Time.Sub, Duration.Minutes, mathRound]
  norm_num

theorem analyze_with_merge :
    AnalyzeRepository (gitOf streamWithMerge) noMerges =
      (some [("a@x.com", { Name := "a@x.com", Hours := 2, Commits := 2 }),
        ("total", { Name := "", Hours := 2, Commits := 2 })], none) := by
  rw [AnalyzeRepository_ok (gitOf streamWithMerge) noMerges
    { commits := streamWithMerge, err := none } rfl rfl]
  have hl : (ledgerOf noMerges streamWithMerge).authorCommits =
      [("a@x.com", [minute 0, minute 200])] := by
    decide
  have ht : (ledgerOf noMerges streamWithMerge).totalCommits = 2 := by
    decide
  rw [buildResult_eq _ _ (ledgerOf_nodup _ _)]
  unfold totalOf
  rw [hl, ht]
  simp [workOf, mapSet, hours_two_hours, getAuthorName]

/-- With merges left out, the stream with the commit `Merge branch 'x'` at
minute 60 gives the result of the stream without it: 2 commits and 2 hours
(one gap of 200 minutes), not the 3 hours of the gaps 60 and 140. -/
theorem merge_exclusion_witness :
    noMerges.MergeRequest = false ∧
      hasMergePrefix "Merge branch 'x'" = true ∧
      AnalyzeRepository (gitOf streamWithMerge) noMerges =
        AnalyzeRepository
          (Git.mapCommits (List.filter (fun c => !hasMergePrefix c.Message))
            (gitOf streamWithMerge)) noMerges ∧
      AnalyzeRepository (gitOf streamWithMerge) noMerges =
        (some [("a@x.com", { Name := "a@x.com", Hours := 2, Commits := 2 }),
          ("total", { Name := "", Hours := 2, Commits := 2 })], none) :=
  ⟨rfl, by decide, (merge_exclusion (gitOf streamWithMerge) noMerges).1 rfl,
    analyze_with_merge⟩


/-! ## The date window -/

theorem recordCommit_ne (config : Config) (st : Ledger) (c : Commit) :
    recordCommit config st c ≠ st := by
  intro h
  have h' := congrArg Ledger.totalCommits h
  simp only [recordCommit] at h'
  omega

theorem survives_iff (config : Config) (c : Commit) :
    survives config c = true ↔
      (config.MergeRequest = true ∨ hasMergePrefix c.Message = false) ∧
        inWindow config c.Author.When := by
  unfold survives inWindow Time.IsZero Time.Before Time.After
  cases config.MergeRequest <;> cases hasMergePrefix c.Message <;>
    by_cases h1 : config.Since = 0 <;> by_cases h2 : config.Until = 0 <;>
    by_cases h3 : c.Author.When < config.Since <;>
    by_cases h4 : config.Until < c.Author.When <;> simp [h1, h2, h3, h4]

theorem forEachCommit_record (config : Config) (st : Ledger) (c : Commit) :
    forEachCommit config st c =
      if survives config c = true then recordCommit config st c else st := by
  rw [forEachCommit_eq]
  rfl

/-- C11: a commit that passes the merge filter is recorded by the callback if
and only if `Since` is unset or its authored time is not strictly before
`Since`, and `Until` is unset or its authored time is not strictly after
`Until`; otherwise the ledger is left as it was.  In particular a commit
authored exactly at `Since` passes the lower bound and one authored exactly at
`Until` passes the upper bound. -/
theorem date_window (config : Config) (st : Ledger) (c : Commit)
    (hmerge : config.MergeRequest = true ∨ hasMergePrefix c.Message = false) :
    (forEachCommit config st c = recordCommit config st c ↔
      (config.Since = 0 ∨ ¬ c.Author.When < config.Since) ∧
        (config.Until = 0 ∨ ¬ config.Until < c.Author.When)) ∧
    (forEachCommit config st c = st ↔
      ¬ ((config.Since = 0 ∨ ¬ c.Author.When < config.Since) ∧
        (config.Until = 0 ∨ ¬ config.Until < c.Author.When))) ∧
    (c.Author.When = config.Since →
      (config.Until = 0 ∨ ¬ config.Until < c.Author.When) →
      forEachCommit config st c = recordCommit config st c) ∧
    (c.Author.When = config.Until →
      (config.Since = 0 ∨ ¬ c.Author.When < config.Since) →
      forEachCommit config st c = recordCommit config st c) := by
  have hs := survives_iff config c
  simp only [inWindow, hmerge, true_and] at hs
  have hne := recordCommit_ne config st c
  rw [forEachCommit_record]
  by_cases h : survives config c = true
  · have hw := hs.mp h
    rw [if_pos h]
    exact ⟨⟨fun _ => hw, fun _ => rfl⟩, ⟨fun h' => absurd h' hne, fun h' => absurd hw h'⟩,
      fun _ _ => rfl, fun _ _ => rfl⟩
  · have hw : ¬ ((config.Since = 0 ∨ ¬ c.Author.When < config.Since) ∧
        (config.Until = 0 ∨ ¬ config.Until < c.Author.When)) := fun hw => h (hs.mpr hw)
    rw [if_neg h]
    refine ⟨⟨fun h' => absurd h'.symm hne, fun h' => absurd h' hw⟩,
      ⟨fun _ => hw, fun _ => rfl⟩, ?_, ?_⟩
    · intro heq hu
      exact absurd ⟨Or.inr (by rw [heq]; exact lt_irrefl _), hu⟩ hw
    · intro heq hl
      exact absurd ⟨hl, Or.inr (by rw [heq]; exact lt_irrefl _)⟩ hw

theorem date_window_witness :
    (windowed.MergeRequest = true ∨ hasMergePrefix (mkCommit "a@x.com" "one" 100).Message = false) ∧
      (mkCommit "a@x.com" "one" 100).Author.When = windowed.Since ∧
      (windowed.Until = 0 ∨ ¬ windowed.Until < (mkCommit "a@x.com" "one" 100).Author.When) ∧
      forEachCommit windowed { authorCommits := [], totalCommits := 0 }
          (mkCommit "a@x.com" "one" 100) =
        recordCommit windowed { authorCommits := [], totalCommits := 0 }
          (mkCommit "a@x.com" "one" 100) :=
  ⟨Or.inl rfl, rfl, Or.inr (by decide),
    (date_window windowed { authorCommits := [], totalCommits := 0 }
      (mkCommit "a@x.com" "one" 100) (Or.inl rfl)).2.2.1 rfl (Or.inr (by decide))⟩

/-! ## Failure of the commit source -/

/-- C14: when the repository cannot be opened, the reference cannot be
resolved, the log cannot be obtained or the iteration ends with an error,
`AnalyzeRepository` returns a nil result together with an error; when none of
the four stages fails it returns a result that has the `"total"` key together
with a nil error.  No run returns both a result and an error, or neither. -/
theorem no_partial_result (git : Git) (config : Config) :
    (∀ e, git.PlainOpen config.GitPath = .error e →
      AnalyzeRepository git config = (none, some ("failed to open repository: " ++ e))) ∧
    (∀ repo e, git.PlainOpen config.GitPath = .ok repo →
      resolveReference repo config = .error e →
      AnalyzeRepository git config = (none, some ("failed to get reference: " ++ e))) ∧
    (∀ repo ref e, git.PlainOpen config.GitPath = .ok repo →
      resolveReference repo config = .ok ref → repo.Log ref = .error e →
      AnalyzeRepository git config = (none, some ("failed to get commit history: " ++ e))) ∧
    (∀ repo ref iter e, git.PlainOpen config.GitPath = .ok repo →
      resolveReference repo config = .ok ref → repo.Log ref = .ok iter →
      iter.err = some e →
      AnalyzeRepository git config = (none, some ("failed to process commits: " ++ e))) ∧
    (∀ repo ref iter, git.PlainOpen config.GitPath = .ok repo →
      resolveReference repo config = .ok ref → repo.Log ref = .ok iter →
      iter.err = none →
      ∃ res tot, AnalyzeRepository git config = (some res, none) ∧
        mapGet res "total" = some tot) ∧
    ((∃ msg, AnalyzeRepository git config = (none, some msg)) ∨
      (∃ res tot, AnalyzeRepository git config = (some res, none) ∧
        mapGet res "total" = some tot)) := by
  have hok : ∀ repo ref iter, git.PlainOpen config.GitPath = .ok repo →
      resolveReference repo config = .ok ref → repo.Log ref = .ok iter →
      iter.err = none →
      ∃ res tot, AnalyzeRepository git config = (some res, none) ∧
        mapGet res "total" = some tot := by
    intro repo ref iter h1 h2 h3 h4
    have hlog : commitLog git config = some iter := by
      unfold resolveReference at h2
      simp only [commitLog, h1, h2, h3]
    exact ⟨_, _, AnalyzeRepository_ok git config iter hlog h4,
      mapGet_total_buildResult config iter.commits⟩
  have h1 : ∀ e, git.PlainOpen config.GitPath = .error e →
      AnalyzeRepository git config = (none, some ("failed to open repository: " ++ e)) := by
    intro e h
    simp only [AnalyzeRepository, h]
  have h2 : ∀ repo e, git.PlainOpen config.GitPath = .ok repo →
      resolveReference repo config = .error e →
      AnalyzeRepository git config = (none, some ("failed to get reference: " ++ e)) := by
    intro repo e h h'
    unfold resolveReference at h'
    simp only [AnalyzeRepository, h, h']
  have h3 : ∀ repo ref e, git.PlainOpen config.GitPath = .ok repo →
      resolveReference repo config = .ok ref → repo.Log ref = .error e →
      AnalyzeRepository git config =
        (none, some ("failed to get commit history: " ++ e)) := by
    intro repo ref e h h' h''
    unfold resolveReference at h'
    simp only [AnalyzeRepository, h, h', h'']
  have h4 : ∀ repo ref iter e, git.PlainOpen config.GitPath = .ok repo →
      resolveReference repo config = .ok ref → repo.Log ref = .ok iter →
      iter.err = some e →
      AnalyzeRepository git config = (none, some ("failed to process commits: " ++ e)) := by
    intro repo ref iter e h h' h'' h'''
    unfold resolveReference at h'
    simp only [AnalyzeRepository, h, h', h'', h''']
  refine ⟨h1, h2, h3, h4, hok, ?_⟩
  cases hopen : git.PlainOpen config.GitPath with
  | error e => exact Or.inl ⟨_, h1 e hopen⟩
  | ok repo =>
    cases href : resolveReference repo config with
    | error e => exact Or.inl ⟨_, h2 repo e hopen href⟩
    | ok ref =>
      cases hlog : repo.Log ref with
      | error e => exact Or.inl ⟨_, h3 repo ref e hopen href hlog⟩
      | ok iter =>
        cases herr : iter.err with
        | some e => exact Or.inl ⟨_, h4 repo ref iter e hopen href hlog herr⟩
        | none => exact Or.inr (hok repo ref iter hopen href hlog herr)

/-- Each failing stage at a concrete repository: the run ends with a nil
result and the error of that stage; the iterator that fails after one commit
leaves no trace of that commit. -/
theorem no_partial_result_witness :
    AnalyzeRepository gitUnreadable (thresholds 120 120) =
        (none, some "failed to open repository: repository does not exist") ∧
      AnalyzeRepository gitNoReference (thresholds 120 120) =
        (none, some "failed to get reference: reference not found") ∧
      AnalyzeRepository gitNoLog (thresholds 120 120) =
        (none, some "failed to get commit history: object not found") ∧
      AnalyzeRepository gitBrokenIter (thresholds 120 120) =
        (none, some "failed to process commits: object not found") ∧
      ∃ res tot, AnalyzeRepository (gitOf streamTwoAuthors) (thresholds 120 120) =
          (some res, none) ∧ mapGet res "total" = some tot :=
  ⟨(no_partial_result gitUnreadable (thresholds 120 120)).1 _ rfl,
    (no_partial_result gitNoReference (thresholds 120 120)).2.1 _ _ rfl rfl,
    (no_partial_result gitNoLog (thresholds 120 120)).2.2.1 _ _ _ rfl rfl rfl,
    (no_partial_result gitBrokenIter (thresholds 120 120)).2.2.2.1 _ _ _ _ rfl rfl rfl rfl,
    (no_partial_result (gitOf streamTwoAuthors) (thresholds 120 120)).2.2.2.2.1 _ _ _
      rfl rfl rfl rfl⟩

/-! ## The entries of the result -/

theorem mapGet_map_workOf (config : Config) (L : List (String × List Time)) (k : String) :
    mapGet (L.map (workOf config)) k =
      (mapGet L k).map (fun v => (workOf config (k, v)).2) := by
  induction L with
  | nil => simp [mapGet]
  | cons e L ih =>
    obtain ⟨k0, v0⟩ := e
    by_cases h : k0 = k
    · subst h
      simp [mapGet, workOf]
    · simp [mapGet, workOf, h]
      simpa [workOf] using ih

theorem mapGet_buildResult_author (config : Config) (commits : List Commit) (e : String)
    (he : e ≠ "total") :
    mapGet (buildResult config (ledgerOf config commits)) e =
      if bucket config commits e = [] then none
      else some
        { Name := e
          Hours := estimateHours (bucket config commits e) config
          Commits := ((bucket config commits e).length : ℤ) } := by
  rw [buildResult_eq config _ (ledgerOf_nodup config commits), mapGet_mapSet,
    if_neg (fun h => he h.symm), mapGet_map_workOf, ledgerOf_get]
  split <;> simp [workOf, getAuthorName]

theorem mem_mapKeys_buildResult (config : Config) (commits : List Commit) (k : String) :
    k ∈ mapKeys (buildResult config (ledgerOf config commits)) ↔
      k ∈ authors config commits ∨ k = "total" := by
  rw [buildResult_eq config _ (ledgerOf_nodup config commits), mapKeys_mapSet,
    mapKeys_map_workOf]
  split
  · rename_i ht
    rw [mem_mapKeys_ledgerOf]
    constructor
    · exact Or.inl
    · rintro (h | rfl)
      · exact h
      · exact (mem_mapKeys_ledgerOf config commits "total").mp ht
  · simp only [List.mem_append, List.mem_singleton, mem_mapKeys_ledgerOf]

theorem nodup_mapKeys_buildResult (config : Config) (commits : List Commit) :
    (mapKeys (buildResult config (ledgerOf config commits))).Nodup := by
  rw [buildResult_eq config _ (ledgerOf_nodup config commits)]
  apply nodup_mapKeys_mapSet
  rw [mapKeys_map_workOf]
  exact ledgerOf_nodup config commits

theorem bucket_ne_nil_iff (config : Config) (commits : List Commit) (k : String) :
    bucket config commits k ≠ [] ↔ k ∈ authors config commits := by
  have h := mapGet_eq_none_iff (ledgerOf config commits).authorCommits k
  rw [ledgerOf_get, mem_mapKeys_ledgerOf] at h
  by_cases hb : bucket config commits k = []
  · simp only [hb, if_true, true_iff] at h
    simp [hb, h]
  · simp only [hb, if_false, reduceCtorEq, false_iff, not_not] at h
    simp [hb, h]

/-- C12: the bucket that the callback builds for a canonical email `k` is the
list of authored timestamps of the accepted commits whose raw email resolves to
`k` by one lookup in `EmailAliases` (the raw email itself when it has no alias);
on a successful run the result entry of such a `k` other than `"total"` counts
the commits of all raw emails pooled in that bucket and its hours are
`estimateHours` of the pooled timestamps. -/
theorem alias_pooling (git : Git) (config : Config) (iter : CommitIter)
    (hlog : commitLog git config = some iter) (herr : iter.err = none) (k : String) :
    mapGet (ledgerOf config iter.commits).authorCommits k =
        (if bucket config iter.commits k = [] then none
          else some (bucket config iter.commits k)) ∧
      bucket config iter.commits k =
        ((iter.commits.filter (survives config)).filter
          (fun c => (config.EmailAliases c.Author.Email).getD c.Author.Email = k)).map
          (fun c => c.Author.When) ∧
      ∃ res, AnalyzeRepository git config = (some res, none) ∧
        (k ≠ "total" → bucket config iter.commits k ≠ [] →
          mapGet res k = some
            { Name := k
              Hours := estimateHours (bucket config iter.commits k) config
              Commits := ((bucket config iter.commits k).length : ℤ) }) := by
  refine ⟨ledgerOf_get config iter.commits k, rfl, _,
    AnalyzeRepository_ok git config iter hlog herr, ?_⟩
  intro hk hb
  rw [mapGet_buildResult_author config iter.commits k hk, if_neg hb]

theorem hours_pooled :
    estimateHours [minute 0, minute 100, minute 200] withAliases = 3 := by
  simp [estimateHours, totalMinutes, sortDates, sessionLoop, minute, withAliases,
    Time.Before, Time.Sub, Duration.Minutes, mathRound]
  norm_num

/-- Scenario C: the commits of `a@x.com` and of its alias `a.alt@x.com` are in
one bucket and give one entry with 3 commits and 3 hours; a commit of
`b@x.com` goes to the bucket of `c@x.com` and not on to `d@x.com`. -/
theorem alias_pooling_witness :
    commitLog (gitOf streamWithAliases) withAliases =
        some { commits := streamWithAliases, err := none } ∧
      bucket withAliases streamWithAliases "a@x.com" = [minute 0, minute 100, minute 200] ∧
      bucket withAliases streamWithAliases "a.alt@x.com" = [] ∧
      bucket withAliases streamWithAliases "c@x.com" = [minute 0] ∧
      bucket withAliases streamWithAliases "d@x.com" = [minute 0] ∧
      ∃ res, AnalyzeRepository (gitOf streamWithAliases) withAliases = (some res, none) ∧
        mapGet res "a@x.com" = some { Name := "a@x.com", Hours := 3, Commits := 3 } :=
  have hb : bucket withAliases streamWithAliases "a@x.com" =
      [minute 0, minute 100, minute 200] := by decide
  ⟨rfl, hb, by decide, by decide, by decide,
    let ⟨res, h1, h2⟩ :=
      (alias_pooling (gitOf streamWithAliases) withAliases
        { commits := streamWithAliases, err := none } rfl rfl "a@x.com").2.2
    ⟨res, h1, by
      have h3 := h2 (by decide) (by decide)
      simp only [hb, hours_pooled] at h3
      exact h3⟩⟩

/-- C13 as stated fails: in a stream with a commit by the email `total` and one
by `a@x.com`, the canonical author `total` has one accepted commit, yet the
entry under the key `total` is the total entry and counts 2 commits. -/
theorem total_author_entry_overwritten :
    "total" ∈ authors (thresholds 120 120) streamWithTotalAuthor ∧
      bucket (thresholds 120 120) streamWithTotalAuthor "total" = [minute 0] ∧
      (AnalyzeRepository (gitOf streamWithTotalAuthor) (thresholds 120 120)).1.bind
          (fun res => mapGet res "total") =
        some { Name := "", Hours := 0, Commits := 2 } := by
  refine ⟨by decide, by decide, by decide⟩

/-- C13 (amended): on a successful run, every canonical author email `e` other
than `"total"` that has at least one accepted commit has its own entry, with
`Hours` the `estimateHours` of the bucket of `e` and `Commits` the size of that
bucket; the keys of the result are exactly these author emails and `"total"`,
each of them once. -/
theorem result_entries (git : Git) (config : Config) (iter : CommitIter)
    (hlog : commitLog git config = some iter) (herr : iter.err = none) :
    ∃ res, AnalyzeRepository git config = (some res, none) ∧
      (∀ e ∈ authors config iter.commits, e ≠ "total" →
        mapGet res e = some
          { Name := e
            Hours := estimateHours (bucket config iter.commits e) config
            Commits := ((bucket config iter.commits e).length : ℤ) }) ∧
      (∀ k, k ∈ mapKeys res ↔ k ∈ authors config iter.commits ∨ k = "total") ∧
      (mapKeys res).Nodup := by
  refine ⟨_, AnalyzeRepository_ok git config iter hlog herr, ?_,
    mem_mapKeys_buildResult config iter.commits,
    nodup_mapKeys_buildResult config iter.commits⟩
  intro e he hne
  rw [mapGet_buildResult_author config iter.commits e hne,
    if_neg ((bucket_ne_nil_iff config iter.commits e).mpr he)]

theorem result_entries_witness :
    commitLog (gitOf streamTwoAuthors) (thresholds 120 120) =
        some { commits := streamTwoAuthors, err := none } ∧
      ∃ res, AnalyzeRepository (gitOf streamTwoAuthors) (thresholds 120 120) =
          (some res, none) ∧
        (∀ e ∈ authors (thresholds 120 120) streamTwoAuthors, e ≠ "total" →
          mapGet res e = some
            { Name := e
              Hours := estimateHours (bucket (thresholds 120 120) streamTwoAuthors e)
                (thresholds 120 120)
              Commits := ((bucket (thresholds 120 120) streamTwoAuthors e).length : ℤ) }) ∧
        (∀ k, k ∈ mapKeys res ↔
          k ∈ authors (thresholds 120 120) streamTwoAuthors ∨ k = "total") ∧
        (mapKeys res).Nodup :=
  ⟨rfl, result_entries (gitOf streamTwoAuthors) (thresholds 120 120)
    { commits := streamTwoAuthors, err := none } rfl rfl⟩

/-! ## No interaction between authors -/

/-- C19 as stated fails for the canonical author `total`: two streams with the
same single accepted commit of that author, the second with one more commit by
`a@x.com`, give the key `total` 1 commit in one run and 2 in the other. -/
theorem total_author_depends_on_others :
    bucket (thresholds 120 120) streamOnlyTotalAuthor "total" =
        bucket (thresholds 120 120) streamWithTotalAuthor "total" ∧
      ((AnalyzeRepository (gitOf streamOnlyTotalAuthor) (thresholds 120 120)).1.bind
          (fun res => mapGet res "total")).map (fun w => w.Commits) = some 1 ∧
      ((AnalyzeRepository (gitOf streamWithTotalAuthor) (thresholds 120 120)).1.bind
          (fun res => mapGet res "total")).map (fun w => w.Commits) = some 2 := by
  refine ⟨by decide, by decide, by decide⟩

/-- C19 (amended): for every configuration, every canonical author `e` other
than `"total"` and every two successful runs whose streams hold the same
accepted commits of `e` (in any order, whatever the commits of other authors),
the entry of `e` has the same `Hours` and the same `Commits` in both results. -/
theorem no_cross_author (config : Config) (git₁ git₂ : Git) (iter₁ iter₂ : CommitIter)
    (hlog₁ : commitLog git₁ config = some iter₁) (herr₁ : iter₁.err = none)
    (hlog₂ : commitLog git₂ config = some iter₂) (herr₂ : iter₂.err = none)
    (e : String) (he : e ≠ "total")
    (hsame : ((accepted config iter₁.commits).filter
        (fun c => canonicalEmail config c = e)).Perm
      ((accepted config iter₂.commits).filter (fun c => canonicalEmail config c = e))) :
    ∃ res₁ res₂, AnalyzeRepository git₁ config = (some res₁, none) ∧
      AnalyzeRepository git₂ config = (some res₂, none) ∧
      (mapGet res₁ e).map (fun w => (w.Hours, w.Commits)) =
        (mapGet res₂ e).map (fun w => (w.Hours, w.Commits)) := by
  refine ⟨_, _, AnalyzeRepository_ok git₁ config iter₁ hlog₁ herr₁,
    AnalyzeRepository_ok git₂ config iter₂ hlog₂ herr₂, ?_⟩
  have hb : (bucket config iter₁.commits e).Perm (bucket config iter₂.commits e) :=
    hsame.map _
  rw [mapGet_buildResult_author config iter₁.commits e he,
    mapGet_buildResult_author config iter₂.commits e he]
  by_cases h1 : bucket config iter₁.commits e = []
  · have h2 : bucket config iter₂.commits e = [] := by
      rw [h1] at hb
      exact List.Perm.nil_eq hb |>.symm
    simp [h1, h2]
  · have h2 : bucket config iter₂.commits e ≠ [] := by
      intro h2
      rw [h2] at hb
      exact h1 (List.Perm.eq_nil hb)
    simp only [h1, h2, if_false, Option.map_some', Option.some.injEq, Prod.mk.injEq]
    exact ⟨estimateHours_congr config hb, by rw [hb.length_eq]⟩

/-- The author `a@x.com` has the same two commits in the two-author stream and
in a stream without the commits of `b@x.com`: 1 hour and 2 commits in both. -/
theorem no_cross_author_witness :
    ("a@x.com" : String) ≠ "total" ∧
      ∃ res₁ res₂,
        AnalyzeRepository (gitOf streamTwoAuthors) (thresholds 120 120) = (some res₁, none) ∧
        AnalyzeRepository
            (gitOf [mkCommit "a@x.com" "one" 0, mkCommit "a@x.com" "three" 60])
            (thresholds 120 120) = (some res₂, none) ∧
        (mapGet res₁ "a@x.com").map (fun w => (w.Hours, w.Commits)) =
          (mapGet res₂ "a@x.com").map (fun w => (w.Hours, w.Commits)) :=
  ⟨by decide,
    no_cross_author (thresholds 120 120) (gitOf streamTwoAuthors)
      (gitOf [mkCommit "a@x.com" "one" 0, mkCommit "a@x.com" "three" 60])
      { commits := streamTwoAuthors, err := none }
      { commits := [mkCommit "a@x.com" "one" 0, mkCommit "a@x.com" "three" 60], err := none }
      rfl rfl rfl rfl "a@x.com" (by decide) (List.Perm.refl _)⟩

/-! ## Sessions and their credit -/

/-- What the loop credits: the gaps inside sessions and one
`FirstCommitAdditionInMinutes` for every session but the first. -/
theorem sessionLoop_eq_sessions (config : Config) (s : List Time) (h : s ≠ []) :
    sessionLoop config s 0 =
      withinSessionMinutes config.MaxCommitDiffInMinutes s +
        ((sessionCount config.MaxCommitDiffInMinutes s : ℚ) - 1) *
          (config.FirstCommitAdditionInMinutes : ℚ) := by
  induction s with
  | nil => exact absurd rfl h
  | cons a tl ih =>
    cases tl with
    | nil => simp [sessionLoop, withinSessionMinutes, sessionCount]
    | cons b rest =>
      rw [sessionLoop_pair, ih (by simp)]
      simp only [withinSessionMinutes, sessionCount, pairCredit, gapMinutes, Duration.Minutes,
        Time.Sub]
      split
      · push_cast
        ring
      · push_cast
        ring

/-- C15 at the failing input: two timestamps 30 minutes apart with thresholds
(120, 120) are one session with 30 minutes inside it, so the claim gives
30 + 1 * 120 = 150 minutes and 3 hours; the loop totals 30 minutes and
`estimateHours` returns 1. -/
theorem first_session_not_credited :
    sessionCount 120 (sortDates [minute 0, minute 30]) = 1 ∧
      withinSessionMinutes 120 (sortDates [minute 0, minute 30]) = 30 ∧
      totalMinutes [minute 0, minute 30] (thresholds 120 120) = 30 ∧
      estimateHours [minute 0, minute 30] (thresholds 120 120) = 1 ∧
      mathRound (((30 : ℚ) + 1 * 120) / 60) = 3 := by
  refine ⟨?_, ?_, ?_, ?_, ?_⟩
  · simp [sortDates, sessionCount, gapMinutes, minute, Time.Before]
    norm_num
  · simp [sortDates, withinSessionMinutes, gapMinutes, minute, Time.Before]
    norm_num
  · simp [totalMinutes, sortDates, sessionLoop, minute, thresholds, Time.Before, Time.Sub,
      Duration.Minutes]
    norm_num
  · simp [estimateHours, totalMinutes, sortDates, sessionLoop, minute, thresholds,
      Time.Before, Time.Sub, Duration.Minutes, mathRound]
    norm_num
  · simp [mathRound]
    norm_num

/-! ## The display name -/

/-- C16 at the failing input: the only commit of `alice@x.com` records the
author name `Alice`, and the entry of that author has the email as its `Name`. -/
theorem author_name_is_email :
    commitByAlice.Author.Name = "Alice" ∧
      AnalyzeRepository (gitOf [commitByAlice]) (thresholds 120 120) =
        (some [("alice@x.com", { Name := "alice@x.com", Hours := 0, Commits := 1 }),
          ("total", { Name := "", Hours := 0, Commits := 1 })], none) := by
  constructor
  · rfl
  · decide

/-! ## One session -/

theorem sessionLoop_single_session (config : Config) (x : Time) (mid : List Time) (y : Time)
    (hc : List.Chain'
      (fun a b => Duration.Minutes (Time.Sub b a) < (config.MaxCommitDiffInMinutes : ℚ))
      (x :: (mid ++ [y]))) :
    sessionLoop config (x :: (mid ++ [y])) 0 = Duration.Minutes (Time.Sub y x) := by
  induction mid generalizing x with
  | nil =>
    simp only [List.nil_append, List.chain'_cons, List.chain'_singleton, and_true] at hc
    simp only [List.nil_append]
    rw [sessionLoop_pair, pairCredit, if_pos hc]
    simp [sessionLoop]
  | cons z mid ih =>
    simp only [List.cons_append, List.chain'_cons] at hc
    have h2 := ih z hc.2
    simp only [List.cons_append]
    rw [sessionLoop_pair, pairCredit, if_pos hc.1, h2]
    simp only [Duration.Minutes, Time.Sub]
    push_cast
    ring

theorem sortDates_ends (dates : List Time) (lo hi : Time) (h : 2 ≤ dates.length)
    (hlo : lo ∈ dates) (hhi : hi ∈ dates) (hmin : ∀ t ∈ dates, lo ≤ t)
    (hmax : ∀ t ∈ dates, t ≤ hi) :
    ∃ mid, sortDates dates = lo :: (mid ++ [hi]) := by
  have hlen := sortDates_length dates
  have hperm := sortDates_perm dates
  have hsorted := sortDates_sorted dates
  match hs : sortDates dates with
  | [] =>
    rw [hs] at hlen
    simp at hlen
    omega
  | [a] =>
    rw [hs] at hlen
    simp at hlen
    omega
  | x :: z :: tl =>
    rw [hs] at hperm hsorted
    obtain ⟨mid, y, hmid⟩ : ∃ mid y, z :: tl = mid ++ [y] := by
      rcases List.eq_nil_or_concat (z :: tl) with h0 | ⟨mid, y, h1⟩
      · simp at h0
      · exact ⟨mid, y, by simpa using h1⟩
    rw [hmid] at hperm hsorted
    refine ⟨mid, ?_⟩
    rw [hmid]
    have hx : x = lo := by
      have h1 : lo ≤ x := hmin x (hperm.mem_iff.mp (List.mem_cons_self _ _))
      have h2 : x ≤ lo := by
        rcases List.mem_cons.mp (hperm.mem_iff.mpr hlo) with h3 | h3
        · exact le_of_eq h3.symm
        · exact List.rel_of_sorted_cons hsorted lo h3
      exact le_antisymm h2 h1
    have hy : y = hi := by
      have h1 : y ≤ hi := hmax y (hperm.mem_iff.mp (by simp))
      have h2 : hi ≤ y := by
        have hmem : hi ∈ x :: (mid ++ [y]) := hperm.mem_iff.mpr hhi
        have hsplit : x :: (mid ++ [y]) = (x :: mid) ++ [y] := by simp
        rw [hsplit] at hmem hsorted
        rcases List.mem_append.mp hmem with h3 | h3
        · exact (List.pairwise_append.mp hsorted).2.2 hi h3 y (by simp)
        · simp only [List.mem_singleton] at h3
          exact le_of_eq h3
      exact le_antisymm h1 h2
    rw [hx, hy]

/-- Telescoping in exact arithmetic: when every gap between consecutive sorted
timestamps is below `MaxCommitDiffInMinutes`, the exact sum of the gaps is the
span from the earliest to the latest timestamp, so `estimateHours` is that span
in minutes, divided by 60 and rounded. -/
theorem single_session_telescoping_exact (dates : List Time) (config : Config) (lo hi : Time)
    (h : 2 ≤ dates.length) (hlo : lo ∈ dates) (hhi : hi ∈ dates)
    (hmin : ∀ t ∈ dates, lo ≤ t) (hmax : ∀ t ∈ dates, t ≤ hi)
    (hgaps : List.Chain'
      (fun a b => Duration.Minutes (Time.Sub b a) < (config.MaxCommitDiffInMinutes : ℚ))
      (sortDates dates)) :
    estimateHours dates config = mathRound (Duration.Minutes (Time.Sub hi lo) / 60) := by
  obtain ⟨mid, hs⟩ := sortDates_ends dates lo hi h hlo hhi hmin hmax
  unfold estimateHours totalMinutes
  rw [if_neg (by omega), hs]
  rw [hs] at hgaps
  rw [sessionLoop_single_session config lo mid hi hgaps]


/-! ## Binary64 rounding: exactness on integers -/

theorem log2Aux_le (fuel n : ℕ) (h : n ≠ 0) : 2 ^ log2Aux fuel n ≤ n := by
  induction fuel generalizing n with
  | zero =>
    simp only [log2Aux, pow_zero]
    omega
  | succ fuel ih =>
    simp only [log2Aux]
    split
    · simp only [pow_zero]
      omega
    · rename_i h2
      have h3 : n / 2 ≠ 0 := by omega
      have h4 := ih (n / 2) h3
      rw [pow_succ]
      omega

theorem ilog2_le (n : ℕ) (h : n ≠ 0) : 2 ^ ilog2 n ≤ n := log2Aux_le n n h

theorem ilog2_lt_of_lt (n k : ℕ) (h : n ≠ 0) (hk : n < 2 ^ k) : ilog2 n < k := by
  by_contra hcon
  have h1 : 2 ^ k ≤ 2 ^ ilog2 n := Nat.pow_le_pow_right (by norm_num) (not_lt.mp hcon)
  have h2 := ilog2_le n h
  omega

theorem roundHalfEven_intCast (m : ℤ) : roundHalfEven (m : ℚ) = m := by
  simp [roundHalfEven]

theorem binade_intCast (n : ℤ) (h : n ≠ 0) : binade (n : ℚ) = (ilog2 n.natAbs : ℤ) := by
  have h1 : ilog2 1 = 0 := by decide
  have h2 := ilog2_le n.natAbs (Int.natAbs_ne_zero.mpr h)
  have h3 : ((2 : ℚ) ^ ((ilog2 n.natAbs : ℤ))) ≤ |(n : ℚ)| := by
    rw [zpow_natCast]
    have : ((2 ^ ilog2 n.natAbs : ℕ) : ℚ) ≤ (n.natAbs : ℚ) := by exact_mod_cast h2
    have habs : |(n : ℚ)| = (n.natAbs : ℚ) := by
      rw [Nat.cast_natAbs, Int.cast_abs]
    rw [habs]
    simpa using this
  simp only [binade, Rat.num_intCast, Rat.den_intCast, h1, Nat.cast_zero, sub_zero]
  rw [if_pos h3]

theorem f64_intCast (n : ℤ) (h : n.natAbs < 2 ^ 53) : f64 (n : ℚ) = n := by
  by_cases hn : n = 0
  · simp [hn, f64]
  · have hq : (n : ℚ) ≠ 0 := by exact_mod_cast hn
    have he : ilog2 n.natAbs < 53 := ilog2_lt_of_lt _ _ (Int.natAbs_ne_zero.mpr hn) h
    obtain ⟨k, hk⟩ : ∃ k : ℕ, (ilog2 n.natAbs : ℤ) - 52 = -(k : ℤ) :=
      ⟨52 - ilog2 n.natAbs, by omega⟩
    unfold f64
    rw [if_neg hq, binade_intCast n hn, hk, zpow_neg, zpow_natCast]
    have hdiv : (n : ℚ) / ((2 : ℚ) ^ k)⁻¹ = ((n * 2 ^ k : ℤ) : ℚ) := by
      push_cast
      field_simp
    rw [hdiv, roundHalfEven_intCast]
    push_cast
    field_simp

theorem f64_zero : f64 0 = 0 := by simp [f64]


/-! ## Binary64 rounding: `f64` rounds to the nearest point of the 53 bit grid -/

theorem log2Aux_lt (fuel n : ℕ) (h : n < 2 ^ fuel) : n < 2 ^ (log2Aux fuel n + 1) := by
  induction fuel generalizing n with
  | zero =>
    simp only [pow_zero] at h
    simp only [log2Aux]
    omega
  | succ fuel ih =>
    simp only [log2Aux]
    split
    · simp only [zero_add, pow_one]
      assumption
    · have h1 : n / 2 < 2 ^ fuel := by
        rw [pow_succ] at h
        omega
      have h2 := ih (n / 2) h1
      rw [pow_succ]
      omega

theorem lt_two_pow_ilog2 (n : ℕ) : n < 2 ^ (ilog2 n + 1) :=
  log2Aux_lt n n (Nat.lt_two_pow n)

theorem abs_eq_natAbs_div_den (x : ℚ) : |x| = (x.num.natAbs : ℚ) / (x.den : ℚ) := by
  have hd : (0 : ℚ) < (x.den : ℚ) := by exact_mod_cast x.den_pos
  have hx : x = (x.num : ℚ) / (x.den : ℚ) := (Rat.num_div_den x).symm
  rw [Nat.cast_natAbs, Int.cast_abs]
  conv_lhs => rw [hx]
  rw [abs_div, abs_of_pos hd]

theorem binade_spec (x : ℚ) (hx : x ≠ 0) :
    (2 : ℚ) ^ binade x ≤ |x| ∧ |x| < (2 : ℚ) ^ (binade x + 1) := by
  have hn0 : x.num.natAbs ≠ 0 := Int.natAbs_ne_zero.mpr (Rat.num_ne_zero.mpr hx)
  have hd0 : x.den ≠ 0 := x.den_nz
  have hd : (0 : ℚ) < (x.den : ℚ) := by exact_mod_cast x.den_pos
  have ha1 : ((2 : ℚ) ^ ilog2 x.num.natAbs) ≤ (x.num.natAbs : ℚ) := by
    exact_mod_cast ilog2_le _ hn0
  have ha2 : (x.num.natAbs : ℚ) < (2 : ℚ) ^ (ilog2 x.num.natAbs + 1) := by
    exact_mod_cast lt_two_pow_ilog2 x.num.natAbs
  have hb1 : ((2 : ℚ) ^ ilog2 x.den) ≤ (x.den : ℚ) := by
    exact_mod_cast ilog2_le _ hd0
  have hb2 : (x.den : ℚ) < (2 : ℚ) ^ (ilog2 x.den + 1) := by
    exact_mod_cast lt_two_pow_ilog2 x.den
  have hpa : (0 : ℚ) < (2 : ℚ) ^ ilog2 x.num.natAbs := by positivity
  have hpb : (0 : ℚ) < (2 : ℚ) ^ ilog2 x.den := by positivity
  have habs := abs_eq_natAbs_div_den x
  have hz : ∀ k : ℤ, (2 : ℚ) ^ (((ilog2 x.num.natAbs : ℕ) : ℤ) - ((ilog2 x.den : ℕ) : ℤ) + k) =
      (2 : ℚ) ^ ilog2 x.num.natAbs / (2 : ℚ) ^ ilog2 x.den * (2 : ℚ) ^ k := by
    intro k
    rw [zpow_add₀ (by norm_num), zpow_sub₀ (by norm_num), zpow_natCast, zpow_natCast]
  unfold binade
  simp only
  split
  · rename_i h
    refine ⟨h, ?_⟩
    rw [hz 1, habs, zpow_one, div_lt_iff₀ hd]
    have h1 : (2 : ℚ) ^ ilog2 x.num.natAbs / (2 : ℚ) ^ ilog2 x.den * 2 * (x.den : ℚ) ≥
        (2 : ℚ) ^ ilog2 x.num.natAbs * 2 := by
      rw [ge_iff_le, div_mul_eq_mul_div, div_mul_eq_mul_div, le_div_iff₀ hpb]
      nlinarith
    rw [pow_succ] at ha2
    linarith
  · rename_i h
    have hlt := not_le.mp h
    have hsub : ((ilog2 x.num.natAbs : ℕ) : ℤ) - ((ilog2 x.den : ℕ) : ℤ) - 1 + 1 =
        ((ilog2 x.num.natAbs : ℕ) : ℤ) - ((ilog2 x.den : ℕ) : ℤ) := by ring
    refine ⟨?_, by rw [hsub]; exact hlt⟩
    have hm : ((ilog2 x.num.natAbs : ℕ) : ℤ) - ((ilog2 x.den : ℕ) : ℤ) - 1 =
        ((ilog2 x.num.natAbs : ℕ) : ℤ) - ((ilog2 x.den : ℕ) : ℤ) + (-1) := by ring
    rw [hm, hz (-1), habs, le_div_iff₀ hd]
    rw [pow_succ] at hb2
    have h2 : (2 : ℚ) ^ ilog2 x.num.natAbs / (2 : ℚ) ^ ilog2 x.den * (2 : ℚ) ^ (-1 : ℤ) *
        (x.den : ℚ) ≤ (2 : ℚ) ^ ilog2 x.num.natAbs := by
      rw [zpow_neg, zpow_one, div_mul_eq_mul_div, div_mul_eq_mul_div, div_le_iff₀ hpb]
      nlinarith
    linarith

theorem roundHalfEven_near (y : ℚ) : |(roundHalfEven y : ℚ) - y| ≤ 1 / 2 := by
  have h0 := Int.fract_nonneg y
  have h1 := Int.fract_lt_one y
  have hy : (⌊y⌋ : ℚ) + Int.fract y = y := Int.floor_add_fract y
  unfold roundHalfEven
  rw [abs_le]
  split_ifs <;> push_cast <;> constructor <;> linarith

/-- The value `f64 x` is a multiple of the unit in the last place of the binade
of `x` and lies within half a unit of `x`. -/
theorem f64_nearest (x : ℚ) (hx : x ≠ 0) :
    (∃ m : ℤ, f64 x = (m : ℚ) * (2 : ℚ) ^ (binade x - 52)) ∧
      |f64 x - x| ≤ (2 : ℚ) ^ (binade x - 52) / 2 := by
  have hu : (0 : ℚ) < (2 : ℚ) ^ (binade x - 52) := by positivity
  unfold f64
  rw [if_neg hx]
  refine ⟨⟨_, rfl⟩, ?_⟩
  have h := roundHalfEven_near (x / (2 : ℚ) ^ (binade x - 52))
  have hfac : (roundHalfEven (x / (2 : ℚ) ^ (binade x - 52)) : ℚ) * (2 : ℚ) ^ (binade x - 52) - x =
      ((roundHalfEven (x / (2 : ℚ) ^ (binade x - 52)) : ℚ) - x / (2 : ℚ) ^ (binade x - 52)) *
        (2 : ℚ) ^ (binade x - 52) := by
    field_simp
  rw [hfac, abs_mul, abs_of_pos hu]
  calc |(roundHalfEven (x / (2 : ℚ) ^ (binade x - 52)) : ℚ) - x / (2 : ℚ) ^ (binade x - 52)| *
        (2 : ℚ) ^ (binade x - 52) ≤ 1 / 2 * (2 : ℚ) ^ (binade x - 52) :=
        mul_le_mul_of_nonneg_right h (le_of_lt hu)
    _ = (2 : ℚ) ^ (binade x - 52) / 2 := by ring

/-! ## Binary64 rounding: sign, order and relative error -/

theorem roundHalfEven_spec (y : ℚ) :
    |(roundHalfEven y : ℚ) - y| < 1 / 2 ∨
      (|(roundHalfEven y : ℚ) - y| = 1 / 2 ∧ roundHalfEven y % 2 = 0) := by
  have h0 := Int.fract_nonneg y
  have h1 := Int.fract_lt_one y
  have hy : (⌊y⌋ : ℚ) + Int.fract y = y := Int.floor_add_fract y
  unfold roundHalfEven
  split_ifs with ha hb hc
  · left
    rw [abs_lt]
    constructor <;> linarith
  · left
    rw [abs_lt]
    push_cast
    constructor <;> linarith
  · right
    have hf : Int.fract y = 1 / 2 := le_antisymm (not_lt.mp hb) (not_lt.mp ha)
    refine ⟨?_, hc⟩
    have : (⌊y⌋ : ℚ) - y = -(1 / 2) := by linarith
    rw [this, abs_neg, abs_of_pos (by norm_num)]
  · right
    have hf : Int.fract y = 1 / 2 := le_antisymm (not_lt.mp hb) (not_lt.mp ha)
    refine ⟨?_, by omega⟩
    push_cast
    have : (⌊y⌋ : ℚ) + 1 - y = 1 / 2 := by linarith
    rw [this, abs_of_pos (by norm_num)]

theorem roundHalfEven_unique (y : ℚ) (n : ℤ)
    (h : |(n : ℚ) - y| < 1 / 2 ∨ (|(n : ℚ) - y| = 1 / 2 ∧ n % 2 = 0)) :
    roundHalfEven y = n := by
  by_contra hne
  have hs := roundHalfEven_spec y
  have h1 : |(roundHalfEven y : ℚ) - y| ≤ 1 / 2 := roundHalfEven_near y
  have h2 : |(n : ℚ) - y| ≤ 1 / 2 := by
    rcases h with h | h
    · exact le_of_lt h
    · exact le_of_eq h.1
  rw [abs_le] at h1 h2
  rcases lt_or_gt_of_ne hne with hlt | hgt
  · have h3 : roundHalfEven y + 1 ≤ n := hlt
    have h4 : (roundHalfEven y : ℚ) + 1 ≤ (n : ℚ) := by exact_mod_cast h3
    have e1 : (roundHalfEven y : ℚ) - y = -(1 / 2) := by linarith
    have e2 : (n : ℚ) - y = 1 / 2 := by linarith
    have e3 : (n : ℚ) = (roundHalfEven y : ℚ) + 1 := by linarith
    have e4 : n = roundHalfEven y + 1 := by exact_mod_cast e3
    rcases hs with hs | hs
    · rw [e1, abs_neg, abs_of_pos (by norm_num : (0 : ℚ) < 1 / 2)] at hs
      exact lt_irrefl _ hs
    · rcases h with h | h
      · rw [e2, abs_of_pos (by norm_num : (0 : ℚ) < 1 / 2)] at h
        exact lt_irrefl _ h
      · omega
  · have h3 : n + 1 ≤ roundHalfEven y := hgt
    have h4 : (n : ℚ) + 1 ≤ (roundHalfEven y : ℚ) := by exact_mod_cast h3
    have e1 : (roundHalfEven y : ℚ) - y = 1 / 2 := by linarith
    have e2 : (n : ℚ) - y = -(1 / 2) := by linarith
    have e3 : (roundHalfEven y : ℚ) = (n : ℚ) + 1 := by linarith
    have e4 : roundHalfEven y = n + 1 := by exact_mod_cast e3
    rcases hs with hs | hs
    · rw [e1, abs_of_pos (by norm_num : (0 : ℚ) < 1 / 2)] at hs
      exact lt_irrefl _ hs
    · rcases h with h | h
      · rw [e2, abs_neg, abs_of_pos (by norm_num : (0 : ℚ) < 1 / 2)] at h
        exact lt_irrefl _ h
      · omega

theorem roundHalfEven_neg (y : ℚ) : roundHalfEven (-y) = -roundHalfEven y := by
  apply roundHalfEven_unique
  have e : ((-roundHalfEven y : ℤ) : ℚ) - -y = -((roundHalfEven y : ℚ) - y) := by
    push_cast
    ring
  rw [e, abs_neg]
  rcases roundHalfEven_spec y with h | h
  · exact Or.inl h
  · exact Or.inr ⟨h.1, by omega⟩

theorem roundHalfEven_mono (x y : ℚ) (h : x ≤ y) : roundHalfEven x ≤ roundHalfEven y := by
  by_contra hcon
  have h3 : roundHalfEven y + 1 ≤ roundHalfEven x := not_le.mp hcon
  have h4 : (roundHalfEven y : ℚ) + 1 ≤ (roundHalfEven x : ℚ) := by exact_mod_cast h3
  have h1 := roundHalfEven_near x
  have h2 := roundHalfEven_near y
  rw [abs_le] at h1 h2
  have e : x = y := by linarith
  rw [e] at h3
  omega

theorem binade_neg (x : ℚ) : binade (-x) = binade x := by
  simp [binade]

theorem f64_neg (x : ℚ) : f64 (-x) = -f64 x := by
  by_cases hx : x = 0
  · simp [hx, f64]
  · have hx2 : -x ≠ 0 := neg_ne_zero.mpr hx
    unfold f64
    rw [if_neg hx, if_neg hx2, binade_neg, neg_div, roundHalfEven_neg]
    push_cast
    ring

theorem binade_mono (x y : ℚ) (hx : 0 < x) (h : x ≤ y) : binade x ≤ binade y := by
  have hy : 0 < y := lt_of_lt_of_le hx h
  have h1 := (binade_spec x (ne_of_gt hx)).1
  have h2 := (binade_spec y (ne_of_gt hy)).2
  rw [abs_of_pos hx] at h1
  rw [abs_of_pos hy] at h2
  have h3 : (2 : ℚ) ^ binade x < (2 : ℚ) ^ (binade y + 1) := by linarith
  have h4 := (zpow_lt_zpow_iff_right₀ (by norm_num : (1 : ℚ) < 2)).mp h3
  omega

/-- A positive `x` rounds into the closed binade it lies in. -/
theorem f64_binade (x : ℚ) (hx : 0 < x) :
    (2 : ℚ) ^ binade x ≤ f64 x ∧ f64 x ≤ (2 : ℚ) ^ (binade x + 1) := by
  have hne : x ≠ 0 := ne_of_gt hx
  have hu : (0 : ℚ) < (2 : ℚ) ^ (binade x - 52) := by positivity
  obtain ⟨h1, h2⟩ := binade_spec x hne
  rw [abs_of_pos hx] at h1 h2
  have e1 : (2 : ℚ) ^ binade x = ((2 ^ 52 : ℤ) : ℚ) * (2 : ℚ) ^ (binade x - 52) := by
    rw [zpow_sub₀ (by norm_num)]
    push_cast
    field_simp
    norm_num
    ring
  have e2 : (2 : ℚ) ^ (binade x + 1) = ((2 ^ 53 : ℤ) : ℚ) * (2 : ℚ) ^ (binade x - 52) := by
    rw [zpow_sub₀ (by norm_num), zpow_add₀ (by norm_num)]
    push_cast
    field_simp
    norm_num
    ring
  have q1 : ((2 ^ 52 : ℤ) : ℚ) ≤ x / (2 : ℚ) ^ (binade x - 52) := by
    rw [le_div_iff₀ hu, ← e1]
    exact h1
  have q2 : x / (2 : ℚ) ^ (binade x - 52) ≤ ((2 ^ 53 : ℤ) : ℚ) := by
    rw [div_le_iff₀ hu, ← e2]
    exact le_of_lt h2
  have r1 := roundHalfEven_mono _ _ q1
  have r2 := roundHalfEven_mono _ _ q2
  rw [roundHalfEven_intCast] at r1 r2
  have r1q : ((2 ^ 52 : ℤ) : ℚ) ≤ (roundHalfEven (x / (2 : ℚ) ^ (binade x - 52)) : ℚ) := by
    exact_mod_cast r1
  have r2q : (roundHalfEven (x / (2 : ℚ) ^ (binade x - 52)) : ℚ) ≤ ((2 ^ 53 : ℤ) : ℚ) := by
    exact_mod_cast r2
  unfold f64
  rw [if_neg hne, e1, e2]
  exact ⟨mul_le_mul_of_nonneg_right r1q (le_of_lt hu),
    mul_le_mul_of_nonneg_right r2q (le_of_lt hu)⟩

theorem f64_nonneg (x : ℚ) (hx : 0 ≤ x) : 0 ≤ f64 x := by
  rcases eq_or_lt_of_le hx with h | h
  · rw [← h, f64_zero]
  · have hp : (0 : ℚ) < (2 : ℚ) ^ binade x := by positivity
    linarith [(f64_binade x h).1]

theorem f64_mono_pos (x y : ℚ) (hx : 0 < x) (h : x ≤ y) : f64 x ≤ f64 y := by
  have hy : 0 < y := lt_of_lt_of_le hx h
  rcases eq_or_lt_of_le (binade_mono x y hx h) with hb | hb
  · have hu : (0 : ℚ) < (2 : ℚ) ^ (binade y - 52) := by positivity
    unfold f64
    rw [if_neg (ne_of_gt hx), if_neg (ne_of_gt hy), hb]
    apply mul_le_mul_of_nonneg_right _ (le_of_lt hu)
    have hq : x / (2 : ℚ) ^ (binade y - 52) ≤ y / (2 : ℚ) ^ (binade y - 52) :=
      div_le_div_of_nonneg_right h (le_of_lt hu)
    exact_mod_cast roundHalfEven_mono _ _ hq
  · have h1 := (f64_binade x hx).2
    have h2 := (f64_binade y hy).1
    have h3 : (2 : ℚ) ^ (binade x + 1) ≤ (2 : ℚ) ^ binade y :=
      zpow_le_zpow_right₀ (by norm_num) (by omega)
    linarith

/-- Rounding to binary64 preserves the order. -/
theorem f64_mono (x y : ℚ) (h : x ≤ y) : f64 x ≤ f64 y := by
  rcases lt_trichotomy 0 x with hx | hx | hx
  · exact f64_mono_pos x y hx h
  · rw [← hx, f64_zero]
    exact f64_nonneg y (by linarith)
  · rcases le_or_lt 0 y with hy | hy
    · have h1 := f64_nonneg (-x) (by linarith)
      rw [f64_neg] at h1
      have h2 := f64_nonneg y hy
      linarith
    · have h1 := f64_mono_pos (-y) (-x) (by linarith) (by linarith)
      rw [f64_neg, f64_neg] at h1
      linarith

/-- The relative error of one rounding is at most `2 ^ (-53)`. -/
theorem f64_relerr (x : ℚ) : |f64 x - x| ≤ |x| / 2 ^ 53 := by
  by_cases hx : x = 0
  · simp [hx, f64_zero]
  · have h1 := (f64_nearest x hx).2
    have h2 := (binade_spec x hx).1
    have e : (2 : ℚ) ^ (binade x - 52) / 2 = (2 : ℚ) ^ binade x / 2 ^ 53 := by
      rw [zpow_sub₀ (by norm_num)]
      field_simp
      norm_num
    rw [e] at h1
    have h3 : (2 : ℚ) ^ binade x / 2 ^ 53 ≤ |x| / 2 ^ 53 :=
      div_le_div_of_nonneg_right h2 (by positivity)
    linarith

/-! ## The loop in the arithmetic of the program -/

theorem sessionLoopGo_cons_cons (config : Config) (d0 d1 : Time) (rest : List Time) (acc : ℚ) :
    sessionLoopGo config (d0 :: d1 :: rest) acc =
      sessionLoopGo config (d1 :: rest) (f64 (acc + creditGo config d0 d1)) := by
  simp only [sessionLoopGo, creditGo]
  split <;> rfl

theorem sessionLoopGo_append (config : Config) (p : List Time) (d0 : Time) (rest : List Time)
    (acc : ℚ) :
    sessionLoopGo config (p ++ d0 :: rest) acc =
      sessionLoopGo config (d0 :: rest) (sessionLoopGo config (p ++ [d0]) acc) := by
  induction p generalizing acc with
  | nil => simp [sessionLoopGo]
  | cons a tl ih =>
    cases tl with
    | nil =>
      simp only [List.cons_append, List.nil_append]
      rw [sessionLoopGo_cons_cons, sessionLoopGo_cons_cons]
      simp [sessionLoopGo]
    | cons b tl2 =>
      simp only [List.cons_append] at ih ⊢
      rw [sessionLoopGo_cons_cons, sessionLoopGo_cons_cons, ih]

theorem SubGo_eq (t u : Time) (h0 : u ≤ t) (h1 : t - u ≤ maxDuration) :
    Time.SubGo t u = t - u := by
  unfold Time.SubGo
  have h2 : @LE.le ℤ _ minDuration (t - u) := by
    unfold minDuration
    have : @LE.le ℤ _ u t := h0
    omega
  rw [min_eq_right h1, max_eq_right h2]

theorem SubGo_nonneg (t u : Time) (h0 : u ≤ t) : 0 ≤ Time.SubGo t u := by
  unfold Time.SubGo
  apply le_max_of_le_right
  apply le_min
  · unfold maxDuration
    decide
  · exact sub_nonneg.mpr h0

theorem SubGo_le (t u : Time) : Time.SubGo t u ≤ maxDuration := by
  unfold Time.SubGo
  apply max_le
  · unfold minDuration maxDuration
    decide
  · exact min_le_left _ _

theorem MinutesGo_nonneg (d : Duration) (h : 0 ≤ d) : 0 ≤ Duration.MinutesGo d := by
  unfold Duration.MinutesGo
  have h1 : (0 : ℚ) ≤ ((Int.tdiv d 60000000000 : ℤ) : ℚ) := by
    exact_mod_cast Int.tdiv_nonneg h (by norm_num)
  have h2 : (0 : ℚ) ≤ ((Int.tmod d 60000000000 : ℤ) : ℚ) := by
    exact_mod_cast Int.tmod_nonneg _ h
  have h3 := f64_nonneg _ h1
  have h4 := f64_nonneg _ h2
  have h5 := f64_nonneg (f64 ((Int.tmod d 60000000000 : ℤ) : ℚ) / 60000000000)
    (by positivity)
  exact f64_nonneg _ (by linarith)

theorem intOfFloat_of_fits (outOfRange : ℤ → ℤ) (r : ℤ) (h0 : minInt ≤ r) (h1 : r ≤ maxInt) :
    intOfFloat outOfRange r = r := by
  unfold intOfFloat
  rw [if_pos ⟨h0, h1⟩]

/-! ## The sign of the estimate -/

theorem creditGo_nonneg (config : Config) (d0 d1 : Time) (h : d0 ≤ d1)
    (hadd : 0 ≤ config.FirstCommitAdditionInMinutes) : 0 ≤ creditGo config d0 d1 := by
  unfold creditGo
  split
  · exact MinutesGo_nonneg _ (SubGo_nonneg _ _ h)
  · exact f64_nonneg _ (by exact_mod_cast hadd)

theorem sessionLoopGo_nonneg (config : Config) (l : List Time)
    (hadd : 0 ≤ config.FirstCommitAdditionInMinutes) (hs : l.Sorted (fun a b => a ≤ b))
    (acc : ℚ) (hacc : 0 ≤ acc) : 0 ≤ sessionLoopGo config l acc := by
  induction l generalizing acc with
  | nil => simpa [sessionLoopGo] using hacc
  | cons d0 tl ih =>
    cases tl with
    | nil => simpa [sessionLoopGo] using hacc
    | cons d1 rest =>
      rw [sessionLoopGo_cons_cons]
      have h01 : d0 ≤ d1 := List.rel_of_sorted_cons hs d1 (List.mem_cons_self _ _)
      have hc := creditGo_nonneg config d0 d1 h01 hadd
      exact ih hs.of_cons _ (f64_nonneg _ (by linarith))

theorem roundedHoursGo_nonneg (dates : List Time) (config : Config)
    (hadd : 0 ≤ config.FirstCommitAdditionInMinutes) : 0 ≤ roundedHoursGo dates config := by
  unfold roundedHoursGo totalMinutesGo
  apply mathRound_nonneg
  apply f64_nonneg
  have := sessionLoopGo_nonneg config (sortDates dates) hadd (sortDates_sorted dates) 0
    (le_refl 0)
  positivity

/-! ## Raising the credit -/

theorem sessionLoopGo_mono (c c' : Config) (l : List Time)
    (h : ∀ d0 d1, creditGo c d0 d1 ≤ creditGo c' d0 d1) (acc acc' : ℚ) (hacc : acc ≤ acc') :
    sessionLoopGo c l acc ≤ sessionLoopGo c' l acc' := by
  induction l generalizing acc acc' with
  | nil => simpa [sessionLoopGo] using hacc
  | cons d0 tl ih =>
    cases tl with
    | nil => simpa [sessionLoopGo] using hacc
    | cons d1 rest =>
      rw [sessionLoopGo_cons_cons, sessionLoopGo_cons_cons]
      exact ih _ _ (f64_mono _ _ (add_le_add hacc (h d0 d1)))

theorem roundedHoursGo_mono (c c' : Config) (l : List Time)
    (h : ∀ d0 d1, creditGo c d0 d1 ≤ creditGo c' d0 d1) :
    roundedHoursGo l c ≤ roundedHoursGo l c' := by
  unfold roundedHoursGo totalMinutesGo
  apply mathRound_mono
  apply f64_mono
  have := sessionLoopGo_mono c c' (sortDates l) h 0 0 (le_refl 0)
  linarith

/-- C5 as stated fails in two ways.  A negative
`FirstCommitAdditionInMinutes` makes the estimate negative as soon as one gap
reaches the threshold: two timestamps 1000 minutes apart with thresholds
(120, -120) give -2.  And a credit near the top of the range of `int` makes the
hour total leave that range: with the credit 9223372036854775807 and sixty-two
timestamps 1000 minutes apart the total is 9377094904135688192 hours, more than
the largest `int`, and the conversion on amd64 returns the smallest `int`. -/
theorem estimateHoursGo_negative_example :
    estimateHoursGo amd64 [minute 0, minute 1000] (thresholds 120 (-120)) = -2 ∧
      (0 : ℤ) ≤ (thresholds 120 9223372036854775807).FirstCommitAdditionInMinutes ∧
      roundedHoursGo everyThousandMinutes (thresholds 120 9223372036854775807) =
        9377094904135688192 ∧
      estimateHoursGo amd64 everyThousandMinutes (thresholds 120 9223372036854775807) =
        -9223372036854775808 := by
  refine ⟨by decide!, by decide, by decide!, by decide!⟩

/-- C5 (amended): for every timestamp collection and every
`MaxCommitDiffInMinutes`, the estimate is a non-negative integer provided
`FirstCommitAdditionInMinutes` is not negative and the rounded hour total, the
`float64` that `int(...)` converts, does not exceed the largest `int`
(`2 ^ 63 - 1`); this on every platform, whatever its conversion does out of
range. -/
theorem estimateHoursGo_nonneg (outOfRange : ℤ → ℤ) (dates : List Time) (config : Config)
    (hadd : 0 ≤ config.FirstCommitAdditionInMinutes)
    (hfit : roundedHoursGo dates config ≤ maxInt) :
    0 ≤ estimateHoursGo outOfRange dates config := by
  unfold estimateHoursGo
  split
  · exact le_refl _
  · have h0 := roundedHoursGo_nonneg dates config hadd
    rw [intOfFloat_of_fits _ _ (le_trans (by decide) h0) hfit]
    exact h0

theorem estimateHoursGo_nonneg_witness :
    (0 : ℤ) ≤ (thresholds (-5) 0).FirstCommitAdditionInMinutes ∧
      roundedHoursGo [minute 900, minute 0, minute 30] (thresholds (-5) 0) ≤ maxInt ∧
      0 ≤ estimateHoursGo amd64 [minute 900, minute 0, minute 30] (thresholds (-5) 0) :=
  ⟨by decide, by decide!, estimateHoursGo_nonneg _ _ _ (by decide) (by decide!)⟩

/-- C6 as stated fails where the hour total leaves the range of `int`: on
sixty-two timestamps 1000 minutes apart with the threshold 120, raising the
credit from 9000000000000000000 to 9223372036854775807 takes the estimate on
amd64 from 9150000000000000000 hours to the smallest `int`. -/
theorem estimateHoursGo_not_mono_firstCommitAddition :
    (thresholds 120 9000000000000000000).MaxCommitDiffInMinutes =
        (thresholds 120 9223372036854775807).MaxCommitDiffInMinutes ∧
      (thresholds 120 9000000000000000000).FirstCommitAdditionInMinutes ≤
        (thresholds 120 9223372036854775807).FirstCommitAdditionInMinutes ∧
      estimateHoursGo amd64 everyThousandMinutes (thresholds 120 9000000000000000000) =
        9150000000000000000 ∧
      estimateHoursGo amd64 everyThousandMinutes (thresholds 120 9223372036854775807) =
        -9223372036854775808 := by
  refine ⟨rfl, by decide, by decide!, by decide!⟩

/-- C6 (amended): for a fixed list of timestamps and a fixed
`MaxCommitDiffInMinutes`, raising `FirstCommitAdditionInMinutes` never lowers
the estimate, provided the rounded hour totals stay in the range of `int`: the
one for the smaller credit is at least `-2 ^ 63` and the one for the larger
credit at most `2 ^ 63 - 1`. -/
theorem estimateHoursGo_mono_firstCommitAddition (outOfRange : ℤ → ℤ) (dates : List Time)
    (c c' : Config)
    (hmax : c.MaxCommitDiffInMinutes = c'.MaxCommitDiffInMinutes)
    (hadd : c.FirstCommitAdditionInMinutes ≤ c'.FirstCommitAdditionInMinutes)
    (hlo : minInt ≤ roundedHoursGo dates c) (hhi : roundedHoursGo dates c' ≤ maxInt) :
    estimateHoursGo outOfRange dates c ≤ estimateHoursGo outOfRange dates c' := by
  have hm : roundedHoursGo dates c ≤ roundedHoursGo dates c' := by
    apply roundedHoursGo_mono
    intro d0 d1
    unfold creditGo
    rw [hmax]
    split
    · exact le_refl _
    · exact f64_mono _ _ (by exact_mod_cast hadd)
  unfold estimateHoursGo
  split
  · exact le_refl _
  · rw [intOfFloat_of_fits _ _ hlo (le_trans hm hhi),
      intOfFloat_of_fits _ _ (le_trans hlo hm) hhi]
    exact hm

theorem estimateHoursGo_mono_firstCommitAddition_witness :
    (thresholds 120 60).MaxCommitDiffInMinutes = (thresholds 120 90).MaxCommitDiffInMinutes ∧
      (thresholds 120 60).FirstCommitAdditionInMinutes ≤
        (thresholds 120 90).FirstCommitAdditionInMinutes ∧
      minInt ≤ roundedHoursGo [minute 0, minute 500] (thresholds 120 60) ∧
      roundedHoursGo [minute 0, minute 500] (thresholds 120 90) ≤ maxInt ∧
      estimateHoursGo amd64 [minute 0, minute 500] (thresholds 120 60) ≤
        estimateHoursGo amd64 [minute 0, minute 500] (thresholds 120 90) :=
  ⟨rfl, by decide, by decide!, by decide!,
    estimateHoursGo_mono_firstCommitAddition _ _ _ _ rfl (by decide) (by decide!) (by decide!)⟩

/-! ## The threshold is strict -/

theorem tdiv_minute_bounds (d : Duration) (h0 : 0 ≤ d) (h1 : d ≤ maxDuration) :
    0 ≤ Int.tdiv d 60000000000 ∧ Int.tdiv d 60000000000 ≤ 153722867 ∧
      0 ≤ Int.tmod d 60000000000 ∧ Int.tmod d 60000000000 < 60000000000 ∧
      60000000000 * Int.tdiv d 60000000000 + Int.tmod d 60000000000 = d := by
  have e := Int.tdiv_add_tmod d 60000000000
  have a1 : 0 ≤ Int.tdiv d 60000000000 := Int.tdiv_nonneg h0 (by norm_num)
  have a2 : 0 ≤ Int.tmod d 60000000000 := Int.tmod_nonneg _ h0
  have a3 : Int.tmod d 60000000000 < 60000000000 := Int.tmod_lt_of_pos _ (by norm_num)
  unfold maxDuration at h1
  refine ⟨a1, ?_, a2, a3, e⟩
  have h1z : @LE.le ℤ _ d 9223372036854775807 := h1
  omega

/-- A gap of at least `m` whole minutes that fits a `Duration` is not below
`float64(m)` in binary64. -/
theorem MinutesGo_ge (d : Duration) (m : ℤ) (h1 : d ≤ maxDuration)
    (hm : m * 60000000000 ≤ d) (h0 : 0 ≤ d) : f64 (m : ℚ) ≤ Duration.MinutesGo d := by
  obtain ⟨a1, a1b, a2, a3, e⟩ := tdiv_minute_bounds d h0 h1
  have hq : m ≤ Int.tdiv d 60000000000 := by omega
  have hf : f64 ((Int.tdiv d 60000000000 : ℤ) : ℚ) = ((Int.tdiv d 60000000000 : ℤ) : ℚ) :=
    f64_intCast _ (by omega)
  have h2 : (0 : ℚ) ≤ ((Int.tmod d 60000000000 : ℤ) : ℚ) := by exact_mod_cast a2
  have h3 := f64_nonneg _ h2
  have h4 := f64_nonneg (f64 ((Int.tmod d 60000000000 : ℤ) : ℚ) / 60000000000)
    (by positivity)
  have h5 : f64 (m : ℚ) ≤ f64 ((Int.tdiv d 60000000000 : ℤ) : ℚ) :=
    f64_mono _ _ (by exact_mod_cast hq)
  have h6 : f64 ((Int.tdiv d 60000000000 : ℤ) : ℚ) ≤ Duration.MinutesGo d := by
    unfold Duration.MinutesGo
    conv_lhs => rw [hf, ← hf, hf]
    rw [hf]
    calc ((Int.tdiv d 60000000000 : ℤ) : ℚ) = f64 ((Int.tdiv d 60000000000 : ℤ) : ℚ) := hf.symm
      _ ≤ _ := f64_mono _ _ (by linarith)
  linarith

theorem SubGo_ge (t u : Time) (x : Duration) (hx : x ≤ maxDuration) (h : x ≤ t - u) :
    x ≤ Time.SubGo t u := by
  unfold Time.SubGo
  exact le_max_of_le_right (le_min hx h)

theorem creditGo_of_ge (config : Config) (d0 d1 : Time) (h01 : d0 ≤ d1)
    (hM : config.MaxCommitDiffInMinutes * 60000000000 ≤ maxDuration)
    (hge : config.MaxCommitDiffInMinutes * 60000000000 ≤ d1 - d0) :
    creditGo config d0 d1 = f64 (config.FirstCommitAdditionInMinutes : ℚ) := by
  unfold creditGo
  rw [if_neg (not_lt.mpr (MinutesGo_ge _ _ (SubGo_le d1 d0) (SubGo_ge d1 d0 _ hM hge)
    (SubGo_nonneg d1 d0 h01)))]

theorem sorted_mid_le (p q : List Time) (d0 d1 : Time)
    (h : (p ++ d0 :: d1 :: q).Sorted (fun a b => a ≤ b)) : d0 ≤ d1 := by
  have h2 : (d0 :: d1 :: q).Sorted (fun a b => a ≤ b) := by
    unfold List.Sorted at h ⊢
    exact (List.pairwise_append.mp h).2.1
  exact List.rel_of_sorted_cons h2 d1 (List.mem_cons_self _ _)


/-- C17 as stated fails where the threshold leaves the range of `Duration`: two
timestamps exactly 160000000 minutes apart (304 years) with thresholds
(160000000, 60) are a gap equal to the threshold, yet `Sub` returns the largest
`Duration`, 153722867.28 minutes, which is below the threshold; the gap is
credited as real time and the estimate is 2562048 hours, not 1. -/
theorem threshold_not_strict_beyond_duration :
    sortDates [minute 0, minute 160000000] = [] ++ minute 0 :: minute 160000000 :: [] ∧
      minute 160000000 - minute 0 =
        (thresholds 160000000 60).MaxCommitDiffInMinutes * 60000000000 ∧
      ¬ (thresholds 160000000 60).MaxCommitDiffInMinutes * 60000000000 ≤ maxDuration ∧
      Time.SubGo (minute 160000000) (minute 0) = maxDuration ∧
      creditGo (thresholds 160000000 60) (minute 0) (minute 160000000) ≠
        f64 ((thresholds 160000000 60).FirstCommitAdditionInMinutes : ℚ) ∧
      estimateHoursGo amd64 [minute 0, minute 160000000] (thresholds 160000000 60) =
        2562048 := by
  refine ⟨by decide, by decide, by decide, by decide, by decide!, by decide!⟩

/-- C17 (amended): for a `MaxCommitDiffInMinutes` that fits a `Duration` (at
most 153722867 minutes, `2 ^ 63 - 1` nanoseconds, some 292 years), a consecutive
pair of the ascending arrangement of the timestamps whose gap is exactly
`MaxCommitDiffInMinutes` (or more) adds `float64(FirstCommitAdditionInMinutes)`
to the running minute total, not the gap; and only a pair whose gap is strictly
below the threshold has the loop take the branch that adds the real length. -/
theorem threshold_strict_go (dates : List Time) (config : Config) (p q : List Time)
    (d0 d1 : Time) (hs : sortDates dates = p ++ d0 :: d1 :: q)
    (hM : config.MaxCommitDiffInMinutes * 60000000000 ≤ maxDuration) :
    (d1 - d0 = config.MaxCommitDiffInMinutes * 60000000000 →
      totalMinutesGo dates config =
        sessionLoopGo config (d1 :: q)
          (f64 (sessionLoopGo config (p ++ [d0]) 0 +
            f64 (config.FirstCommitAdditionInMinutes : ℚ)))) ∧
    (config.MaxCommitDiffInMinutes * 60000000000 ≤ d1 - d0 →
      totalMinutesGo dates config =
        sessionLoopGo config (d1 :: q)
          (f64 (sessionLoopGo config (p ++ [d0]) 0 +
            f64 (config.FirstCommitAdditionInMinutes : ℚ)))) ∧
    (Duration.MinutesGo (Time.SubGo d1 d0) < f64 (config.MaxCommitDiffInMinutes : ℚ) →
      d1 - d0 < config.MaxCommitDiffInMinutes * 60000000000) := by
  have h01 : d0 ≤ d1 := by
    have := sortDates_sorted dates
    rw [hs] at this
    exact sorted_mid_le p q d0 d1 this
  have hsplit : totalMinutesGo dates config =
      sessionLoopGo config (d1 :: q)
        (f64 (sessionLoopGo config (p ++ [d0]) 0 + creditGo config d0 d1)) := by
    unfold totalMinutesGo
    rw [hs, sessionLoopGo_append, sessionLoopGo_cons_cons]
  refine ⟨fun h => ?_, fun h => ?_, fun h => ?_⟩
  · rw [hsplit, creditGo_of_ge config d0 d1 h01 hM (le_of_eq h.symm)]
  · rw [hsplit, creditGo_of_ge config d0 d1 h01 hM h]
  · by_contra hcon
    have hge := MinutesGo_ge (Time.SubGo d1 d0) config.MaxCommitDiffInMinutes
      (SubGo_le d1 d0) (SubGo_ge d1 d0 _ hM (not_lt.mp hcon)) (SubGo_nonneg d1 d0 h01)
    exact absurd h (not_lt.mpr hge)

/-- Two timestamps exactly 120 minutes apart with thresholds (120, 60): the
minute total is the credit 60 and the estimate is 1 hour, not 2. -/
theorem threshold_strict_go_witness :
    sortDates [minute 0, minute 120] = [] ++ minute 0 :: minute 120 :: [] ∧
      (thresholds 120 60).MaxCommitDiffInMinutes * 60000000000 ≤ maxDuration ∧
      minute 120 - minute 0 = (thresholds 120 60).MaxCommitDiffInMinutes * 60000000000 ∧
      totalMinutesGo [minute 0, minute 120] (thresholds 120 60) =
        sessionLoopGo (thresholds 120 60) (minute 120 :: [])
          (f64 (sessionLoopGo (thresholds 120 60) ([] ++ [minute 0]) 0 +
            f64 ((thresholds 120 60).FirstCommitAdditionInMinutes : ℚ))) ∧
      totalMinutesGo [minute 0, minute 120] (thresholds 120 60) = 60 ∧
      estimateHoursGo amd64 [minute 0, minute 120] (thresholds 120 60) = 1 :=
  have hs : sortDates [minute 0, minute 120] = [] ++ minute 0 :: minute 120 :: [] := by
    decide
  have hf : (thresholds 120 60).MaxCommitDiffInMinutes * 60000000000 ≤ maxDuration := by
    decide
  have hg : minute 120 - minute 0 =
      (thresholds 120 60).MaxCommitDiffInMinutes * 60000000000 := by decide
  ⟨hs, hf, hg,
    (threshold_strict_go [minute 0, minute 120] (thresholds 120 60) [] [] (minute 0)
      (minute 120) hs hf).1 hg,
    by decide!, by decide!⟩

/-! ## The credit of a pair is bounded -/

theorem creditGo_le_max (config : Config) (d0 d1 : Time)
    (hm : config.MaxCommitDiffInMinutes.natAbs < 2 ^ 53)
    (ha : config.FirstCommitAdditionInMinutes.natAbs < 2 ^ 53) :
    creditGo config d0 d1 ≤
      ((max config.MaxCommitDiffInMinutes config.FirstCommitAdditionInMinutes : ℤ) : ℚ) := by
  unfold creditGo
  rw [f64_intCast _ hm, f64_intCast _ ha]
  split
  · rename_i h
    exact le_trans (le_of_lt h) (by exact_mod_cast le_max_left _ _)
  · exact_mod_cast le_max_right _ _

theorem sessionLoopGo_le (config : Config) (M : ℤ)
    (hM : ∀ d0 d1, creditGo config d0 d1 ≤ (M : ℚ)) (l : List Time) (k : ℕ) (acc : ℚ)
    (hacc : acc ≤ (((k : ℤ) * M : ℤ) : ℚ))
    (hb : ((k + (l.length - 1) : ℕ) : ℤ) * |M| < 2 ^ 53) :
    sessionLoopGo config l acc ≤ ((((k + (l.length - 1) : ℕ) : ℤ) * M : ℤ) : ℚ) := by
  induction l generalizing k acc with
  | nil => simpa [sessionLoopGo] using hacc
  | cons d0 tl ih =>
    cases tl with
    | nil => simpa [sessionLoopGo] using hacc
    | cons d1 rest =>
      rw [sessionLoopGo_cons_cons]
      have hlen : k + ((d0 :: d1 :: rest).length - 1) = (k + 1) + ((d1 :: rest).length - 1) := by
        simp only [List.length_cons]
        omega
      rw [hlen] at hb ⊢
      apply ih (k + 1) _ _ hb
      have habs : 0 ≤ |M| := abs_nonneg M
      have hk1 : (((k + 1 : ℕ) : ℤ) * M).natAbs < 2 ^ 53 := by
        have h1 : ((k + 1 : ℕ) : ℤ) * |M| ≤
            ((k + 1 + ((d1 :: rest).length - 1) : ℕ) : ℤ) * |M| := by
          apply mul_le_mul_of_nonneg_right _ habs
          exact_mod_cast Nat.le_add_right _ _
        have h2 : |((k + 1 : ℕ) : ℤ) * M| = ((k + 1 : ℕ) : ℤ) * |M| := by
          rw [abs_mul, abs_of_nonneg (by positivity : (0 : ℤ) ≤ ((k + 1 : ℕ) : ℤ))]
        have h3 : |((k + 1 : ℕ) : ℤ) * M| < 2 ^ 53 := by
          rw [h2]
          exact lt_of_le_of_lt h1 hb
        have h4 : ((((k + 1 : ℕ) : ℤ) * M).natAbs : ℤ) = |((k + 1 : ℕ) : ℤ) * M| :=
          Int.natCast_natAbs _
        omega
      have hx := f64_intCast _ hk1
      rw [← hx]
      apply f64_mono
      have := hM d0 d1
      push_cast at hacc ⊢
      linarith

/-- C18 as stated fails where binary64 cannot hold the integers involved.  With
thresholds (120, 9007199254740995) the credit `2 ^ 53 + 3` is rounded to
`2 ^ 53 + 4` by `float64(...)`, so two timestamps 1000 minutes apart add more
than the larger threshold to the minute total.  And with thresholds
(120, 4503599627370497), a credit `2 ^ 52 + 1` that binary64 does hold, four
timestamps 1000 minutes apart add the credit three times; the third sum
`3 * 2 ^ 52 + 3` is rounded to `3 * 2 ^ 52 + 4`, more than three times the
larger threshold. -/
theorem credit_exceeds_max_beyond_2_pow_53 :
    2 ≤ [minute 0, minute 1000].length ∧
      creditGo (thresholds 120 9007199254740995) (minute 0) (minute 1000) =
        9007199254740996 ∧
      totalMinutesGo [minute 0, minute 1000] (thresholds 120 9007199254740995) =
        9007199254740996 ∧
      ((([minute 0, minute 1000].length : ℚ) - 1) *
        ((max (thresholds 120 9007199254740995).MaxCommitDiffInMinutes
          (thresholds 120 9007199254740995).FirstCommitAdditionInMinutes : ℤ) : ℚ) =
        9007199254740995) ∧
      totalMinutesGo [minute 0, minute 1000, minute 2000, minute 3000]
        (thresholds 120 4503599627370497) = 13510798882111492 ∧
      ((([minute 0, minute 1000, minute 2000, minute 3000].length : ℚ) - 1) *
        ((max (thresholds 120 4503599627370497).MaxCommitDiffInMinutes
          (thresholds 120 4503599627370497).FirstCommitAdditionInMinutes : ℤ) : ℚ) =
        13510798882111491) := by
  refine ⟨by decide, by decide!, by decide!, by decide!, by decide!, by decide!⟩

/-- C18 (amended): for a list of `n ≥ 2` timestamps and thresholds with
`(n - 1) * max |MaxCommitDiffInMinutes| |FirstCommitAdditionInMinutes|` below
`2 ^ 53`, the range in which binary64 holds every integer, every consecutive
pair adds at most `max MaxCommitDiffInMinutes FirstCommitAdditionInMinutes`
minutes, and the minute total before rounding is at most `n - 1` times that
maximum, however far apart the timestamps are. -/
theorem total_bounded_go (dates : List Time) (config : Config) (h : 2 ≤ dates.length)
    (hb : ((dates.length : ℤ) - 1) *
      max |config.MaxCommitDiffInMinutes| |config.FirstCommitAdditionInMinutes| < 2 ^ 53) :
    (∀ d0 d1 : Time,
      (if Duration.MinutesGo (Time.SubGo d1 d0) < f64 (config.MaxCommitDiffInMinutes : ℚ) then
          Duration.MinutesGo (Time.SubGo d1 d0)
        else f64 (config.FirstCommitAdditionInMinutes : ℚ)) ≤
        ((max config.MaxCommitDiffInMinutes config.FirstCommitAdditionInMinutes : ℤ) : ℚ)) ∧
      totalMinutesGo dates config ≤
        ((dates.length : ℚ) - 1) *
          ((max config.MaxCommitDiffInMinutes config.FirstCommitAdditionInMinutes : ℤ) : ℚ) := by
  have hn : (1 : ℤ) ≤ (dates.length : ℤ) - 1 := by
    have : (2 : ℤ) ≤ (dates.length : ℤ) := by exact_mod_cast h
    omega
  have hmx0 : 0 ≤ max |config.MaxCommitDiffInMinutes| |config.FirstCommitAdditionInMinutes| :=
    le_max_of_le_left (abs_nonneg _)
  have hmx : max |config.MaxCommitDiffInMinutes| |config.FirstCommitAdditionInMinutes| <
      2 ^ 53 := by
    have h1 : 1 * max |config.MaxCommitDiffInMinutes| |config.FirstCommitAdditionInMinutes| ≤
        ((dates.length : ℤ) - 1) *
          max |config.MaxCommitDiffInMinutes| |config.FirstCommitAdditionInMinutes| :=
      mul_le_mul_of_nonneg_right hn hmx0
    linarith
  have hm : config.MaxCommitDiffInMinutes.natAbs < 2 ^ 53 := by
    have h1 := le_max_left |config.MaxCommitDiffInMinutes|
      |config.FirstCommitAdditionInMinutes|
    have h2 : ((config.MaxCommitDiffInMinutes.natAbs : ℕ) : ℤ) =
        |config.MaxCommitDiffInMinutes| := Int.natCast_natAbs _
    omega
  have ha : config.FirstCommitAdditionInMinutes.natAbs < 2 ^ 53 := by
    have h1 := le_max_right |config.MaxCommitDiffInMinutes|
      |config.FirstCommitAdditionInMinutes|
    have h2 : ((config.FirstCommitAdditionInMinutes.natAbs : ℕ) : ℤ) =
        |config.FirstCommitAdditionInMinutes| := Int.natCast_natAbs _
    omega
  have hcred := creditGo_le_max config
  refine ⟨fun d0 d1 => hcred d0 d1 hm ha, ?_⟩
  have hMabs : |max config.MaxCommitDiffInMinutes config.FirstCommitAdditionInMinutes| ≤
      max |config.MaxCommitDiffInMinutes| |config.FirstCommitAdditionInMinutes| := by
    rcases max_cases config.MaxCommitDiffInMinutes config.FirstCommitAdditionInMinutes with
      h1 | h1
    · rw [h1.1]
      exact le_max_left _ _
    · rw [h1.1]
      exact le_max_right _ _
  have hlen : ((0 + ((sortDates dates).length - 1) : ℕ) : ℤ) = (dates.length : ℤ) - 1 := by
    rw [sortDates_length]
    have : 1 ≤ dates.length := by omega
    push_cast [Nat.cast_sub this]
    ring
  have hl := sessionLoopGo_le config
    (max config.MaxCommitDiffInMinutes config.FirstCommitAdditionInMinutes)
    (fun d0 d1 => hcred d0 d1 hm ha) (sortDates dates) 0 0 (by simp)
    (by
      rw [hlen]
      exact lt_of_le_of_lt (mul_le_mul_of_nonneg_left hMabs (by omega)) hb)
  rw [hlen, Int.cast_mul] at hl
  have hc : (((dates.length : ℤ) - 1 : ℤ) : ℚ) = (dates.length : ℚ) - 1 := by
    push_cast
    ring
  rw [hc] at hl
  unfold totalMinutesGo
  exact hl

/-- Two timestamps a million minutes apart with thresholds (120, 120): the
minute total is at most 120. -/
theorem total_bounded_go_witness :
    2 ≤ [minute 0, minute 1000000].length ∧
      ((([minute 0, minute 1000000].length : ℤ) - 1) *
        max |(thresholds 120 120).MaxCommitDiffInMinutes|
          |(thresholds 120 120).FirstCommitAdditionInMinutes| < 2 ^ 53) ∧
      totalMinutesGo [minute 0, minute 1000000] (thresholds 120 120) ≤
        (([minute 0, minute 1000000].length : ℚ) - 1) *
          ((max (thresholds 120 120).MaxCommitDiffInMinutes
            (thresholds 120 120).FirstCommitAdditionInMinutes : ℤ) : ℚ) :=
  ⟨by decide, by decide,
    (total_bounded_go [minute 0, minute 1000000] (thresholds 120 120) (by decide)
      (by decide)).2⟩

/-! ## The rounding error of one gap -/

theorem Minutes_lt_iff (d : Duration) (m : ℤ) :
    Duration.Minutes d < (m : ℚ) ↔ d < m * 60000000000 := by
  unfold Duration.Minutes
  rw [div_lt_iff₀ (by norm_num)]
  constructor
  · intro h
    have : ((d : ℤ) : ℚ) < ((m * 60000000000 : ℤ) : ℚ) := by
      push_cast
      exact h
    exact_mod_cast this
  · intro h
    have : ((d : ℤ) : ℚ) < ((m * 60000000000 : ℤ) : ℚ) := by exact_mod_cast h
    push_cast at this
    exact this

theorem Minutes_bounds (d : Duration) (h0 : 0 ≤ d) (h1 : d ≤ maxDuration) :
    0 ≤ Duration.Minutes d ∧ Duration.Minutes d ≤ 153722868 := by
  unfold Duration.Minutes
  unfold maxDuration at h1
  have a : (0 : ℚ) ≤ (d : ℚ) := by exact_mod_cast h0
  have b : (d : ℚ) ≤ 9223372036854775807 := by exact_mod_cast h1
  constructor
  · positivity
  · rw [div_le_iff₀ (by norm_num)]
    linarith

/-- The minutes of a gap in binary64 lie within a relative `2 ^ (-53)` of the
exact minutes, up to two further units of that size. -/
theorem MinutesGo_err (d : Duration) (h0 : 0 ≤ d) (h1 : d ≤ maxDuration) :
    |Duration.MinutesGo d - Duration.Minutes d| ≤ (Duration.Minutes d + 2) / 2 ^ 53 := by
  obtain ⟨a1, a1b, a2, a3, e⟩ := tdiv_minute_bounds d h0 h1
  have hfq : f64 ((Int.tdiv d 60000000000 : ℤ) : ℚ) = ((Int.tdiv d 60000000000 : ℤ) : ℚ) :=
    f64_intCast _ (by omega)
  have hfr : f64 ((Int.tmod d 60000000000 : ℤ) : ℚ) = ((Int.tmod d 60000000000 : ℤ) : ℚ) :=
    f64_intCast _ (by omega)
  have hd : (d : ℚ) = 60000000000 * ((Int.tdiv d 60000000000 : ℤ) : ℚ) +
      ((Int.tmod d 60000000000 : ℤ) : ℚ) := by exact_mod_cast e.symm
  have hq0 : (0 : ℚ) ≤ ((Int.tdiv d 60000000000 : ℤ) : ℚ) := by exact_mod_cast a1
  have hr0 : (0 : ℚ) ≤ ((Int.tmod d 60000000000 : ℤ) : ℚ) := by exact_mod_cast a2
  have hr1 : ((Int.tmod d 60000000000 : ℤ) : ℚ) < 60000000000 := by exact_mod_cast a3
  unfold Duration.MinutesGo Duration.Minutes
  rw [hfq, hfr, hd]
  generalize ((Int.tdiv d 60000000000 : ℤ) : ℚ) = q at hq0 ⊢
  generalize ((Int.tmod d 60000000000 : ℤ) : ℚ) = r at hr0 hr1 ⊢
  have hy0 : 0 ≤ r / 60000000000 := by positivity
  have hy1 : r / 60000000000 < 1 := by
    rw [div_lt_one (by norm_num)]
    exact hr1
  have e1 := f64_relerr (r / 60000000000)
  have e1n := f64_nonneg (r / 60000000000) hy0
  rw [abs_of_nonneg hy0] at e1
  have e2 := f64_relerr (q + f64 (r / 60000000000))
  rw [abs_of_nonneg (by linarith : 0 ≤ q + f64 (r / 60000000000))] at e2
  have hx : (60000000000 * q + r) / 60000000000 = q + r / 60000000000 := by
    field_simp
    ring
  rw [hx]
  rw [abs_le] at e1 e2 ⊢
  constructor <;> linarith

/-- For a gap of whole seconds that fits a `Duration`, the comparison of the
loop in binary64 decides as the exact comparison does. -/
theorem MinutesGo_lt_iff (d : Duration) (m : ℤ) (h0 : 0 ≤ d) (h1 : d ≤ maxDuration)
    (hs : d % 1000000000 = 0) :
    Duration.MinutesGo d < f64 (m : ℚ) ↔ d < m * 60000000000 := by
  constructor
  · intro h
    by_contra hcon
    exact absurd h (not_lt.mpr (MinutesGo_ge d m h1 (not_lt.mp hcon) h0))
  · intro h
    have h0z : @LE.le ℤ _ 0 d := h0
    have hsz : (@HMod.hMod ℤ ℤ ℤ _ d 1000000000) = 0 := hs
    have hz : @LT.lt ℤ _ d (m * 60000000000) := h
    have h2 : @LE.le ℤ _ (d + 1000000000) (m * 60000000000) := by omega
    have herr := MinutesGo_err d h0 h1
    obtain ⟨hx0, hxb⟩ := Minutes_bounds d h0 h1
    have hx : Duration.Minutes d ≤ (m : ℚ) - 1 / 60 := by
      unfold Duration.Minutes
      have : ((d + 1000000000 : ℤ) : ℚ) ≤ ((m * 60000000000 : ℤ) : ℚ) := by exact_mod_cast h2
      push_cast at this
      rw [div_le_iff₀ (by norm_num)]
      linarith
    rw [abs_le] at herr
    have hlt : Duration.MinutesGo d < (m : ℚ) := by linarith
    have hbig : Duration.MinutesGo d < 4503599627370496 := by linarith
    by_cases hm : m.natAbs < 2 ^ 53
    · rw [f64_intCast m hm]
      exact hlt
    · have hm2 : (4503599627370496 : ℤ) ≤ m := by omega
      have h3 := f64_mono ((4503599627370496 : ℤ) : ℚ) (m : ℚ) (by exact_mod_cast hm2)
      rw [f64_intCast _ (by norm_num)] at h3
      push_cast at h3
      linarith

theorem creditGo_err (config : Config) (d0 d1 : Time) (h : secondStep d0 d1) :
    |creditGo config d0 d1 - pairCredit config d0 d1| ≤
      (|pairCredit config d0 d1| + 2) / 2 ^ 53 := by
  obtain ⟨h01, hsec, hfit⟩ := h
  have hnn : 0 ≤ d1 - d0 := sub_nonneg.mpr h01
  have hiff := MinutesGo_lt_iff (d1 - d0) config.MaxCommitDiffInMinutes hnn hfit hsec
  have hiff2 := Minutes_lt_iff (d1 - d0) config.MaxCommitDiffInMinutes
  unfold creditGo pairCredit
  rw [SubGo_eq d1 d0 h01 hfit]
  unfold Time.Sub
  by_cases hb : d1 - d0 < config.MaxCommitDiffInMinutes * 60000000000
  · rw [if_pos (hiff.mpr hb), if_pos (hiff2.mpr hb)]
    have herr := MinutesGo_err (d1 - d0) hnn hfit
    rw [abs_of_nonneg (Minutes_bounds (d1 - d0) hnn hfit).1]
    exact herr
  · rw [if_neg (fun hh => hb (hiff.mp hh)), if_neg (fun hh => hb (hiff2.mp hh))]
    have h1 := f64_relerr (config.FirstCommitAdditionInMinutes : ℚ)
    have h2 : |(config.FirstCommitAdditionInMinutes : ℚ)| / 2 ^ 53 ≤
        (|(config.FirstCommitAdditionInMinutes : ℚ)| + 2) / 2 ^ 53 :=
      div_le_div_of_nonneg_right (by linarith) (by positivity)
    linarith

/-! ## The rounding error of the loop -/

theorem absCredits_nonneg (config : Config) (l : List Time) : 0 ≤ absCredits config l := by
  induction l with
  | nil => simp [absCredits]
  | cons d0 tl ih =>
    cases tl with
    | nil => simp [absCredits]
    | cons d1 rest =>
      simp only [absCredits]
      have := abs_nonneg (pairCredit config d0 d1)
      linarith

theorem sessionLoop_abs_le (config : Config) (l : List Time) (acc : ℚ) :
    |sessionLoop config l acc| ≤ |acc| + absCredits config l := by
  induction l generalizing acc with
  | nil => simp [sessionLoop, absCredits]
  | cons d0 tl ih =>
    cases tl with
    | nil => simp [sessionLoop, absCredits]
    | cons d1 rest =>
      rw [sessionLoop_cons_cons]
      simp only [absCredits]
      have h1 := ih (acc + pairCredit config d0 d1)
      have h2 := abs_add acc (pairCredit config d0 d1)
      linarith

/-- Along a list whose steps are whole seconds that fit a `Duration`, the
running total in binary64 stays within `(2 * W + 3) / 2 ^ 53` per turn of the
exact running total, where `W` bounds the absolute values the exact total can
take. -/
theorem sessionLoopGo_err (config : Config) (W : ℚ) (l : List Time) (accG acc E : ℚ)
    (hc : List.Chain' secondStep l) (hE : |accG - acc| ≤ E)
    (hW : |acc| + absCredits config l ≤ W)
    (hsmall : E + (l.tail.length : ℚ) * ((2 * W + 3) / 2 ^ 53) ≤ 1) :
    |sessionLoopGo config l accG - sessionLoop config l acc| ≤
      E + (l.tail.length : ℚ) * ((2 * W + 3) / 2 ^ 53) := by
  induction l generalizing accG acc E with
  | nil => simpa [sessionLoopGo, sessionLoop] using hE
  | cons d0 tl ih =>
    cases tl with
    | nil => simpa [sessionLoopGo, sessionLoop] using hE
    | cons d1 rest =>
      rw [sessionLoopGo_cons_cons, sessionLoop_cons_cons]
      simp only [List.chain'_cons] at hc
      simp only [absCredits] at hW
      simp only [List.tail_cons, List.length_cons, Nat.cast_add, Nat.cast_one] at hsmall ⊢
      have hA := absCredits_nonneg config (d1 :: rest)
      have hacc0 := abs_nonneg acc
      have hc0 := abs_nonneg (pairCredit config d0 d1)
      have hW0 : 0 ≤ W := by linarith
      have hr0 : (0 : ℚ) ≤ (rest.length : ℚ) := by positivity
      have hδ := creditGo_err config d0 d1 hc.1
      have hu : (0 : ℚ) ≤ (2 * W + 3) / 2 ^ 53 := by positivity
      have hru : 0 ≤ (rest.length : ℚ) * ((2 * W + 3) / 2 ^ 53) := mul_nonneg hr0 hu
      have hE0 : 0 ≤ E := le_trans (abs_nonneg _) hE
      have hδ2 : |creditGo config d0 d1 - pairCredit config d0 d1| ≤ (W + 2) / 2 ^ 53 := by
        apply le_trans hδ
        apply div_le_div_of_nonneg_right _ (by positivity)
        linarith
      have hz1 : |accG + creditGo config d0 d1 - (acc + pairCredit config d0 d1)| ≤
          E + (W + 2) / 2 ^ 53 := by
        have e : accG + creditGo config d0 d1 - (acc + pairCredit config d0 d1) =
            (accG - acc) + (creditGo config d0 d1 - pairCredit config d0 d1) := by ring
        rw [e]
        exact le_trans (abs_add _ _) (add_le_add hE hδ2)
      have htri := abs_add acc (pairCredit config d0 d1)
      have hsum : |acc + pairCredit config d0 d1| ≤ W := by linarith
      have hz2 : |accG + creditGo config d0 d1| ≤ W + 1 := by
        have e : accG + creditGo config d0 d1 =
            (accG + creditGo config d0 d1 - (acc + pairCredit config d0 d1)) +
              (acc + pairCredit config d0 d1) := by ring
        rw [e]
        have h3 : E + (W + 2) / 2 ^ 53 ≤ 1 := by
          have : (W + 2) / 2 ^ 53 ≤ (2 * W + 3) / 2 ^ 53 :=
            div_le_div_of_nonneg_right (by linarith) (by positivity)
          linarith
        have := abs_add (accG + creditGo config d0 d1 - (acc + pairCredit config d0 d1))
          (acc + pairCredit config d0 d1)
        linarith
      have hrel := f64_relerr (accG + creditGo config d0 d1)
      have hrel2 : |f64 (accG + creditGo config d0 d1) - (accG + creditGo config d0 d1)| ≤
          (W + 1) / 2 ^ 53 :=
        le_trans hrel (div_le_div_of_nonneg_right hz2 (by positivity))
      have hnew : |f64 (accG + creditGo config d0 d1) - (acc + pairCredit config d0 d1)| ≤
          E + (2 * W + 3) / 2 ^ 53 := by
        have e : f64 (accG + creditGo config d0 d1) - (acc + pairCredit config d0 d1) =
            (f64 (accG + creditGo config d0 d1) - (accG + creditGo config d0 d1)) +
              (accG + creditGo config d0 d1 - (acc + pairCredit config d0 d1)) := by ring
        rw [e]
        have := abs_add
          (f64 (accG + creditGo config d0 d1) - (accG + creditGo config d0 d1))
          (accG + creditGo config d0 d1 - (acc + pairCredit config d0 d1))
        have e2 : (W + 1) / 2 ^ 53 + (W + 2) / 2 ^ 53 = (2 * W + 3) / 2 ^ 53 := by ring
        linarith
      have hrec := ih (f64 (accG + creditGo config d0 d1)) (acc + pairCredit config d0 d1)
        (E + (2 * W + 3) / 2 ^ 53) hc.2 hnew (by linarith)
        (by
          simp only [List.tail_cons]
          linarith)
      simp only [List.tail_cons] at hrec
      linarith

/-! ## A bound on the credits -/

theorem absCredits_le (config : Config) (B : ℚ) (hB : 0 ≤ B) (hi : Time) (l : List Time)
    (x : Time)
    (hc : List.Chain'
      (fun a b => a ≤ b ∧ (¬ Duration.Minutes (Time.Sub b a) <
        (config.MaxCommitDiffInMinutes : ℚ) →
          |(config.FirstCommitAdditionInMinutes : ℚ)| ≤ B)) (x :: l))
    (hhi : ∀ t ∈ x :: l, t ≤ hi) :
    absCredits config (x :: l) ≤ Duration.Minutes (Time.Sub hi x) + (l.length : ℚ) * B := by
  induction l generalizing x with
  | nil =>
    simp only [absCredits, List.length_nil, Nat.cast_zero, zero_mul, add_zero]
    unfold Duration.Minutes Time.Sub
    have : (0 : ℚ) ≤ ((hi - x : ℤ) : ℚ) := by
      exact_mod_cast sub_nonneg.mpr (hhi x (List.mem_cons_self _ _))
    positivity
  | cons y rest ih =>
    simp only [List.chain'_cons] at hc
    have h1 := ih y hc.2 (fun t ht => hhi t (List.mem_cons_of_mem _ ht))
    simp only [absCredits, List.length_cons, Nat.cast_add, Nat.cast_one]
    have hxy : (0 : ℚ) ≤ Duration.Minutes (Time.Sub y x) := by
      unfold Duration.Minutes Time.Sub
      have : (0 : ℚ) ≤ ((y - x : ℤ) : ℚ) := by exact_mod_cast sub_nonneg.mpr hc.1.1
      positivity
    have hsplit : Duration.Minutes (Time.Sub hi x) =
        Duration.Minutes (Time.Sub y x) + Duration.Minutes (Time.Sub hi y) := by
      unfold Duration.Minutes Time.Sub
      push_cast
      ring
    have hcred : |pairCredit config x y| ≤ Duration.Minutes (Time.Sub y x) + B := by
      unfold pairCredit
      split
      · rw [abs_of_nonneg hxy]
        linarith
      · rename_i hn
        have := hc.1.2 hn
        linarith
    linarith

/-! ## Whole seconds -/

theorem sessionLoop_whole_seconds (config : Config) (l : List Time)
    (hc : List.Chain' secondStep l) (acc : ℚ) (N0 : ℤ) (hacc : acc * 60 = (N0 : ℚ)) :
    ∃ N : ℤ, sessionLoop config l acc * 60 = (N : ℚ) := by
  induction l generalizing acc N0 with
  | nil => exact ⟨N0, by simpa [sessionLoop] using hacc⟩
  | cons d0 tl ih =>
    cases tl with
    | nil => exact ⟨N0, by simpa [sessionLoop] using hacc⟩
    | cons d1 rest =>
      rw [sessionLoop_cons_cons]
      simp only [List.chain'_cons] at hc
      obtain ⟨h01, hsec, hfit⟩ := hc.1
      have hsz : (@HMod.hMod ℤ ℤ ℤ _ (@HSub.hSub ℤ ℤ ℤ _ d1 d0) 1000000000) = 0 := hsec
      have hmul : @HSub.hSub ℤ ℤ ℤ _ d1 d0 =
          (@HSub.hSub ℤ ℤ ℤ _ d1 d0) / 1000000000 * 1000000000 := by omega
      have hq : ((d1 - d0 : ℤ) : ℚ) =
          (((@HSub.hSub ℤ ℤ ℤ _ d1 d0) / 1000000000 : ℤ) : ℚ) * 1000000000 := by
        exact_mod_cast hmul
      unfold pairCredit
      split
      · apply ih hc.2 _ (N0 + (@HSub.hSub ℤ ℤ ℤ _ d1 d0) / 1000000000)
        unfold Duration.Minutes Time.Sub
        rw [hq]
        push_cast
        linarith
      · apply ih hc.2 _ (N0 + 60 * config.FirstCommitAdditionInMinutes)
        push_cast
        linarith

theorem chain_secondStep (s : List Time) (hsorted : s.Sorted (fun a b => a ≤ b))
    (hsec : ∀ t ∈ s, t % 1000000000 = 0)
    (hspan : ∀ t ∈ s, ∀ u ∈ s, u - t ≤ maxDuration) :
    List.Chain' secondStep s := by
  induction s with
  | nil => exact List.chain'_nil
  | cons a tl ih =>
    cases tl with
    | nil => exact List.chain'_singleton a
    | cons b rest =>
      simp only [List.chain'_cons]
      refine ⟨?_, ih hsorted.of_cons (fun t ht => hsec t (List.mem_cons_of_mem _ ht))
        (fun t ht u hu => hspan t (List.mem_cons_of_mem _ ht) u (List.mem_cons_of_mem _ hu))⟩
      have hab : @LE.le ℤ _ a b := List.rel_of_sorted_cons hsorted b (List.mem_cons_self _ _)
      have ha : (@HMod.hMod ℤ ℤ ℤ _ a 1000000000) = 0 := hsec a (List.mem_cons_self _ _)
      have hb : (@HMod.hMod ℤ ℤ ℤ _ b 1000000000) = 0 :=
        hsec b (List.mem_cons_of_mem _ (List.mem_cons_self _ _))
      refine ⟨hab, ?_, hspan a (List.mem_cons_self _ _) b
        (List.mem_cons_of_mem _ (List.mem_cons_self _ _))⟩
      show (@HMod.hMod ℤ ℤ ℤ _ (@HSub.hSub ℤ ℤ ℤ _ b a) 1000000000) = 0
      omega

/-! ## Rounding to the hour is stable away from the half hours -/

theorem mathRound_near (x : ℚ) : |(mathRound x : ℚ) - x| ≤ 1 / 2 := by
  unfold mathRound
  rw [abs_le]
  split
  · have h1 := Int.floor_le (x + 1 / 2)
    have h2 := Int.lt_floor_add_one (x + 1 / 2)
    constructor <;> linarith
  · have h1 := Int.le_ceil (x - 1 / 2)
    have h2 := Int.ceil_lt_add_one (x - 1 / 2)
    constructor <;> linarith

theorem mathRound_eq_of_lt (x : ℚ) (K : ℤ) (h1 : (K : ℚ) - 1 / 2 < x)
    (h2 : x < (K : ℚ) + 1 / 2) : mathRound x = K := by
  unfold mathRound
  split
  · rw [Int.floor_eq_iff]
    constructor <;> linarith
  · rw [Int.ceil_eq_iff]
    constructor <;> linarith

/-- A value of whole seconds that is not an odd multiple of half an hour rounds
to the same hour as everything within a second of it. -/
theorem mathRound_stable (N : ℤ) (x y : ℚ) (hy : y * 3600 = (N : ℚ))
    (hN : N % 3600 ≠ 1800) (hxy : |x - y| < 1 / 3600) : mathRound x = mathRound y := by
  apply mathRound_eq_of_lt
  all_goals
    have hn := mathRound_near y
    rw [abs_le] at hn
    rw [abs_lt] at hxy
    have h1 : ((3600 * mathRound y - 1800 : ℤ) : ℚ) ≤ (N : ℚ) := by
      push_cast
      linarith
    have h2 : (N : ℚ) ≤ ((3600 * mathRound y + 1800 : ℤ) : ℚ) := by
      push_cast
      linarith
    have h1z : 3600 * mathRound y - 1800 ≤ N := by exact_mod_cast h1
    have h2z : N ≤ 3600 * mathRound y + 1800 := by exact_mod_cast h2
    have h3 : 3600 * mathRound y - 1799 ≤ N := by omega
    have h4 : N ≤ 3600 * mathRound y + 1799 := by omega
    have h3q : ((3600 * mathRound y - 1799 : ℤ) : ℚ) ≤ (N : ℚ) := by exact_mod_cast h3
    have h4q : (N : ℚ) ≤ ((3600 * mathRound y + 1799 : ℤ) : ℚ) := by exact_mod_cast h4
    push_cast at h3q h4q
    linarith

/-! ## The estimate in binary64 against the exact estimate -/

/-- When the steps of the sorted timestamps are whole seconds that fit a
`Duration`, the absolute credits add up to at most `W` minutes with
`(n + 1) * (2 * W + 3) ≤ 2 ^ 47` for the `n` timestamps, and the exact minute
total is not an odd multiple of 30, the estimate of the program is the estimate
in exact arithmetic, on every platform. -/
theorem estimateHoursGo_eq_exact (outOfRange : ℤ → ℤ) (dates : List Time) (config : Config)
    (W : ℚ) (hc : List.Chain' secondStep (sortDates dates))
    (hW : absCredits config (sortDates dates) ≤ W)
    (hsize : ((dates.length : ℚ) + 1) * (2 * W + 3) ≤ 2 ^ 47)
    (hedge : ∀ k : ℤ, totalMinutes dates config ≠ 60 * (k : ℚ) + 30) :
    estimateHoursGo outOfRange dates config = estimateHours dates config := by
  unfold estimateHoursGo estimateHours
  by_cases hlen : dates.length < 2
  · rw [if_pos hlen, if_pos hlen]
  · rw [if_neg hlen, if_neg hlen]
    have hW0 : 0 ≤ W := le_trans (absCredits_nonneg _ _) hW
    have hnlen : ((sortDates dates).tail.length : ℚ) + 1 = (dates.length : ℚ) := by
      have : (sortDates dates).tail.length + 1 = dates.length := by
        rw [List.length_tail, sortDates_length]
        omega
      exact_mod_cast this
    generalize ((sortDates dates).tail.length : ℚ) = n at hnlen
    have hn0 : 0 ≤ n := by
      have : (2 : ℚ) ≤ (dates.length : ℚ) := by exact_mod_cast not_lt.mp hlen
      linarith
    have ht0 : (0 : ℚ) ≤ (2 * W + 3) / 2 ^ 53 := by positivity
    have hlt : (n + 2) * ((2 * W + 3) / 2 ^ 53) ≤ 1 / 64 := by
      rw [← mul_div_assoc, div_le_iff₀ (by positivity)]
      have e : n + 2 = (dates.length : ℚ) + 1 := by linarith
      rw [e]
      calc ((dates.length : ℚ) + 1) * (2 * W + 3) ≤ 2 ^ 47 := hsize
        _ = 1 / 64 * 2 ^ 53 := by norm_num
    have hWbig : 2 * W + 3 ≤ 2 ^ 47 := by
      have h1 : 1 * (2 * W + 3) ≤ ((dates.length : ℚ) + 1) * (2 * W + 3) :=
        mul_le_mul_of_nonneg_right (by linarith) (by linarith)
      linarith
    have hexp : (n + 2) * ((2 * W + 3) / 2 ^ 53) =
        n * ((2 * W + 3) / 2 ^ 53) + 2 * ((2 * W + 3) / 2 ^ 53) := by ring
    have herr := sessionLoopGo_err config W (sortDates dates) 0 0 0 hc (by simp)
      (by simpa using hW)
    have hs := sessionLoop_abs_le config (sortDates dates) 0
    obtain ⟨N, hN⟩ := sessionLoop_whole_seconds config (sortDates dates) hc 0 0 (by simp)
    have hrel := f64_relerr (sessionLoopGo config (sortDates dates) 0 / 60)
    rw [abs_div, abs_of_pos (by norm_num : (0 : ℚ) < 60)] at hrel
    rw [List.length_tail, sortDates_length] at herr
    have hcastn : ((dates.length - 1 : ℕ) : ℚ) = n := by
      have : 1 ≤ dates.length := by omega
      push_cast [Nat.cast_sub this]
      linarith
    rw [hcastn] at herr
    have herr2 := herr (by linarith)
    simp only [abs_zero, zero_add] at hs herr2
    have hNmod : N % 3600 ≠ 1800 := by
      intro hmod
      apply hedge (N / 3600)
      have hN2 : N = 3600 * (N / 3600) + 1800 := by omega
      have hN3 : (N : ℚ) = 3600 * ((N / 3600 : ℤ) : ℚ) + 1800 := by exact_mod_cast hN2
      unfold totalMinutes
      linarith
    unfold roundedHoursGo totalMinutesGo totalMinutes
    generalize sessionLoopGo config (sortDates dates) 0 = sG at herr2 hrel ⊢
    generalize sessionLoop config (sortDates dates) 0 = s at herr2 hs hN ⊢
    generalize absCredits config (sortDates dates) = A at hs hW
    have hsW : |s| ≤ W := by linarith
    have hsG : |sG| ≤ W + 1 / 64 := by
      have e : sG = (sG - s) + s := by ring
      have := abs_add (sG - s) s
      rw [← e] at this
      linarith
    have hclose : |f64 (sG / 60) - s / 60| < 1 / 3600 := by
      have e : f64 (sG / 60) - s / 60 = (f64 (sG / 60) - sG / 60) + (sG - s) / 60 := by ring
      rw [e]
      have h1 := abs_add (f64 (sG / 60) - sG / 60) ((sG - s) / 60)
      have h2 : |(sG - s) / 60| = |sG - s| / 60 := by
        rw [abs_div, abs_of_pos (by norm_num : (0 : ℚ) < 60)]
      have h3 : |sG| / 60 / 2 ^ 53 ≤ (2 * W + 3) / 2 ^ 53 / 60 := by
        rw [div_div, div_div, mul_comm (60 : ℚ) (2 ^ 53)]
        apply div_le_div_of_nonneg_right _ (by positivity)
        linarith
      rw [h2] at h1
      have h4 : |sG - s| / 60 ≤ n * ((2 * W + 3) / 2 ^ 53) / 60 :=
        div_le_div_of_nonneg_right herr2 (by norm_num)
      linarith
    have hst := mathRound_stable N (f64 (sG / 60)) (s / 60) (by linarith) hNmod hclose
    rw [hst]
    apply intOfFloat_of_fits
    all_goals
      have hn := mathRound_near (s / 60)
      rw [abs_le] at hn hsW
      have hb1 : (mathRound (s / 60) : ℚ) ≤ ((2 ^ 47 : ℤ) : ℚ) := by
        push_cast
        linarith
      have hb2 : ((-2 ^ 47 : ℤ) : ℚ) ≤ (mathRound (s / 60) : ℚ) := by
        push_cast
        linarith
      have hb1z : mathRound (s / 60) ≤ 2 ^ 47 := by exact_mod_cast hb1
      have hb2z : -2 ^ 47 ≤ mathRound (s / 60) := by exact_mod_cast hb2
      simp only [minInt, maxInt]
      omega

theorem specTotalMinutes_eq (dates : List Time) (config : Config) :
    specTotalMinutes config.MaxCommitDiffInMinutes config.FirstCommitAdditionInMinutes dates =
      totalMinutes dates config := by
  unfold specTotalMinutes totalMinutes
  rw [mergeSort_eq_sortDates, sessionLoop_eq_zipWith, pairCredit_eq_specCredit]

theorem chain_and_sorted (P : Time → Time → Prop) (s : List Time)
    (hsorted : s.Sorted (fun a b => a ≤ b)) (hP : List.Chain' P s) :
    List.Chain' (fun a b => a ≤ b ∧ P a b) s := by
  induction s with
  | nil => exact List.chain'_nil
  | cons a tl ih =>
    cases tl with
    | nil => exact List.chain'_singleton a
    | cons b rest =>
      simp only [List.chain'_cons] at hP ⊢
      exact ⟨⟨List.rel_of_sorted_cons hsorted b (List.mem_cons_self _ _), hP.1⟩,
        ih hsorted.of_cons hP.2⟩

theorem chain_of_forall (P : Time → Time → Prop) (hP : ∀ a b, P a b) (s : List Time) :
    List.Chain' P s := by
  induction s with
  | nil => exact List.chain'_nil
  | cons a tl ih =>
    cases tl with
    | nil => exact List.chain'_singleton a
    | cons b rest =>
      simp only [List.chain'_cons]
      exact ⟨hP a b, ih⟩

/-! ## Whole minutes: the loop in binary64 is exact -/

theorem natAbs_lt_of_abs_lt (z : ℤ) (h : |(z : ℚ)| < 2 ^ 53) : z.natAbs < 2 ^ 53 := by
  have h1 : ((|z| : ℤ) : ℚ) < ((2 ^ 53 : ℤ) : ℚ) := by
    push_cast
    exact h
  have h2 : |z| < 2 ^ 53 := by exact_mod_cast h1
  have h3 : ((z.natAbs : ℕ) : ℤ) = |z| := Int.natCast_natAbs z
  omega

/-- A half of an integer below `2 ^ 53` is a binary64 number. -/
theorem f64_half (n : ℤ) (h : n.natAbs < 2 ^ 53) : f64 ((n : ℚ) / 2) = (n : ℚ) / 2 := by
  by_cases hn : n = 0
  · simp [hn, f64_zero]
  · have hnq : (n : ℚ) ≠ 0 := by exact_mod_cast hn
    have hx : (n : ℚ) / 2 ≠ 0 := div_ne_zero hnq (by norm_num)
    obtain ⟨h1, _⟩ := binade_spec _ hx
    have hnabs : |(n : ℚ)| < 2 ^ 53 := by
      have h3 : ((n.natAbs : ℕ) : ℤ) = |n| := Int.natCast_natAbs n
      have h4 : |n| < 2 ^ 53 := by omega
      have h5 : ((|n| : ℤ) : ℚ) < ((2 ^ 53 : ℤ) : ℚ) := by exact_mod_cast h4
      push_cast at h5
      exact h5
    have habs : |(n : ℚ) / 2| < (2 : ℚ) ^ (52 : ℤ) := by
      rw [abs_div, abs_of_pos (by norm_num : (0 : ℚ) < 2), div_lt_iff₀ (by norm_num)]
      have e : (2 : ℚ) ^ (52 : ℤ) * 2 = 2 ^ 53 := by norm_num
      rw [e]
      exact hnabs
    have he : binade ((n : ℚ) / 2) < 52 :=
      (zpow_lt_zpow_iff_right₀ (by norm_num : (1 : ℚ) < 2)).mp (lt_of_le_of_lt h1 habs)
    obtain ⟨j, hj⟩ : ∃ j : ℕ, binade ((n : ℚ) / 2) - 52 = -(((j + 1 : ℕ)) : ℤ) :=
      ⟨(51 - binade ((n : ℚ) / 2)).toNat, by
        push_cast
        rw [Int.toNat_of_nonneg (by omega)]
        ring⟩
    unfold f64
    rw [if_neg hx, hj, zpow_neg, zpow_natCast]
    have hdiv : (n : ℚ) / 2 / ((2 : ℚ) ^ (j + 1))⁻¹ = ((n * 2 ^ j : ℤ) : ℚ) := by
      push_cast
      field_simp
      ring
    rw [hdiv, roundHalfEven_intCast]
    push_cast
    field_simp
    ring

/-- Dividing a whole number of minutes by 60 in binary64 does not change the
hour it rounds to. -/
theorem hours_of_whole_minutes (T : ℤ) (h : |(T : ℚ)| ≤ 2 ^ 46) :
    mathRound (f64 ((T : ℚ) / 60)) = mathRound ((T : ℚ) / 60) := by
  have hT : |T| ≤ 2 ^ 46 := by
    have h1 : ((|T| : ℤ) : ℚ) ≤ ((2 ^ 46 : ℤ) : ℚ) := by
      push_cast
      exact h
    exact_mod_cast h1
  have hTb := abs_le.mp hT
  by_cases hm : T % 60 = 30
  · have hT2 : T = 60 * (T / 60) + 30 := by omega
    have e : (T : ℚ) / 60 = ((2 * (T / 60) + 1 : ℤ) : ℚ) / 2 := by
      have hq : (T : ℚ) = ((60 * (T / 60) + 30 : ℤ) : ℚ) := by exact_mod_cast hT2
      rw [hq]
      push_cast
      ring
    rw [e, f64_half _ (by omega)]
  · apply mathRound_stable (60 * T) _ _ (by push_cast; ring) (by omega)
    have hrel := f64_relerr ((T : ℚ) / 60)
    rw [abs_div, abs_of_pos (by norm_num : (0 : ℚ) < 60)] at hrel
    have h2 : |(T : ℚ)| / 60 / 2 ^ 53 ≤ 2 ^ 46 / 60 / 2 ^ 53 := by
      apply div_le_div_of_nonneg_right _ (by positivity)
      exact div_le_div_of_nonneg_right h (by norm_num)
    have h3 : (2 : ℚ) ^ 46 / 60 / 2 ^ 53 < 1 / 3600 := by norm_num
    linarith

theorem MinutesGo_whole (k : ℤ) (hk : k.natAbs < 2 ^ 53) :
    Duration.MinutesGo (k * 60000000000) = (k : ℚ) := by
  unfold Duration.MinutesGo
  rw [Int.mul_tdiv_cancel k (by norm_num), Int.mul_tmod_left]
  rw [f64_intCast k hk]
  simp [f64_zero, f64_intCast k hk]

theorem pairCredit_minuteStep (config : Config) (d0 d1 : Time) (h : minuteStep d0 d1) :
    ∃ cz : ℤ, pairCredit config d0 d1 = (cz : ℚ) ∧
      (cz.natAbs < 2 ^ 53 → creditGo config d0 d1 = (cz : ℚ)) := by
  obtain ⟨h01, hmin, hfit⟩ := h
  have hnn : 0 ≤ d1 - d0 := sub_nonneg.mpr h01
  have hnz : @LE.le ℤ _ 0 (@HSub.hSub ℤ ℤ ℤ _ d1 d0) := hnn
  have hmz : (@HMod.hMod ℤ ℤ ℤ _ (@HSub.hSub ℤ ℤ ℤ _ d1 d0) 60000000000) = 0 := hmin
  have hfz : @LE.le ℤ _ (@HSub.hSub ℤ ℤ ℤ _ d1 d0) 9223372036854775807 := hfit
  have hsec : (d1 - d0) % 1000000000 = 0 := by
    show (@HMod.hMod ℤ ℤ ℤ _ (@HSub.hSub ℤ ℤ ℤ _ d1 d0) 1000000000) = 0
    omega
  have hk : d1 - d0 = (@HDiv.hDiv ℤ ℤ ℤ _ (@HSub.hSub ℤ ℤ ℤ _ d1 d0) 60000000000) *
      60000000000 := by
    show @Eq ℤ (@HSub.hSub ℤ ℤ ℤ _ d1 d0) _
    omega
  have hk0 : 0 ≤ (@HDiv.hDiv ℤ ℤ ℤ _ (@HSub.hSub ℤ ℤ ℤ _ d1 d0) 60000000000) := by omega
  have hk1 : (@HDiv.hDiv ℤ ℤ ℤ _ (@HSub.hSub ℤ ℤ ℤ _ d1 d0) 60000000000) ≤ 153722867 := by
    omega
  have hiff := MinutesGo_lt_iff (d1 - d0) config.MaxCommitDiffInMinutes hnn hfit hsec
  have hiff2 := Minutes_lt_iff (d1 - d0) config.MaxCommitDiffInMinutes
  by_cases hb : d1 - d0 < config.MaxCommitDiffInMinutes * 60000000000
  · refine ⟨(@HDiv.hDiv ℤ ℤ ℤ _ (@HSub.hSub ℤ ℤ ℤ _ d1 d0) 60000000000), ?_, fun _ => ?_⟩
    · unfold pairCredit Time.Sub
      rw [if_pos (hiff2.mpr hb)]
      unfold Duration.Minutes
      rw [div_eq_iff (by norm_num)]
      exact_mod_cast hk
    · unfold creditGo
      rw [SubGo_eq d1 d0 h01 hfit, if_pos (hiff.mpr hb)]
      have hkabs : (@HDiv.hDiv ℤ ℤ ℤ _ (@HSub.hSub ℤ ℤ ℤ _ d1 d0) 60000000000).natAbs <
          2 ^ 53 := by omega
      have hw := MinutesGo_whole _ hkabs
      rw [← hk] at hw
      exact hw
  · refine ⟨config.FirstCommitAdditionInMinutes, ?_, fun ha => ?_⟩
    · unfold pairCredit Time.Sub
      rw [if_neg (fun hh => hb (hiff2.mp hh))]
    · unfold creditGo
      rw [SubGo_eq d1 d0 h01 hfit, if_neg (fun hh => hb (hiff.mp hh)), f64_intCast _ ha]

/-- Along a list whose steps are whole minutes, with credits that add up to
less than `2 ^ 53` in absolute value, the running total in binary64 is the exact
running total, an integer. -/
theorem sessionLoopGo_minutes (config : Config) (l : List Time) (A : ℤ)
    (hc : List.Chain' minuteStep l)
    (hb : |(A : ℚ)| + absCredits config l < 2 ^ 53) :
    ∃ T : ℤ, sessionLoop config l (A : ℚ) = (T : ℚ) ∧
      sessionLoopGo config l (A : ℚ) = (T : ℚ) := by
  induction l generalizing A with
  | nil => exact ⟨A, by simp [sessionLoop], by simp [sessionLoopGo]⟩
  | cons d0 tl ih =>
    cases tl with
    | nil => exact ⟨A, by simp [sessionLoop], by simp [sessionLoopGo]⟩
    | cons d1 rest =>
      simp only [List.chain'_cons] at hc
      simp only [absCredits] at hb
      obtain ⟨cz, hcz, hgo⟩ := pairCredit_minuteStep config d0 d1 hc.1
      have hA0 := abs_nonneg (A : ℚ)
      have hr0 := absCredits_nonneg config (d1 :: rest)
      have hc0 := abs_nonneg (pairCredit config d0 d1)
      rw [hcz] at hb hc0
      have hczabs : cz.natAbs < 2 ^ 53 := natAbs_lt_of_abs_lt cz (by linarith)
      have hsum : |((A + cz : ℤ) : ℚ)| ≤ |(A : ℚ)| + |(cz : ℚ)| := by
        push_cast
        exact abs_add _ _
      have hsumabs : (A + cz).natAbs < 2 ^ 53 := natAbs_lt_of_abs_lt _ (by linarith)
      rw [sessionLoop_cons_cons, sessionLoopGo_cons_cons, hcz, hgo hczabs, ← Int.cast_add,
        f64_intCast _ hsumabs]
      exact ih (A + cz) hc.2 (by linarith)

theorem chain_minuteStep (s : List Time) (hsorted : s.Sorted (fun a b => a ≤ b))
    (hmin : ∀ t ∈ s, ∀ u ∈ s, (u - t) % 60000000000 = 0)
    (hspan : ∀ t ∈ s, ∀ u ∈ s, u - t ≤ maxDuration) :
    List.Chain' minuteStep s := by
  induction s with
  | nil => exact List.chain'_nil
  | cons a tl ih =>
    cases tl with
    | nil => exact List.chain'_singleton a
    | cons b rest =>
      simp only [List.chain'_cons]
      refine ⟨?_, ih hsorted.of_cons
        (fun t ht u hu => hmin t (List.mem_cons_of_mem _ ht) u (List.mem_cons_of_mem _ hu))
        (fun t ht u hu => hspan t (List.mem_cons_of_mem _ ht) u (List.mem_cons_of_mem _ hu))⟩
      exact ⟨List.rel_of_sorted_cons hsorted b (List.mem_cons_self _ _),
        hmin a (List.mem_cons_self _ _) b (List.mem_cons_of_mem _ (List.mem_cons_self _ _)),
        hspan a (List.mem_cons_self _ _) b (List.mem_cons_of_mem _ (List.mem_cons_self _ _))⟩

/-- When the steps of the sorted timestamps are whole minutes that fit a
`Duration` and the absolute credits add up to at most `2 ^ 46` minutes, the
estimate of the program is the estimate in exact arithmetic, on every platform
and also where the minute total is an odd multiple of 30. -/
theorem estimateHoursGo_eq_exact_minutes (outOfRange : ℤ → ℤ) (dates : List Time)
    (config : Config) (hc : List.Chain' minuteStep (sortDates dates))
    (hW : absCredits config (sortDates dates) ≤ 2 ^ 46) :
    estimateHoursGo outOfRange dates config = estimateHours dates config := by
  unfold estimateHoursGo estimateHours
  by_cases hlen : dates.length < 2
  · rw [if_pos hlen, if_pos hlen]
  · rw [if_neg hlen, if_neg hlen]
    obtain ⟨T, hT, hTG⟩ := sessionLoopGo_minutes config (sortDates dates) 0 hc (by
      simp only [Int.cast_zero, abs_zero, zero_add]
      have : (2 : ℚ) ^ 46 < 2 ^ 53 := by norm_num
      linarith)
    simp only [Int.cast_zero] at hT hTG
    have hs := sessionLoop_abs_le config (sortDates dates) 0
    simp only [abs_zero, zero_add] at hs
    rw [hT] at hs
    have hTabs : |(T : ℚ)| ≤ 2 ^ 46 := le_trans hs hW
    unfold roundedHoursGo totalMinutesGo totalMinutes
    rw [hTG, hT, hours_of_whole_minutes T hTabs]
    apply intOfFloat_of_fits
    all_goals
      have hn := mathRound_near ((T : ℚ) / 60)
      rw [abs_le] at hn hTabs
      have hb1 : (mathRound ((T : ℚ) / 60) : ℚ) ≤ ((2 ^ 47 : ℤ) : ℚ) := by
        push_cast
        linarith
      have hb2 : ((-2 ^ 47 : ℤ) : ℚ) ≤ (mathRound ((T : ℚ) / 60) : ℚ) := by
        push_cast
        linarith
      have hb1z : mathRound ((T : ℚ) / 60) ≤ 2 ^ 47 := by exact_mod_cast hb1
      have hb2z : -2 ^ 47 ≤ mathRound ((T : ℚ) / 60) := by exact_mod_cast hb2
      simp only [minInt, maxInt]
      omega

/-! ## The reference definition -/

theorem hours_knife_edge :
    estimateHours [second 0, second 4025, second 12668, second 14043] (thresholds 120 120) =
      4 := by
  simp [estimateHours, totalMinutes, sortDates, sessionLoop, second, thresholds,
    Time.Before, Time.Sub, Duration.Minutes, mathRound]
  norm_num

theorem hours_three_centuries :
    estimateHours [minute 0, minute 160000000] (thresholds 200000000 60) = 2666667 := by
  simp [estimateHours, totalMinutes, sortDates, sessionLoop, minute, thresholds,
    Time.Before, Time.Sub, Duration.Minutes, mathRound]
  norm_num

theorem hours_large_credit :
    estimateHours [minute 0, minute 1000] (thresholds 120 100000000000000041) =
      1666666666666667 := by
  simp [estimateHours, totalMinutes, sortDates, sessionLoop, minute, thresholds,
    Time.Before, Time.Sub, Duration.Minutes, mathRound]
  norm_num

theorem hours_below_threshold :
    estimateHours [minute 0, minute 1000000 - 1] (thresholds 1000000 0) = 16667 := by
  simp [estimateHours, totalMinutes, sortDates, sessionLoop, minute, thresholds,
    Time.Before, Time.Sub, Duration.Minutes, mathRound]
  norm_num

/-- C1 as stated fails in the arithmetic of the program, in four ways.
Rounding: timestamps at 0 s, 4025 s, 12668 s and 14043 s with thresholds
(120, 120) have the reference total 210 minutes, 4 hours, while the running sum
in binary64 stays below 210 and `estimateHours` returns 3.  Saturation: two
timestamps 160000000 minutes apart with thresholds (200000000, 60) have the
reference total 160000000 minutes, 2666667 hours, while `Sub` returns the
largest `Duration` and `estimateHours` returns 2562048.  Large credit: with
thresholds (120, 100000000000000041) two timestamps 1000 minutes apart have the
reference estimate 1666666666666667, while `float64(...)` rounds the credit and
`estimateHours` returns 1666666666666668.  Fractions of a second: with
thresholds (1000000, 0) a gap one nanosecond short of 1000000 minutes is below
the threshold and the reference estimate is 16667 hours, while the gap in
binary64 is 1000000.0 minutes, a session boundary, and `estimateHours`
returns 0. -/
theorem estimateHoursGo_ne_spec :
    (2 ≤ [second 0, second 4025, second 12668, second 14043].length ∧
      estimateHoursGo amd64 [second 0, second 4025, second 12668, second 14043]
        (thresholds 120 120) = 3 ∧
      specEstimateHours 120 120 [second 0, second 4025, second 12668, second 14043] = 4) ∧
    (estimateHoursGo amd64 [minute 0, minute 160000000] (thresholds 200000000 60) = 2562048 ∧
      specEstimateHours 200000000 60 [minute 0, minute 160000000] = 2666667) ∧
    (estimateHoursGo amd64 [minute 0, minute 1000] (thresholds 120 100000000000000041) =
        1666666666666668 ∧
      specEstimateHours 120 100000000000000041 [minute 0, minute 1000] =
        1666666666666667) ∧
    (estimateHoursGo amd64 [minute 0, minute 1000000 - 1] (thresholds 1000000 0) = 0 ∧
      specEstimateHours 1000000 0 [minute 0, minute 1000000 - 1] = 16667) := by
  refine ⟨⟨by decide, by decide!, ?_⟩, ⟨by decide!, ?_⟩, ⟨by decide!, ?_⟩,
    ⟨by decide!, ?_⟩⟩
  · rw [← hours_knife_edge]
    exact (estimateHours_eq_spec _ (thresholds 120 120) (by decide)).symm
  · rw [← hours_three_centuries]
    exact (estimateHours_eq_spec _ (thresholds 200000000 60) (by decide)).symm
  · rw [← hours_large_credit]
    exact (estimateHours_eq_spec _ (thresholds 120 100000000000000041) (by decide)).symm
  · rw [← hours_below_threshold]
    exact (estimateHours_eq_spec _ (thresholds 1000000 0) (by decide)).symm

/-- C1 (amended): for every list of at least two and at most `2 ^ 17`
timestamps that are whole seconds (as the timestamps of commits are), any two of
them no further apart than the largest `Duration` (`2 ^ 63 - 1` nanoseconds),
and all thresholds with `n * |FirstCommitAdditionInMinutes| ≤ 2 ^ 28` for the
`n` timestamps, `estimateHours` is the reference estimate (sort ascending,
credit each consecutive pair its gap when the gap is below
`MaxCommitDiffInMinutes` and `FirstCommitAdditionInMinutes` otherwise, divide by
60, round to nearest with halves away from zero), provided the minute total of
the reference is not an odd multiple of 30 or the timestamps lie whole minutes
apart; at an odd multiple of 30 minutes reached through fractions of a minute
the rounding of binary64 decides the hour. -/
theorem estimateHoursGo_eq_spec (outOfRange : ℤ → ℤ) (dates : List Time) (config : Config)
    (h : 2 ≤ dates.length) (hlen : dates.length ≤ 2 ^ 17)
    (hsec : ∀ t ∈ dates, t % 1000000000 = 0)
    (hspan : ∀ t ∈ dates, ∀ u ∈ dates, u - t ≤ maxDuration)
    (hadd : (dates.length : ℤ) * |config.FirstCommitAdditionInMinutes| ≤ 2 ^ 28)
    (hedge : (∀ k : ℤ,
      specTotalMinutes config.MaxCommitDiffInMinutes config.FirstCommitAdditionInMinutes
        dates ≠ 60 * (k : ℚ) + 30) ∨
      (∀ t ∈ dates, ∀ u ∈ dates, (u - t) % 60000000000 = 0)) :
    estimateHoursGo outOfRange dates config =
      specEstimateHours config.MaxCommitDiffInMinutes config.FirstCommitAdditionInMinutes
        dates := by
  have hperm := sortDates_perm dates
  have hsorted := sortDates_sorted dates
  have hc : List.Chain' secondStep (sortDates dates) :=
    chain_secondStep _ hsorted (fun t ht => hsec t (hperm.mem_iff.mp ht))
      (fun t ht u hu => hspan t (hperm.mem_iff.mp ht) u (hperm.mem_iff.mp hu))
  have haddq : (dates.length : ℚ) * |(config.FirstCommitAdditionInMinutes : ℚ)| ≤ 2 ^ 28 := by
    have : (((dates.length : ℤ) * |config.FirstCommitAdditionInMinutes| : ℤ) : ℚ) ≤
        ((2 ^ 28 : ℤ) : ℚ) := by exact_mod_cast hadd
    push_cast at this
    exact this
  have hlenq : (dates.length : ℚ) ≤ 2 ^ 17 := by exact_mod_cast hlen
  have hW : absCredits config (sortDates dates) ≤
      153722868 + (dates.length : ℚ) * |(config.FirstCommitAdditionInMinutes : ℚ)| := by
    have hl := sortDates_length dates
    have ha0 := abs_nonneg (config.FirstCommitAdditionInMinutes : ℚ)
    match hs : sortDates dates with
    | [] =>
      simp only [absCredits]
      positivity
    | x :: l =>
      rw [hs] at hperm hsorted hl
      have hch := chain_and_sorted
        (fun a b => ¬ Duration.Minutes (Time.Sub b a) < (config.MaxCommitDiffInMinutes : ℚ) →
          |(config.FirstCommitAdditionInMinutes : ℚ)| ≤
            |(config.FirstCommitAdditionInMinutes : ℚ)|) (x :: l) hsorted
        (chain_of_forall _ (fun _ _ _ => le_refl _) _)
      have hx : x ∈ dates := hperm.mem_iff.mp (List.mem_cons_self _ _)
      have hb := absCredits_le config |(config.FirstCommitAdditionInMinutes : ℚ)| ha0
        (x + maxDuration) l x hch
        (fun t ht => by
          have := hspan x hx t (hperm.mem_iff.mp ht)
          linarith)
      have hmin : Duration.Minutes (Time.Sub (x + maxDuration) x) ≤ 153722868 := by
        unfold Duration.Minutes Time.Sub maxDuration
        rw [add_sub_cancel_left]
        norm_num
      have hll : (l.length : ℚ) ≤ (dates.length : ℚ) := by
        have : l.length ≤ dates.length := by
          simp only [List.length_cons] at hl
          omega
        exact_mod_cast this
      have := mul_le_mul_of_nonneg_right hll ha0
      linarith
  have hsize : ((dates.length : ℚ) + 1) *
      (2 * (153722868 + (dates.length : ℚ) * |(config.FirstCommitAdditionInMinutes : ℚ)|) + 3) ≤
        2 ^ 47 := by
    have h0 : (0 : ℚ) ≤ (dates.length : ℚ) := by positivity
    have h1 : 2 * (153722868 + (dates.length : ℚ) *
        |(config.FirstCommitAdditionInMinutes : ℚ)|) + 3 ≤ 844316651 := by
      norm_num at haddq ⊢
      linarith
    have h2 : (0 : ℚ) ≤ 2 * (153722868 + (dates.length : ℚ) *
        |(config.FirstCommitAdditionInMinutes : ℚ)|) + 3 := by positivity
    calc ((dates.length : ℚ) + 1) *
        (2 * (153722868 + (dates.length : ℚ) *
          |(config.FirstCommitAdditionInMinutes : ℚ)|) + 3)
        ≤ (2 ^ 17 + 1) * 844316651 := mul_le_mul (by linarith) h1 h2 (by positivity)
      _ ≤ 2 ^ 47 := by norm_num
  rcases hedge with hedge | hminute
  · rw [estimateHoursGo_eq_exact outOfRange dates config _ hc hW hsize
      (fun k => by
        rw [← specTotalMinutes_eq]
        exact hedge k)]
    exact estimateHours_eq_spec dates config h
  · have hcm : List.Chain' minuteStep (sortDates dates) :=
      chain_minuteStep _ hsorted
        (fun t ht u hu => hminute t (hperm.mem_iff.mp ht) u (hperm.mem_iff.mp hu))
        (fun t ht u hu => hspan t (hperm.mem_iff.mp ht) u (hperm.mem_iff.mp hu))
    have hW2 : absCredits config (sortDates dates) ≤ 2 ^ 46 := by
      have : (153722868 : ℚ) + 2 ^ 28 ≤ 2 ^ 46 := by norm_num
      linarith
    rw [estimateHoursGo_eq_exact_minutes outOfRange dates config hcm hW2]
    exact estimateHours_eq_spec dates config h

theorem specTotalMinutes_scenarioA : specTotalMinutes 120 120 scenarioA = 240 := by
  have h := specTotalMinutes_eq scenarioA (thresholds 120 120)
  have e : totalMinutes scenarioA (thresholds 120 120) = 240 := by
    simp [totalMinutes, sortDates, sessionLoop, scenarioA, minute, thresholds,
      Time.Before, Time.Sub, Duration.Minutes]
    norm_num
  rw [e] at h
  exact h

/-- Scenario A: thresholds (120, 120) and timestamps 09:00, 09:30, 11:00 and
15:00 of one day give 240 minutes, 4 hours. -/
theorem estimateHoursGo_eq_spec_scenarioA :
    2 ≤ scenarioA.length ∧
      (∀ t ∈ scenarioA, t % 1000000000 = 0) ∧
      (∀ t ∈ scenarioA, ∀ u ∈ scenarioA, u - t ≤ maxDuration) ∧
      specTotalMinutes 120 120 scenarioA = 240 ∧
      estimateHoursGo amd64 scenarioA (thresholds 120 120) =
        specEstimateHours 120 120 scenarioA ∧
      estimateHoursGo amd64 scenarioA (thresholds 120 120) = 4 :=
  have hsec : ∀ t ∈ scenarioA, t % 1000000000 = 0 := by decide
  have hspan : ∀ t ∈ scenarioA, ∀ u ∈ scenarioA, u - t ≤ maxDuration := by decide
  ⟨by decide, hsec, hspan, specTotalMinutes_scenarioA,
    estimateHoursGo_eq_spec amd64 scenarioA (thresholds 120 120) (by decide) (by decide)
      hsec hspan (by decide)
      (Or.inl fun k hk => by
        have h1 : specTotalMinutes (thresholds 120 120).MaxCommitDiffInMinutes
            (thresholds 120 120).FirstCommitAdditionInMinutes scenarioA = 240 :=
          specTotalMinutes_scenarioA
        rw [h1] at hk
        have h2 : ((240 : ℤ) : ℚ) = ((60 * k + 30 : ℤ) : ℚ) := by
          push_cast
          exact hk
        have h3 : (240 : ℤ) = 60 * k + 30 := by exact_mod_cast h2
        omega),
    by decide!⟩

/-! ## One session, in the arithmetic of the program -/

theorem span_hours_whole_minutes (d : Duration) (h0 : 0 ≤ d) (h1 : d ≤ maxDuration)
    (hm : d % 60000000000 = 0) :
    mathRound (f64 (Duration.MinutesGo d / 60)) = mathRound (Duration.Minutes d / 60) := by
  have h0z : @LE.le ℤ _ 0 d := h0
  have hmz : (@HMod.hMod ℤ ℤ ℤ _ d 60000000000) = 0 := hm
  have h1z : @LE.le ℤ _ d 9223372036854775807 := h1
  have hk : @Eq ℤ d ((@HDiv.hDiv ℤ ℤ ℤ _ d 60000000000) * 60000000000) := by omega
  have hk0 : 0 ≤ (@HDiv.hDiv ℤ ℤ ℤ _ d 60000000000) := by omega
  have hk1 : (@HDiv.hDiv ℤ ℤ ℤ _ d 60000000000) ≤ 153722867 := by omega
  have hw := MinutesGo_whole (@HDiv.hDiv ℤ ℤ ℤ _ d 60000000000) (by omega)
  rw [← hk] at hw
  have hx : Duration.Minutes d = (((@HDiv.hDiv ℤ ℤ ℤ _ d 60000000000) : ℤ) : ℚ) := by
    unfold Duration.Minutes
    rw [div_eq_iff (by norm_num)]
    exact_mod_cast hk
  rw [hw, hx]
  apply hours_of_whole_minutes
  have a1 : (0 : ℚ) ≤ (((@HDiv.hDiv ℤ ℤ ℤ _ d 60000000000) : ℤ) : ℚ) := by exact_mod_cast hk0
  have a2 : (((@HDiv.hDiv ℤ ℤ ℤ _ d 60000000000) : ℤ) : ℚ) ≤ 153722867 := by
    exact_mod_cast hk1
  rw [abs_of_nonneg a1]
  have : (153722867 : ℚ) ≤ 2 ^ 46 := by norm_num
  linarith

/-- For a span of whole seconds that fits a `Duration` and is not an odd
multiple of half an hour, or is a whole number of minutes, the hours of the span
come out the same in binary64 and in exact arithmetic. -/
theorem span_hours_stable (d : Duration) (h0 : 0 ≤ d) (h1 : d ≤ maxDuration)
    (hs : d % 1000000000 = 0)
    (hedge : d % 3600000000000 ≠ 1800000000000 ∨ d % 60000000000 = 0) :
    mathRound (f64 (Duration.MinutesGo d / 60)) = mathRound (Duration.Minutes d / 60) := by
  rcases hedge with hedge | hm
  swap
  · exact span_hours_whole_minutes d h0 h1 hm
  have h0z : @LE.le ℤ _ 0 d := h0
  have hsz : (@HMod.hMod ℤ ℤ ℤ _ d 1000000000) = 0 := hs
  have hez : (@HMod.hMod ℤ ℤ ℤ _ d 3600000000000) ≠ 1800000000000 := hedge
  have hmul : @Eq ℤ d (1000000000 * (@HDiv.hDiv ℤ ℤ ℤ _ d 1000000000)) := by omega
  have hN : (@HDiv.hDiv ℤ ℤ ℤ _ d 1000000000) % 3600 ≠ 1800 := by omega
  have hq : (d : ℚ) = 1000000000 * (((@HDiv.hDiv ℤ ℤ ℤ _ d 1000000000) : ℤ) : ℚ) := by
    exact_mod_cast hmul
  have herr := MinutesGo_err d h0 h1
  obtain ⟨hx0, hxb⟩ := Minutes_bounds d h0 h1
  have hg0 := MinutesGo_nonneg d h0
  have hrel := f64_relerr (Duration.MinutesGo d / 60)
  rw [abs_of_nonneg (by positivity : (0 : ℚ) ≤ Duration.MinutesGo d / 60)] at hrel
  apply mathRound_stable (@HDiv.hDiv ℤ ℤ ℤ _ d 1000000000) _ _ _ hN
  · rw [abs_le] at herr hrel
    rw [abs_lt]
    constructor <;> linarith
  · unfold Duration.Minutes
    rw [hq]
    ring

/-- C20 as stated fails in the arithmetic of the program, in three ways.
Rounding: four timestamps at 0 s, 1 s, 1454 s and 1800 s with thresholds
(120, 120) are one session that spans 30 minutes, and 30 / 60 rounds to 1 hour;
the running sum of the three gaps in binary64 is 29.999999999999996 minutes
(`8444249301319679 / 2 ^ 48`), and `estimateHours` returns 0.  Saturation: two
timestamps 200000000 minutes apart with the threshold 300000000 are one session
that spans 3333333 hours; `Sub` returns the largest `Duration` and
`estimateHours` returns 2562048.  Fractions of a second: two timestamps one
nanosecond short of 1000000 minutes apart with thresholds (1000000, 0) are one
session that spans 16667 hours; the gap in binary64 is 1000000.0 minutes, a
session boundary, and `estimateHours` returns 0. -/
theorem telescoping_fails_in_program_arithmetic :
    (2 ≤ halfHourStream.length ∧
      List.Chain'
        (fun a b => gapMinutes a b < ((thresholds 120 120).MaxCommitDiffInMinutes : ℚ))
        (sortDates halfHourStream) ∧
      totalMinutesGo halfHourStream (thresholds 120 120) =
        8444249301319679 / 281474976710656 ∧
      estimateHoursGo amd64 halfHourStream (thresholds 120 120) = 0 ∧
      mathRound (Duration.Minutes (Time.Sub (second 1800) (second 0)) / 60) = 1 ∧
      mathRound (f64 (Duration.MinutesGo (Time.SubGo (second 1800) (second 0)) / 60)) = 1) ∧
    (List.Chain'
        (fun a b =>
          gapMinutes a b < ((thresholds 300000000 120).MaxCommitDiffInMinutes : ℚ))
        (sortDates [minute 0, minute 200000000]) ∧
      estimateHoursGo amd64 [minute 0, minute 200000000] (thresholds 300000000 120) =
        2562048 ∧
      mathRound (Duration.Minutes (Time.Sub (minute 200000000) (minute 0)) / 60) =
        3333333) ∧
    (List.Chain'
        (fun a b => gapMinutes a b < ((thresholds 1000000 0).MaxCommitDiffInMinutes : ℚ))
        (sortDates [minute 0, minute 1000000 - 1]) ∧
      estimateHoursGo amd64 [minute 0, minute 1000000 - 1] (thresholds 1000000 0) = 0 ∧
      mathRound (Duration.Minutes (Time.Sub (minute 1000000 - 1) (minute 0)) / 60) =
        16667) := by
  refine ⟨⟨by decide, ?_, by decide!, by decide!, by decide!, by decide!⟩,
    ⟨?_, by decide!, by decide!⟩, ⟨?_, by decide!, by decide!⟩⟩
  · simp [sortDates, halfHourStream, second, gapMinutes, thresholds, Time.Before]
    norm_num
  · simp [sortDates, minute, gapMinutes, thresholds, Time.Before]
    norm_num
  · simp [sortDates, minute, gapMinutes, thresholds, Time.Before]
    norm_num

/-- C20 (amended): for a list of at least two and at most `2 ^ 18` timestamps
that are whole seconds (as the timestamps of commits are), whose span from the
earliest to the latest fits a `Duration` (`2 ^ 63 - 1` nanoseconds), and in
which every gap between consecutive sorted timestamps is strictly below
`MaxCommitDiffInMinutes`, `estimateHours` is the span in minutes divided by 60
and rounded, the span taken exactly or computed by the program in binary64
alike, provided the span is not an odd multiple of 30 minutes or every
timestamp lies whole minutes after the earliest; neither
`FirstCommitAdditionInMinutes` nor the timestamps in between appear in it. -/
theorem single_session_telescoping (outOfRange : ℤ → ℤ) (dates : List Time)
    (config : Config) (lo hi : Time)
    (h : 2 ≤ dates.length) (hlen : dates.length ≤ 2 ^ 18)
    (hlo : lo ∈ dates) (hhi : hi ∈ dates)
    (hmin : ∀ t ∈ dates, lo ≤ t) (hmax : ∀ t ∈ dates, t ≤ hi)
    (hsec : ∀ t ∈ dates, t % 1000000000 = 0)
    (hspan : hi - lo ≤ maxDuration)
    (hedge : (hi - lo) % 3600000000000 ≠ 1800000000000 ∨
      ∀ t ∈ dates, (t - lo) % 60000000000 = 0)
    (hgaps : List.Chain'
      (fun a b => gapMinutes a b < (config.MaxCommitDiffInMinutes : ℚ)) (sortDates dates)) :
    estimateHoursGo outOfRange dates config =
        mathRound (Duration.Minutes (Time.Sub hi lo) / 60) ∧
      estimateHoursGo outOfRange dates config =
        mathRound (f64 (Duration.MinutesGo (Time.SubGo hi lo) / 60)) := by
  have hperm := sortDates_perm dates
  have hsorted := sortDates_sorted dates
  have hlohi : lo ≤ hi := hmin hi hhi
  have hloz : (@HMod.hMod ℤ ℤ ℤ _ lo 1000000000) = 0 := hsec lo hlo
  have hhiz : (@HMod.hMod ℤ ℤ ℤ _ hi 1000000000) = 0 := hsec hi hhi
  have hspanz : @LE.le ℤ _ (@HSub.hSub ℤ ℤ ℤ _ hi lo) maxDuration := hspan
  have hc : List.Chain' secondStep (sortDates dates) :=
    chain_secondStep _ hsorted (fun t ht => hsec t (hperm.mem_iff.mp ht))
      (fun t ht u hu => by
        have h1 : @LE.le ℤ _ lo t := hmin t (hperm.mem_iff.mp ht)
        have h2 : @LE.le ℤ _ u hi := hmax u (hperm.mem_iff.mp hu)
        show @LE.le ℤ _ (@HSub.hSub ℤ ℤ ℤ _ u t) maxDuration
        omega)
  have hgaps2 : List.Chain'
      (fun a b => Duration.Minutes (Time.Sub b a) < (config.MaxCommitDiffInMinutes : ℚ))
      (sortDates dates) := hgaps
  obtain ⟨mid, hs⟩ := sortDates_ends dates lo hi h hlo hhi hmin hmax
  have htot : totalMinutes dates config = Duration.Minutes (Time.Sub hi lo) := by
    unfold totalMinutes
    rw [hs]
    rw [hs] at hgaps2
    exact sessionLoop_single_session config lo mid hi hgaps2
  have hW : absCredits config (sortDates dates) ≤ 153722868 := by
    have hch := chain_and_sorted
      (fun a b => ¬ Duration.Minutes (Time.Sub b a) < (config.MaxCommitDiffInMinutes : ℚ) →
        |(config.FirstCommitAdditionInMinutes : ℚ)| ≤ 0) (sortDates dates) hsorted
      (hgaps2.imp (fun _ _ hlt hn => absurd hlt hn))
    rw [hs] at hch
    have hb := absCredits_le config 0 (le_refl 0) hi (mid ++ [hi]) lo hch
      (fun t ht => by
        rw [← hs] at ht
        exact hmax t (hperm.mem_iff.mp ht))
    rw [hs]
    have := (Minutes_bounds (hi - lo) (sub_nonneg.mpr hlohi) hspan).2
    unfold Time.Sub at hb
    linarith
  have hsize : ((dates.length : ℚ) + 1) * (2 * 153722868 + 3) ≤ 2 ^ 47 := by
    have hlenq : (dates.length : ℚ) ≤ 2 ^ 18 := by exact_mod_cast hlen
    have e18 : (2 : ℚ) ^ 18 = 262144 := by norm_num
    rw [e18] at hlenq
    norm_num
    linarith
  have hedge2 : (hi - lo) % 3600000000000 ≠ 1800000000000 →
      ∀ k : ℤ, totalMinutes dates config ≠ 60 * (k : ℚ) + 30 := by
    intro hedge k hk
    rw [htot] at hk
    unfold Duration.Minutes Time.Sub at hk
    rw [div_eq_iff (by norm_num)] at hk
    have h2 : ((hi - lo : ℤ) : ℚ) = (((60 * k + 30) * 60000000000 : ℤ) : ℚ) := by
      push_cast
      push_cast at hk
      exact hk
    have h3 : @Eq ℤ (@HSub.hSub ℤ ℤ ℤ _ hi lo) ((60 * k + 30) * 60000000000) := by
      exact_mod_cast h2
    have hez : (@HMod.hMod ℤ ℤ ℤ _ (@HSub.hSub ℤ ℤ ℤ _ hi lo) 3600000000000) ≠
        1800000000000 := hedge
    omega
  have hexact : estimateHoursGo outOfRange dates config = estimateHours dates config := by
    rcases hedge with hedge | hminute
    · exact estimateHoursGo_eq_exact outOfRange dates config 153722868 hc hW hsize
        (hedge2 hedge)
    · have hcm : List.Chain' minuteStep (sortDates dates) :=
        chain_minuteStep _ hsorted
          (fun t ht u hu => by
            have h1 : (@HMod.hMod ℤ ℤ ℤ _ (@HSub.hSub ℤ ℤ ℤ _ t lo) 60000000000) = 0 :=
              hminute t (hperm.mem_iff.mp ht)
            have h2 : (@HMod.hMod ℤ ℤ ℤ _ (@HSub.hSub ℤ ℤ ℤ _ u lo) 60000000000) = 0 :=
              hminute u (hperm.mem_iff.mp hu)
            show (@HMod.hMod ℤ ℤ ℤ _ (@HSub.hSub ℤ ℤ ℤ _ u t) 60000000000) = 0
            omega)
          (fun t ht u hu => by
            have h1 : @LE.le ℤ _ lo t := hmin t (hperm.mem_iff.mp ht)
            have h2 : @LE.le ℤ _ u hi := hmax u (hperm.mem_iff.mp hu)
            show @LE.le ℤ _ (@HSub.hSub ℤ ℤ ℤ _ u t) maxDuration
            omega)
      have hW2 : absCredits config (sortDates dates) ≤ 2 ^ 46 := by
        have : (153722868 : ℚ) ≤ 2 ^ 46 := by norm_num
        linarith
      exact estimateHoursGo_eq_exact_minutes outOfRange dates config hcm hW2
  have hmain : estimateHoursGo outOfRange dates config =
      mathRound (Duration.Minutes (Time.Sub hi lo) / 60) := by
    rw [hexact]
    exact single_session_telescoping_exact dates config lo hi h hlo hhi hmin hmax hgaps2
  refine ⟨hmain, ?_⟩
  rw [hmain, SubGo_eq hi lo hlohi hspan]
  unfold Time.Sub
  refine (span_hours_stable (hi - lo) (sub_nonneg.mpr hlohi) hspan ?_ ?_).symm
  · show (@HMod.hMod ℤ ℤ ℤ _ (@HSub.hSub ℤ ℤ ℤ _ hi lo) 1000000000) = 0
    omega
  · rcases hedge with hedge | hminute
    · exact Or.inl hedge
    · exact Or.inr (hminute hi hhi)

/-- Timestamps at 0 s, 1 s, 1454 s and 1801 s with thresholds (120, 999): one
session that spans 30 minutes and a second, 1 hour, whatever the credit. -/
theorem single_session_telescoping_witness :
    2 ≤ [second 1454, second 0, second 1801, second 1].length ∧
      (∀ t ∈ [second 1454, second 0, second 1801, second 1], t % 1000000000 = 0) ∧
      second 1801 - second 0 ≤ maxDuration ∧
      ((second 1801 - second 0) % 3600000000000 ≠ 1800000000000 ∨
        ∀ t ∈ [second 1454, second 0, second 1801, second 1],
          (t - second 0) % 60000000000 = 0) ∧
      List.Chain'
        (fun a b => gapMinutes a b < ((thresholds 120 999).MaxCommitDiffInMinutes : ℚ))
        (sortDates [second 1454, second 0, second 1801, second 1]) ∧
      (estimateHoursGo amd64 [second 1454, second 0, second 1801, second 1]
          (thresholds 120 999) =
        mathRound (Duration.Minutes (Time.Sub (second 1801) (second 0)) / 60) ∧
      estimateHoursGo amd64 [second 1454, second 0, second 1801, second 1]
          (thresholds 120 999) =
        mathRound (f64 (Duration.MinutesGo (Time.SubGo (second 1801) (second 0)) / 60))) ∧
      estimateHoursGo amd64 [second 1454, second 0, second 1801, second 1]
        (thresholds 120 999) = 1 :=
  have hw : ∀ t ∈ [second 1454, second 0, second 1801, second 1], t % 1000000000 = 0 := by
    decide
  have hc : List.Chain'
      (fun a b => gapMinutes a b < ((thresholds 120 999).MaxCommitDiffInMinutes : ℚ))
      (sortDates [second 1454, second 0, second 1801, second 1]) := by
    simp [sortDates, second, gapMinutes, thresholds, Time.Before]
    norm_num
  ⟨by decide, hw, by decide, Or.inl (by decide), hc,
    single_session_telescoping amd64 [second 1454, second 0, second 1801, second 1]
      (thresholds 120 999) (second 0) (second 1801) (by decide) (by decide) (by simp)
      (by simp) (by decide) (by decide) hw (by decide) (Or.inl (by decide)) hc,
    by decide!⟩

end GitHours
